import Mathlib

/-!
Verification of the columnar chunk concatenation kernel
(src/common/expression/src/kernels/concat.rs).

The kernel operates on the engine's column model (spec section 3): a column is
a tagged value whose variants are Null, EmptyArray, Number, Boolean, String,
Array, Nullable and Tuple.  The concrete column and builder types live in the
crate's types module, which is not part of the sources here; they are modelled
from the spec (sections 3, 4.10 and 6), while the concat algorithm itself is a
direct translation of concat.rs.  Machine integers are modelled as Nat or Int;
Rust panics (index out of bounds, failed unwrap of a downcast) are modelled by
Option, with none standing for a panic.
-/

/-- The logical value of one row of a column, as observed through the engine's
scalar references: a row of a Nullable column is observed as the inner value
when the validity bit is set and as a null otherwise. -/
inductive CellValue where
  | null
  | emptyArray
  | number (n : Int)
  | boolean (b : Bool)
  | string (bytes : List Nat)
  | array (elems : List CellValue)
  | tuple (fields : List CellValue)

/-- Modelled from the spec: the column sum type of section 3, with each
variant carrying the physical form described there (offsets are a list of
naturals, a bitmap is a list of booleans, string data is a list of bytes). -/
inductive Column where
  | null (len : Nat)
  | emptyArray (len : Nat)
  | number (values : List Int)
  | boolean (bits : List Bool)
  | string (offsets : List Nat) (data : List Nat)
  | array (offsets : List Nat) (inner : Column)
  | nullable (inner : Column) (validity : List Bool)
  | tuple (fields : List Column) (len : Nat)

/-- Row count of a column (spec section 3, length semantics column). -/
def Column.len : Column → Nat
  | .null l => l
  | .emptyArray l => l
  | .number vs => vs.length
  | .boolean bs => bs.length
  | .string offs _ => offs.length - 1
  | .array offs _ => offs.length - 1
  | .nullable _ validity => validity.length
  | .tuple _ l => l

/-- The sublist of elements at positions b, b+1, ..., e-1. -/
def listSlice (l : List α) (b e : Nat) : List α := (l.take e).drop b

/-- Monotonically nondecreasing list of naturals (offsets invariant). -/
def offsetsMono : List Nat → Bool
  | [] => true
  | [_] => true
  | a :: b :: rest => Nat.ble a b && offsetsMono (b :: rest)

mutual
/-- The logical value of row r of a column.  Total: out-of-range reads fall
back to defaults, mirroring that callers only use in-range rows. -/
def Column.cellAt : Column → Nat → CellValue
  | .null _, _ => .null
  | .emptyArray _, _ => .emptyArray
  | .number vs, r => .number (vs.getD r 0)
  | .boolean bs, r => .boolean (bs.getD r false)
  | .string offs data, r => .string (listSlice data (offs.getD r 0) (offs.getD (r+1) 0))
  | .array offs inner, r =>
      .array ((List.range (offs.getD (r+1) 0 - offs.getD r 0)).map
        (fun k => inner.cellAt (offs.getD r 0 + k)))
  | .nullable inner validity, r => if validity.getD r false then inner.cellAt r else .null
  | .tuple fields _, r => .tuple (Column.cellAtAll fields r)

/-- Row r of every column of a list, in order. -/
def Column.cellAtAll : List Column → Nat → List CellValue
  | [], _ => []
  | c :: cs, r => c.cellAt r :: Column.cellAtAll cs r
end

/-- All logical rows of a column, in row order. -/
def Column.cells (c : Column) : List CellValue := (List.range c.len).map c.cellAt

mutual
/-- The physical invariants of the data model (spec section 3): string and
array offsets start at 0, are monotone, and end at the payload length; a
nullable column has as many validity bits as inner rows; every tuple field has
the tuple's length. -/
def Column.wf : Column → Bool
  | .null _ => true
  | .emptyArray _ => true
  | .number _ => true
  | .boolean _ => true
  | .string offs data =>
      (offs.head? == some 0) && offsetsMono offs &&
        (offs.getLast? == some data.length)
  | .array offs inner =>
      (offs.head? == some 0) && offsetsMono offs &&
        (offs.getLast? == some inner.len) && inner.wf
  | .nullable inner validity => (validity.length == inner.len) && inner.wf
  | .tuple fields l => Column.wfAll fields l

/-- Well-formedness of tuple fields: each field is well-formed and has the
given length. -/
def Column.wfAll : List Column → Nat → Bool
  | [], _ => true
  | f :: fs, l => f.wf && (f.len == l) && Column.wfAll fs l
end

mutual
/-- Same variant and, for parametric variants, the same inner type
(spec section 4.2: the contract of the column concat dispatcher). -/
def Column.sameShape : Column → Column → Bool
  | .null _, .null _ => true
  | .emptyArray _, .emptyArray _ => true
  | .number _, .number _ => true
  | .boolean _, .boolean _ => true
  | .string _ _, .string _ _ => true
  | .array _ i1, .array _ i2 => Column.sameShape i1 i2
  | .nullable i1 _, .nullable i2 _ => Column.sameShape i1 i2
  | .tuple f1 _, .tuple f2 _ => Column.sameShapeAll f1 f2
  | _, _ => false

/-- Pointwise sameShape on equally long lists of columns. -/
def Column.sameShapeAll : List Column → List Column → Bool
  | [], [] => true
  | a :: as, b :: bs => Column.sameShape a b && Column.sameShapeAll as bs
  | _, _ => false
end

/-- Same outer variant tag only: the check performed by a typed downcast
(try_downcast_column succeeds exactly when the variant tag matches). -/
def Column.sameVariant : Column → Column → Bool
  | .null _, .null _ => true
  | .emptyArray _, .emptyArray _ => true
  | .number _, .number _ => true
  | .boolean _, .boolean _ => true
  | .string _ _, .string _ _ => true
  | .array _ _, .array _ _ => true
  | .nullable _ _, .nullable _ _ => true
  | .tuple _ _, .tuple _ _ => true
  | _, _ => false

mutual
/-- Modelled from the spec: the zero-length column of the same type, as
produced by a zero-length slice (spec section 4.7: the array builder is seeded
from a zero-length slice of the first input to capture the inner type). -/
def Column.emptyLike : Column → Column
  | .null _ => .null 0
  | .emptyArray _ => .emptyArray 0
  | .number _ => .number []
  | .boolean _ => .boolean []
  | .string _ _ => .string [0] []
  | .array _ inner => .array [0] inner.emptyLike
  | .nullable inner _ => .nullable inner.emptyLike []
  | .tuple fields _ => .tuple (Column.emptyLikeAll fields) 0

/-- emptyLike of every column of a list. -/
def Column.emptyLikeAll : List Column → List Column
  | [] => []
  | c :: cs => c.emptyLike :: Column.emptyLikeAll cs
end

mutual
/-- Modelled from the spec: the default value a builder pushes for a null row
of a nullable column (section 4.8: a row whose validity bit is false still
occupies a slot with an arbitrary but well-formed value). -/
def Column.defaultCell : Column → CellValue
  | .null _ => .null
  | .emptyArray _ => .emptyArray
  | .number _ => .number 0
  | .boolean _ => .boolean false
  | .string _ _ => .string []
  | .array _ _ => .array []
  | .nullable _ _ => .null
  | .tuple fields _ => .tuple (Column.defaultCellAll fields)

/-- defaultCell of every column of a list. -/
def Column.defaultCellAll : List Column → List CellValue
  | [] => []
  | f :: fs => f.defaultCell :: Column.defaultCellAll fs
end

mutual
/-- Whether a logical value can be pushed into a builder of the given
column's type (spec section 4.10: push_item appends one logical element in
the variant's natural representation). -/
def cellFits : Column → CellValue → Bool
  | .null _, v => match v with | .null => true | _ => false
  | .emptyArray _, v => match v with | .emptyArray => true | _ => false
  | .number _, v => match v with | .number _ => true | _ => false
  | .boolean _, v => match v with | .boolean _ => true | _ => false
  | .string _ _, v => match v with | .string _ => true | _ => false
  | .array _ inner, v =>
      match v with
      | .array elems => elems.all (fun e => cellFits inner e)
      | _ => false
  | .nullable inner _, v =>
      (match v with | .null => true | _ => false) || cellFits inner v
  | .tuple fields _, v =>
      match v with
      | .tuple vs => cellFitsZip fields vs
      | _ => false

/-- Pointwise cellFits on equally long lists. -/
def cellFitsZip : List Column → List CellValue → Bool
  | [], [] => true
  | f :: fs, v :: vs => cellFits f v && cellFitsZip fs vs
  | _, _ => false
end

/-- Map a fallible function over a list, failing if any element fails
(models a loop whose body may panic). -/
def optionMap (f : α → Option β) : List α → Option (List β)
  | [] => some []
  | a :: as =>
      match f a, optionMap f as with
      | some b, some bs => some (b :: bs)
      | _, _ => none

/-- Running end positions: the offsets appended by a builder that records the
cumulative payload length after each pushed row (spec section 4.6/4.7). -/
def runningEnds (start : Nat) : List Nat → List Nat
  | [] => []
  | n :: ns => (start + n) :: runningEnds (start + n) ns

mutual
/-- Modelled from the spec: the shared builder contract of section 4.10.
Appending a list of logical rows to a partially built column of the same
type: each variant appends in its natural representation, a nullable builder
records a validity bit and pushes the inner value (or a default for null), a
tuple builder pushes field-wise, and offset-based variants record running end
offsets.  A value of the wrong shape makes the builder panic (none). -/
def appendCells : Column → List CellValue → Option Column
  | .null l, vs =>
      if vs.all (fun v => match v with | .null => true | _ => false)
      then some (.null (l + vs.length)) else none
  | .emptyArray l, vs =>
      if vs.all (fun v => match v with | .emptyArray => true | _ => false)
      then some (.emptyArray (l + vs.length)) else none
  | .number ns, vs =>
      match optionMap (fun v => match v with | .number n => some n | _ => none) vs with
      | some xs => some (.number (ns ++ xs))
      | none => none
  | .boolean bs, vs =>
      match optionMap (fun v => match v with | .boolean b => some b | _ => none) vs with
      | some xs => some (.boolean (bs ++ xs))
      | none => none
  | .string offs data, vs =>
      match optionMap (fun v => match v with | .string s => some s | _ => none) vs with
      | some rows =>
          some (.string (offs ++ runningEnds data.length (rows.map List.length))
            (data ++ rows.flatten))
      | none => none
  | .array offs inner, vs =>
      match optionMap (fun v => match v with | .array es => some es | _ => none) vs with
      | some rows =>
          match appendCells inner rows.flatten with
          | some inner2 =>
              some (.array (offs ++ runningEnds inner.len (rows.map List.length)) inner2)
          | none => none
      | none => none
  | .nullable inner validity, vs =>
      match appendCells inner
          (vs.map (fun v => match v with | .null => inner.defaultCell | _ => v)) with
      | some inner2 =>
          some (.nullable inner2
            (validity ++ vs.map (fun v => match v with | .null => false | _ => true)))
      | none => none
  | .tuple fields l, vs =>
      match optionMap (fun v => match v with | .tuple ws => some ws | _ => none) vs with
      | some rows =>
          if rows.all (fun ws => ws.length == fields.length) then
            match appendTupleFields fields rows with
            | some fields2 => some (.tuple fields2 (l + vs.length))
            | none => none
          else none
      | none => none

/-- Field-wise appending for a tuple builder: field p receives component p of
every pushed row. -/
def appendTupleFields : List Column → List (List CellValue) → Option (List Column)
  | [], _ => some []
  | f :: fs, rows =>
      match appendCells f (rows.map (fun ws => ws.headD .null)),
            appendTupleFields fs (rows.map (fun ws => ws.drop 1)) with
      | some f2, some fs2 => some (f2 :: fs2)
      | _, _ => none
end

/-- Translation of Column::concat_primitive_types (concat.rs lines 141-148):
copy each input buffer end to end. -/
def Column.concat_primitive_types (values : List (List Int)) : List Int :=
  values.flatten

/-- Translation of Column::concat_scalar_types (concat.rs lines 150-164):
downcast every column to the builder's type (panicking on a variant mismatch,
modelled by none), then iterate each column's rows in order and push each item
into the builder. -/
def Column.concat_scalar_types (builder : Column) (columns : List Column) : Option Column :=
  match optionMap
      (fun c => if Column.sameVariant builder c then some (Column.cells c) else none)
      columns with
  | some cellLists => appendCells builder cellLists.flatten
  | none => none

mutual
/-- Translation of the dispatch of Column::concat (concat.rs lines 76-138) on
a non-empty input slice written as head and tail.  The recursive calls of the
source, Self::concat(&inners) in the Nullable arm and Self::concat(&cs) in the
Tuple arm, always receive as many columns as the dispatcher itself (at least
two in every reachable call), so the length-one fast path of Column::concat
never fires there and the calls are translated as direct dispatches on the
structurally smaller head. -/
def Column.concatDispatch : Column → List Column → Option Column
  | c0@(.number _), rest =>
      match optionMap (fun c => match c with | .number vs => some vs | _ => none)
          (c0 :: rest) with
      | some values => some (.number (Column.concat_primitive_types values))
      | none => none
  | c0@(.null _), rest => Column.concat_scalar_types (.null 0) (c0 :: rest)
  | c0@(.emptyArray _), rest => Column.concat_scalar_types (.emptyArray 0) (c0 :: rest)
  | c0@(.boolean _), rest => Column.concat_scalar_types (.boolean []) (c0 :: rest)
  | c0@(.string _ _), rest => Column.concat_scalar_types (.string [0] []) (c0 :: rest)
  | c0@(.array _ inner0), rest =>
      Column.concat_scalar_types (.array [0] inner0.emptyLike) (c0 :: rest)
  | .nullable inner0 v0, rest =>
      match optionMap
          (fun c => match c with | .nullable i v => some (i, v) | _ => none) rest with
      | some parts =>
          match Column.concatDispatch inner0 (parts.map Prod.fst) with
          | some column =>
              match Column.concat_scalar_types (.boolean [])
                  (Column.boolean v0 :: parts.map (fun p => Column.boolean p.2)) with
              | some (.boolean validity) => some (.nullable column validity)
              | _ => none
          | none => none
      | none => none
  | .tuple fields0 l0, rest =>
      match Column.concatFields fields0 0 rest with
      | some fields2 => some (.tuple fields2 (l0 + (rest.map Column.len).sum))
      | none => none

/-- The loop over field indices of the Tuple arm (concat.rs lines 123-137):
for each field index, gather that field from every input (panicking if an
input is not a tuple or has too few fields) and concatenate recursively. -/
def Column.concatFields : List Column → Nat → List Column → Option (List Column)
  | [], _, _ => some []
  | f0 :: fs, idx, rest =>
      match optionMap
          (fun c => match c with | .tuple gs _ => gs.get? idx | _ => none) rest with
      | some gathered =>
          match Column.concatDispatch f0 gathered,
                Column.concatFields fs (idx + 1) rest with
          | some c, some cs => some (c :: cs)
          | _, _ => none
      | none => none
end

/-- Translation of Column::concat (concat.rs lines 70-139): the length-one
fast path returns the input unchanged; an empty slice panics on columns[0]
(modelled by none); otherwise dispatch on the variant of the first column. -/
def Column.concat (columns : List Column) : Option Column :=
  if columns.length = 1 then columns.head?
  else
    match columns with
    | [] => none
    | c0 :: rest => Column.concatDispatch c0 rest

/-- Modelled from the spec: the scalar values of the engine (glossary: a
single value standing in for a constant column). -/
inductive Scalar where
  | null
  | emptyArray
  | number (n : Int)
  | boolean (b : Bool)
  | string (bytes : List Nat)
  | array (col : Column)
  | tuple (fields : List Scalar)

mutual
/-- The logical row value denoted by a scalar. -/
def Scalar.toCell : Scalar → CellValue
  | .null => .null
  | .emptyArray => .emptyArray
  | .number n => .number n
  | .boolean b => .boolean b
  | .string bytes => .string bytes
  | .array col => .array col.cells
  | .tuple fields => .tuple (Scalar.toCellAll fields)

/-- toCell of every scalar of a list. -/
def Scalar.toCellAll : List Scalar → List CellValue
  | [] => []
  | s :: ss => s.toCell :: Scalar.toCellAll ss
end

mutual
/-- The zero-length column of the type a scalar broadcasts into. -/
def Scalar.shapeCol : Scalar → Column
  | .null => .null 0
  | .emptyArray => .emptyArray 0
  | .number _ => .number []
  | .boolean _ => .boolean []
  | .string _ => .string [0] []
  | .array col => .array [0] col.emptyLike
  | .tuple fields => .tuple (Scalar.shapeColAll fields) 0

/-- shapeCol of every scalar of a list. -/
def Scalar.shapeColAll : List Scalar → List Column
  | [] => []
  | s :: ss => s.shapeCol :: Scalar.shapeColAll ss
end

/-- Modelled from the spec: ScalarRef::repeat followed by build (section 6:
a repeat(n) builder yields a dense length-n column of that constant), realised
by pushing n copies of the scalar's value into a fresh builder of its type. -/
def Scalar.repeatN (s : Scalar) (n : Nat) : Option Column :=
  appendCells s.shapeCol (List.replicate n s.toCell)

/-- Modelled from the spec: a column slot of a chunk holds either a scalar or
a dense column (spec section 3, Value). -/
inductive Value where
  | scalar (s : Scalar)
  | column (c : Column)

/-- Modelled from the spec: a chunk is a bundle of column slots with an
explicitly stored row count (spec section 3). -/
structure Chunk where
  columns : List Value
  num_rows : Nat

/-- Number of column slots of a chunk. -/
def Chunk.num_columns (c : Chunk) : Nat := c.columns.length

/-- The error type of the kernel; the source returns
ErrorCode::EmptyData with the message about concatenating empty chunks (the
spec calls this single user-visible error kind EmptyInput). -/
inductive ErrorCode where
  | EmptyData (msg : String)

/-- The body of the inner loop of Chunk::concat (concat.rs lines 51-61): read
column slot i of a chunk (panicking when out of bounds), broadcasting a scalar
to a dense column of the chunk's row count. -/
def materializeAt (i : Nat) (ck : Chunk) : Option Column :=
  match ck.columns.get? i with
  | none => none
  | some (.scalar s) => s.repeatN ck.num_rows
  | some (.column c) => some c

/-- One iteration of the outer loop of Chunk::concat (concat.rs lines 49-64):
materialize slot i of every chunk, then concatenate column-wise. -/
def Chunk.concatColumnAt (chunks : List Chunk) (i : Nat) : Option Column :=
  match optionMap (materializeAt i) chunks with
  | some cols => Column.concat cols
  | none => none

/-- The outer loop of Chunk::concat over the given column indices. -/
def Chunk.concatCols (chunks : List Chunk) : List Nat → Option (List Value)
  | [] => some []
  | i :: is =>
      match Chunk.concatColumnAt chunks i, Chunk.concatCols chunks is with
      | some c, some cs => some (.column c :: cs)
      | _, _ => none

/-- Translation of Chunk::concat (concat.rs lines 38-66): error on an empty
slice, shallow clone of the single chunk, otherwise build every output column
and a new chunk whose row count is the sum of the inputs' row counts.  The
outer some is the absence of a panic; the source message uses the wording of
the spec without the apostrophe. -/
def Chunk.concat (chunks : List Chunk) : Option (Except ErrorCode Chunk) :=
  match chunks with
  | [] => some (.error (.EmptyData "cannot concat empty chunks"))
  | [c] => some (.ok c)
  | c0 :: _ =>
      match Chunk.concatCols chunks (List.range c0.num_columns) with
      | some cols => some (.ok (Chunk.mk cols ((chunks.map Chunk.num_rows).sum)))
      | none => none

/-- Total row count of a list of columns. -/
def sumLens (xs : List Column) : Nat := (xs.map Column.len).sum

/-- Rows preceding input m: the sum of the lengths of the first m columns. -/
def prefLen (xs : List Column) (m : Nat) : Nat := sumLens (xs.take m)

/-- The in-order concatenation of the logical rows of a list of columns. -/
def cellsJoin (xs : List Column) : List CellValue := (xs.map Column.cells).flatten

/-- The type a chunk slot contributes to the per-column concat: the scalar's
broadcast type, or the dense column itself. -/
def Value.shapeCol : Value → Column
  | .scalar s => s.shapeCol
  | .column c => c

/-- Chunk invariant of spec section 3: every dense column is well-formed and
has the chunk's row count. -/
def Chunk.wfB (ck : Chunk) : Bool :=
  ck.columns.all (fun v =>
    match v with
    | .scalar _ => true
    | .column c => c.wf && (c.len == ck.num_rows))

/-- Schema compatibility of a list of chunks (spec section 4.1: all chunks
share the same column count and corresponding column types), together with the
chunk invariant. -/
def chunksCompat : List Chunk → Bool
  | [] => true
  | c0 :: rest =>
      c0.wfB &&
      rest.all (fun ck => ck.wfB && (ck.num_columns == c0.num_columns)) &&
      (List.range c0.num_columns).all (fun i =>
        rest.all (fun ck =>
          match c0.columns.get? i, ck.columns.get? i with
          | some a, some b => Column.sameShape a.shapeCol b.shapeCol
          | _, _ => false))

/-! ### List utilities -/

theorem sizeOfStrongInd {α : Type _} [SizeOf α] {P : α → Prop}
    (h : ∀ c, (∀ c', sizeOf c' < sizeOf c → P c') → P c) : ∀ c, P c := by
  have key : ∀ n c, sizeOf c < n → P c := by
    intro n
    induction n with
    | zero => intro c hc; omega
    | succ n ih => intro c _; exact h c (fun c' hc' => ih c' (by omega))
  intro c
  exact key (sizeOf c + 1) c (by omega)

theorem optionMap_length {f : α → Option β} : ∀ {xs : List α} {ys : List β},
    optionMap f xs = some ys → ys.length = xs.length := by
  intro xs
  induction xs with
  | nil => intro ys h; simp [optionMap] at h; simp [← h]
  | cons a as ih =>
      intro ys h
      simp only [optionMap] at h
      cases hfa : f a with
      | none => rw [hfa] at h; simp at h
      | some b =>
          rw [hfa] at h
          cases hrec : optionMap f as with
          | none => rw [hrec] at h; simp at h
          | some bs =>
              rw [hrec] at h
              simp at h
              subst h
              simp [ih hrec]

theorem optionMap_getElem {f : α → Option β} : ∀ {xs : List α} {ys : List β},
    optionMap f xs = some ys → ∀ k (hk : k < xs.length) (hk' : k < ys.length),
      f (xs[k]) = some (ys[k]) := by
  intro xs
  induction xs with
  | nil => intro ys h k hk; simp at hk
  | cons a as ih =>
      intro ys h k hk hk'
      simp only [optionMap] at h
      cases hfa : f a with
      | none => rw [hfa] at h; simp at h
      | some b =>
          rw [hfa] at h
          cases hrec : optionMap f as with
          | none => rw [hrec] at h; simp at h
          | some bs =>
              rw [hrec] at h
              simp at h
              subst h
              cases k with
              | zero => simpa using hfa
              | succ k =>
                  simp only [List.getElem_cons_succ]
                  exact ih hrec k (by simpa using hk) (by simpa using hk')

theorem optionMap_isSome' {f : α → Option β} : ∀ (xs : List α),
    (∀ x ∈ xs, (f x).isSome = true) → ∃ ys, optionMap f xs = some ys := by
  intro xs
  induction xs with
  | nil => intro _; exact ⟨[], rfl⟩
  | cons a as ih =>
      intro h
      obtain ⟨b, hb⟩ := Option.isSome_iff_exists.mp (h a (by simp))
      obtain ⟨bs, hbs⟩ := ih (fun x hx => h x (by simp [hx]))
      exact ⟨b :: bs, by simp [optionMap, hb, hbs]⟩

theorem optionMap_isSome {f : α → Option β} : ∀ (xs : List α),
    (∀ x ∈ xs, ∃ y, f x = some y) → ∃ ys, optionMap f xs = some ys := by
  intro xs
  induction xs with
  | nil => intro _; exact ⟨[], rfl⟩
  | cons a as ih =>
      intro h
      obtain ⟨b, hb⟩ := h a (by simp)
      obtain ⟨bs, hbs⟩ := ih (fun x hx => h x (by simp [hx]))
      exact ⟨b :: bs, by simp [optionMap, hb, hbs]⟩

theorem optionMap_if_map {p : α → Bool} {g : α → β} : ∀ {xs : List α},
    (∀ x ∈ xs, p x = true) →
    optionMap (fun x => if p x then some (g x) else none) xs = some (xs.map g) := by
  intro xs
  induction xs with
  | nil => intro _; rfl
  | cons a as ih =>
      intro h
      simp only [optionMap, h a (by simp), if_pos, List.map_cons,
        ih (fun x hx => h x (by simp [hx]))]

theorem optionMap_map_eq {f : α → Option β} : ∀ {xs : List α} {ys : List β}
    {g : α → β}, optionMap f xs = some ys → (∀ x ∈ xs, f x = some (g x)) →
    ys = xs.map g := by
  intro xs ys g h hg
  refine List.ext_getElem (by simp [optionMap_length h]) ?_
  intro n h₁ h₂
  have := optionMap_getElem h n (by simpa using h₂) h₁
  rw [hg _ (by simp)] at this
  simp at this
  simp [this]

theorem runningEnds_length (s : Nat) : ∀ (ls : List Nat),
    (runningEnds s ls).length = ls.length := by
  intro ls
  induction ls generalizing s with
  | nil => rfl
  | cons n ns ih => simp [runningEnds, ih]

theorem runningEnds_getElem : ∀ (ls : List Nat) (s : Nat) (k : Nat)
    (hk : k < (runningEnds s ls).length),
    (runningEnds s ls)[k] = s + (ls.take (k + 1)).sum := by
  intro ls
  induction ls with
  | nil => intro s k hk; simp [runningEnds] at hk
  | cons n ns ih =>
      intro s k hk
      cases k with
      | zero => simp [runningEnds]
      | succ k =>
          simp only [runningEnds, List.getElem_cons_succ]
          rw [ih (s + n) k (by simpa [runningEnds, runningEnds_length] using hk)]
          simp [List.take_succ_cons, List.sum_cons]
          omega

theorem flatten_length_map {α : Type _} (L : List (List α)) :
    L.flatten.length = (L.map List.length).sum := List.length_flatten L

theorem flatten_getElem?_segment {α : Type _} : ∀ (L : List (List α)) (m : Nat)
    (hm : m < L.length) (k : Nat) (hk : k < L[m].length),
    L.flatten[((L.take m).map List.length).sum + k]? = L[m][k]? := by
  intro L
  induction L with
  | nil => intro m hm; simp at hm
  | cons l ls ih =>
      intro m hm k hk
      cases m with
      | zero =>
          simp only [List.take_zero, List.map_nil, List.sum_nil, Nat.zero_add,
            List.getElem_cons_zero] at hk ⊢
          simp [List.flatten_cons, List.getElem?_append, hk]
      | succ m =>
          simp only [List.take_succ_cons, List.map_cons, List.sum_cons,
            List.getElem_cons_zero, List.getElem_cons_succ] at hk ⊢
          simp only [List.flatten_cons, List.getElem?_append]
          rw [if_neg (by omega)]
          have harith : l.length + (List.map List.length (List.take m ls)).sum + k
              - l.length = (List.map List.length (List.take m ls)).sum + k := by omega
          rw [harith]
          exact ih m (by simpa using hm) k hk

theorem flatten_getD_segment {α : Type _} (L : List (List α)) (m : Nat)
    (hm : m < L.length) (k : Nat) (hk : k < L[m].length) (d : α) :
    L.flatten.getD (((L.take m).map List.length).sum + k) d = L[m].getD k d := by
  rw [List.getD_eq_getElem?_getD, List.getD_eq_getElem?_getD,
    flatten_getElem?_segment L m hm k hk]

theorem flatten_index_decomp {α : Type _} : ∀ (L : List (List α)) (r : Nat)
    (hr : r < (L.map List.length).sum),
    ∃ m, ∃ (hm : m < L.length), ∃ k, k < L[m].length ∧
      r = ((L.take m).map List.length).sum + k := by
  intro L
  induction L with
  | nil => intro r hr; simp at hr
  | cons l ls ih =>
      intro r hr
      by_cases hcase : r < l.length
      · exact ⟨0, by simp, r, by simpa using hcase, by simp⟩
      · simp only [List.map_cons, List.sum_cons] at hr
        obtain ⟨m, hm, k, hk, hdecomp⟩ := ih (r - l.length) (by omega)
        refine ⟨m + 1, by simpa using hm, k, by simpa using hk, ?_⟩
        simp only [List.take_succ_cons, List.map_cons, List.sum_cons]
        omega

theorem getD_in_range {l : List α} {n : Nat} (h : n < l.length) (d : α) :
    l.getD n d = l[n] := by
  rw [List.getD_eq_getElem?_getD, List.getElem?_eq_getElem h, Option.getD_some]

theorem listSlice_length {l : List α} {b e : Nat} (hbe : b ≤ e) (he : e ≤ l.length) :
    (listSlice l b e).length = e - b := by
  simp [listSlice, Nat.min_eq_left he]

theorem listSlice_getElem {l : List α} {b e k : Nat} (hbe : b ≤ e) (he : e ≤ l.length)
    (hk : k < e - b) (h : k < (listSlice l b e).length) (h2 : b + k < l.length) :
    (listSlice l b e)[k] = l[b + k] := by
  simp only [listSlice]
  rw [List.getElem_drop, List.getElem_take]

theorem listSlice_eq_map_range {l : List α} {b e : Nat} (d : α) (hbe : b ≤ e)
    (he : e ≤ l.length) :
    (List.range (e - b)).map (fun k => l.getD (b + k) d) = listSlice l b e := by
  refine List.ext_getElem (by simp [listSlice_length hbe he]) ?_
  intro n h₁ h₂
  simp only [List.getElem_map, List.getElem_range]
  rw [listSlice_getElem hbe he (by simpa using h₁) h₂ (by simp at h₁; omega)]
  exact getD_in_range (by simp at h₁; omega) d

theorem listSlice_append_left {l₁ l₂ : List α} {b e : Nat} (he : e ≤ l₁.length) :
    listSlice (l₁ ++ l₂) b e = listSlice l₁ b e := by
  simp only [listSlice, List.take_append_eq_append_take,
    Nat.sub_eq_zero_of_le he, List.take_zero, List.append_nil]

theorem listSlice_shift {l₁ l₂ : List α} {b e : Nat} :
    listSlice (l₁ ++ l₂) (l₁.length + b) (l₁.length + e) = listSlice l₂ b e := by
  simp only [listSlice]
  rw [List.take_append_eq_append_take, List.take_of_length_le (by omega),
    show l₁.length + e - l₁.length = e by omega,
    List.drop_append_eq_append_drop, List.drop_of_length_le (by omega)]
  simp only [List.nil_append]
  congr 1
  omega

theorem listSlice_flatten_segment {α : Type _} : ∀ (L : List (List α)) (m : Nat)
    (hm : m < L.length),
    listSlice L.flatten ((L.take m).map List.length).sum
      ((L.take (m + 1)).map List.length).sum = L[m] := by
  intro L
  induction L with
  | nil => intro m hm; simp at hm
  | cons l ls ih =>
      intro m hm
      cases m with
      | zero =>
          simp only [List.take_zero, List.map_nil, List.sum_nil, List.take_succ_cons,
            List.take_zero, List.map_cons, List.sum_cons, List.getElem_cons_zero,
            List.flatten_cons]
          simp only [listSlice, List.drop_zero, Nat.add_zero]
          rw [List.take_append_eq_append_take, Nat.sub_self, List.take_zero,
            List.append_nil, List.take_of_length_le (le_refl _)]
      | succ m =>
          simp only [List.take_succ_cons, List.map_cons, List.sum_cons,
            List.getElem_cons_succ, List.flatten_cons]
          rw [show l.length + (List.map List.length (List.take m ls)).sum
              = l.length + (List.map List.length (List.take m ls)).sum from rfl]
          rw [listSlice_shift]
          exact ih m (by simpa using hm)

/-! ### Basic facts about the column model -/

theorem Column.cells_length (c : Column) : c.cells.length = c.len := by
  simp [Column.cells]

theorem Column.cells_getElem (c : Column) (r : Nat) (h : r < c.cells.length) :
    c.cells[r] = c.cellAt r := by
  simp [Column.cells]

theorem Column.cells_getD (c : Column) (r : Nat) (h : r < c.len) (d : CellValue) :
    c.cells.getD r d = c.cellAt r := by
  rw [getD_in_range (by simp [Column.cells_length, h]) d, Column.cells_getElem]

theorem Column.mem_cells {c : Column} {v : CellValue} (h : v ∈ c.cells) :
    ∃ r, r < c.len ∧ v = c.cellAt r := by
  simp only [Column.cells, List.mem_map, List.mem_range] at h
  obtain ⟨r, hr, hv⟩ := h
  exact ⟨r, hr, hv.symm⟩

theorem Column.cells_len_zero {c : Column} (h : c.len = 0) : c.cells = [] := by
  simp [Column.cells, h]

theorem Column.cellAtAll_eq_map : ∀ (fs : List Column) (r : Nat),
    Column.cellAtAll fs r = fs.map (fun f => f.cellAt r) := by
  intro fs r
  induction fs with
  | nil => rfl
  | cons f fs ih => simp [Column.cellAtAll, ih]

theorem Column.emptyLikeAll_eq_map : ∀ (fs : List Column),
    Column.emptyLikeAll fs = fs.map Column.emptyLike := by
  intro fs
  induction fs with
  | nil => rfl
  | cons f fs ih => simp [Column.emptyLikeAll, ih]

theorem Column.defaultCellAll_eq_map : ∀ (fs : List Column),
    Column.defaultCellAll fs = fs.map Column.defaultCell := by
  intro fs
  induction fs with
  | nil => rfl
  | cons f fs ih => simp [Column.defaultCellAll, ih]

theorem Scalar.toCellAll_eq_map : ∀ (ss : List Scalar),
    Scalar.toCellAll ss = ss.map Scalar.toCell := by
  intro ss
  induction ss with
  | nil => rfl
  | cons s ss ih => simp [Scalar.toCellAll, ih]

theorem Scalar.shapeColAll_eq_map : ∀ (ss : List Scalar),
    Scalar.shapeColAll ss = ss.map Scalar.shapeCol := by
  intro ss
  induction ss with
  | nil => rfl
  | cons s ss ih => simp [Scalar.shapeColAll, ih]

theorem Column.sameShapeAll_length : ∀ {as bs : List Column},
    Column.sameShapeAll as bs = true → as.length = bs.length := by
  intro as
  induction as with
  | nil => intro bs h; cases bs with
      | nil => rfl
      | cons b bs => simp [Column.sameShapeAll] at h
  | cons a as ih =>
      intro bs h
      cases bs with
      | nil => simp [Column.sameShapeAll] at h
      | cons b bs =>
          simp only [Column.sameShapeAll, Bool.and_eq_true] at h
          simp [ih h.2]

theorem Column.sameShapeAll_getElem : ∀ {as bs : List Column},
    Column.sameShapeAll as bs = true → ∀ p (hp : p < as.length) (hq : p < bs.length),
      Column.sameShape as[p] bs[p] = true := by
  intro as
  induction as with
  | nil => intro bs h p hp; simp at hp
  | cons a as ih =>
      intro bs h p hp hq
      cases bs with
      | nil => simp [Column.sameShapeAll] at h
      | cons b bs =>
          simp only [Column.sameShapeAll, Bool.and_eq_true] at h
          cases p with
          | zero => simpa using h.1
          | succ p =>
              simp only [List.getElem_cons_succ]
              exact ih h.2 p (by simpa using hp) (by simpa using hq)

theorem Column.sameShapeAll_of : ∀ {as bs : List Column},
    as.length = bs.length →
    (∀ p (hp : p < as.length) (hq : p < bs.length),
      Column.sameShape as[p] bs[p] = true) →
    Column.sameShapeAll as bs = true := by
  intro as
  induction as with
  | nil => intro bs hlen _; cases bs with
      | nil => rfl
      | cons b bs => simp at hlen
  | cons a as ih =>
      intro bs hlen h
      cases bs with
      | nil => simp at hlen
      | cons b bs =>
          simp only [Column.sameShapeAll, Bool.and_eq_true]
          refine ⟨by simpa using h 0 (by simp) (by simp), ?_⟩
          exact ih (by simpa using hlen)
            (fun p hp hq => by simpa using h (p + 1) (by simpa using hp) (by simpa using hq))

theorem Column.wfAll_mem : ∀ {fs : List Column} {l : Nat},
    Column.wfAll fs l = true → ∀ f ∈ fs, f.wf = true ∧ f.len = l := by
  intro fs
  induction fs with
  | nil => intro l _ f hf; simp at hf
  | cons g gs ih =>
      intro l h f hf
      simp only [Column.wfAll, Bool.and_eq_true, beq_iff_eq] at h
      rcases List.mem_cons.mp hf with hf2 | hf2
      · subst hf2; exact ⟨h.1.1, h.1.2⟩
      · exact ih h.2 f hf2

theorem Column.wfAll_of : ∀ {fs : List Column} {l : Nat},
    (∀ f ∈ fs, f.wf = true ∧ f.len = l) → Column.wfAll fs l = true := by
  intro fs
  induction fs with
  | nil => intro l _; rfl
  | cons g gs ih =>
      intro l h
      simp only [Column.wfAll, Bool.and_eq_true, beq_iff_eq]
      exact ⟨⟨(h g (by simp)).1, (h g (by simp)).2⟩, ih (fun f hf => h f (by simp [hf]))⟩

theorem cellFitsZip_length : ∀ {fs : List Column} {vs : List CellValue},
    cellFitsZip fs vs = true → fs.length = vs.length := by
  intro fs
  induction fs with
  | nil => intro vs h; cases vs with
      | nil => rfl
      | cons v vs => simp [cellFitsZip] at h
  | cons f fs ih =>
      intro vs h
      cases vs with
      | nil => simp [cellFitsZip] at h
      | cons v vs =>
          simp only [cellFitsZip, Bool.and_eq_true] at h
          simp [ih h.2]

theorem cellFitsZip_getElem : ∀ {fs : List Column} {vs : List CellValue},
    cellFitsZip fs vs = true → ∀ p (hp : p < fs.length) (hq : p < vs.length),
      cellFits fs[p] vs[p] = true := by
  intro fs
  induction fs with
  | nil => intro vs h p hp; simp at hp
  | cons f fs ih =>
      intro vs h p hp hq
      cases vs with
      | nil => simp [cellFitsZip] at h
      | cons v vs =>
          simp only [cellFitsZip, Bool.and_eq_true] at h
          cases p with
          | zero => simpa using h.1
          | succ p =>
              simp only [List.getElem_cons_succ]
              exact ih h.2 p (by simpa using hp) (by simpa using hq)

theorem cellFitsZip_of : ∀ {fs : List Column} {vs : List CellValue},
    fs.length = vs.length →
    (∀ p (hp : p < fs.length) (hq : p < vs.length), cellFits fs[p] vs[p] = true) →
    cellFitsZip fs vs = true := by
  intro fs
  induction fs with
  | nil => intro vs hlen _; cases vs with
      | nil => rfl
      | cons v vs => simp at hlen
  | cons f fs ih =>
      intro vs hlen h
      cases vs with
      | nil => simp at hlen
      | cons v vs =>
          simp only [cellFitsZip, Bool.and_eq_true]
          refine ⟨by simpa using h 0 (by simp) (by simp), ?_⟩
          exact ih (by simpa using hlen)
            (fun p hp hq => by simpa using h (p + 1) (by simpa using hp) (by simpa using hq))

/-! ### Shape lemmas -/

theorem sizeOf_lt_array {offs : List Nat} {inner : Column} :
    sizeOf inner < sizeOf (Column.array offs inner) := by
  simp

theorem sizeOf_lt_nullable {inner : Column} {v : List Bool} :
    sizeOf inner < sizeOf (Column.nullable inner v) := by
  simp
  omega

theorem sizeOf_lt_tuple {fields : List Column} {l : Nat} {f : Column} (hf : f ∈ fields) :
    sizeOf f < sizeOf (Column.tuple fields l) := by
  have := List.sizeOf_lt_of_mem hf
  simp
  omega

theorem Column.sameShape_refl : ∀ c : Column, Column.sameShape c c = true := by
  refine sizeOfStrongInd ?_
  intro c ih
  cases c with
  | null l => rfl
  | emptyArray l => rfl
  | number vs => rfl
  | boolean bs => rfl
  | string o d => rfl
  | array o inner => simpa [Column.sameShape] using ih inner sizeOf_lt_array
  | nullable inner v => simpa [Column.sameShape] using ih inner sizeOf_lt_nullable
  | tuple fields l =>
      simp only [Column.sameShape]
      refine Column.sameShapeAll_of rfl ?_
      intro p hp hq
      exact ih _ (sizeOf_lt_tuple (by simp))

theorem Column.sameShape_symm : ∀ (a b : Column), Column.sameShape a b = true →
    Column.sameShape b a = true := by
  refine sizeOfStrongInd (P := fun a => ∀ b, Column.sameShape a b = true →
    Column.sameShape b a = true) ?_
  intro a ih b hab
  cases a with
  | null l => cases b <;> first | rfl | simp [Column.sameShape] at hab
  | emptyArray l => cases b <;> first | rfl | simp [Column.sameShape] at hab
  | number vs => cases b <;> first | rfl | simp [Column.sameShape] at hab
  | boolean bs => cases b <;> first | rfl | simp [Column.sameShape] at hab
  | string o d => cases b <;> first | rfl | simp [Column.sameShape] at hab
  | array o inner =>
      cases b <;> simp [Column.sameShape] at hab ⊢
      exact ih inner sizeOf_lt_array _ hab
  | nullable inner v =>
      cases b <;> simp [Column.sameShape] at hab ⊢
      exact ih inner sizeOf_lt_nullable _ hab
  | tuple fields l =>
      cases b with
      | tuple gs m =>
          simp only [Column.sameShape] at hab ⊢
          have hlen := Column.sameShapeAll_length hab
          refine Column.sameShapeAll_of hlen.symm ?_
          intro p hp hq
          exact ih _ (sizeOf_lt_tuple (by simp))
            _ (Column.sameShapeAll_getElem hab p hq hp)
      | null l => simp [Column.sameShape] at hab
      | emptyArray l => simp [Column.sameShape] at hab
      | number vs => simp [Column.sameShape] at hab
      | boolean bs => simp [Column.sameShape] at hab
      | string o d => simp [Column.sameShape] at hab
      | array o i => simp [Column.sameShape] at hab
      | nullable i v => simp [Column.sameShape] at hab

theorem Column.sameShape_trans : ∀ (a b c : Column), Column.sameShape a b = true →
    Column.sameShape b c = true → Column.sameShape a c = true := by
  refine sizeOfStrongInd (P := fun a => ∀ b c, Column.sameShape a b = true →
    Column.sameShape b c = true → Column.sameShape a c = true) ?_
  intro a ih b c hab hbc
  cases a with
  | array o inner =>
      cases b <;> simp [Column.sameShape] at hab
      cases c <;> simp [Column.sameShape] at hbc ⊢
      exact ih inner sizeOf_lt_array _ _ hab hbc
  | nullable inner v =>
      cases b <;> simp [Column.sameShape] at hab
      cases c <;> simp [Column.sameShape] at hbc ⊢
      exact ih inner sizeOf_lt_nullable _ _ hab hbc
  | tuple fields l =>
      cases b with
      | tuple gs m =>
          cases c with
          | tuple hs k =>
              simp only [Column.sameShape] at hab hbc ⊢
              have h1 := Column.sameShapeAll_length hab
              have h2 := Column.sameShapeAll_length hbc
              refine Column.sameShapeAll_of (h1.trans h2) ?_
              intro p hp hq
              exact ih _ (sizeOf_lt_tuple (by simp)) _ _
                (Column.sameShapeAll_getElem hab p hp (by omega))
                (Column.sameShapeAll_getElem hbc p (by omega) hq)
          | null l => simp [Column.sameShape] at hbc
          | emptyArray l => simp [Column.sameShape] at hbc
          | number vs => simp [Column.sameShape] at hbc
          | boolean bs => simp [Column.sameShape] at hbc
          | string o d => simp [Column.sameShape] at hbc
          | array o i => simp [Column.sameShape] at hbc
          | nullable i v => simp [Column.sameShape] at hbc
      | null l => simp [Column.sameShape] at hab
      | emptyArray l => simp [Column.sameShape] at hab
      | number vs => simp [Column.sameShape] at hab
      | boolean bs => simp [Column.sameShape] at hab
      | string o d => simp [Column.sameShape] at hab
      | array o i => simp [Column.sameShape] at hab
      | nullable i v => simp [Column.sameShape] at hab
  | null l =>
      cases b <;> simp [Column.sameShape] at hab
      cases c <;> first | rfl | simp [Column.sameShape] at hbc
  | emptyArray l =>
      cases b <;> simp [Column.sameShape] at hab
      cases c <;> first | rfl | simp [Column.sameShape] at hbc
  | number vs =>
      cases b <;> simp [Column.sameShape] at hab
      cases c <;> first | rfl | simp [Column.sameShape] at hbc
  | boolean bs =>
      cases b <;> simp [Column.sameShape] at hab
      cases c <;> first | rfl | simp [Column.sameShape] at hbc
  | string o d =>
      cases b <;> simp [Column.sameShape] at hab
      cases c <;> first | rfl | simp [Column.sameShape] at hbc

theorem Column.sameShape_sameVariant {a b : Column} (h : Column.sameShape a b = true) :
    Column.sameVariant a b = true := by
  cases a <;> cases b <;> first | rfl | simp [Column.sameShape] at h

theorem Column.emptyLike_len : ∀ c : Column, c.emptyLike.len = 0 := by
  intro c
  cases c <;> simp [Column.emptyLike, Column.len]

theorem Column.emptyLike_cells (c : Column) : c.emptyLike.cells = [] :=
  Column.cells_len_zero (Column.emptyLike_len c)

theorem list_all_congr {f g : α → Bool} : ∀ {xs : List α},
    (∀ x ∈ xs, f x = g x) → xs.all f = xs.all g := by
  intro xs
  induction xs with
  | nil => intro _; rfl
  | cons a as ih =>
      intro h
      simp only [List.all_cons, h a (by simp), ih (fun x hx => h x (by simp [hx]))]

theorem offsetsMono_singleton (a : Nat) : offsetsMono [a] = true := rfl

theorem Column.emptyLike_wf : ∀ c : Column, c.emptyLike.wf = true := by
  refine sizeOfStrongInd ?_
  intro c ih
  cases c with
  | null l => rfl
  | emptyArray l => rfl
  | number vs => rfl
  | boolean bs => rfl
  | string o d => rfl
  | array o inner =>
      simp only [Column.emptyLike, Column.wf]
      simp [Column.emptyLike_len, ih inner sizeOf_lt_array, offsetsMono_singleton]
  | nullable inner v =>
      simp only [Column.emptyLike, Column.wf]
      simp [Column.emptyLike_len, ih inner sizeOf_lt_nullable]
  | tuple fields l =>
      simp only [Column.emptyLike, Column.wf]
      refine Column.wfAll_of ?_
      intro f hf
      rw [Column.emptyLikeAll_eq_map] at hf
      obtain ⟨g, hg, hfg⟩ := List.mem_map.mp hf
      subst hfg
      exact ⟨ih g (sizeOf_lt_tuple hg), Column.emptyLike_len g⟩

theorem Column.sameShape_emptyLike : ∀ c : Column,
    Column.sameShape c.emptyLike c = true := by
  refine sizeOfStrongInd ?_
  intro c ih
  cases c with
  | null l => rfl
  | emptyArray l => rfl
  | number vs => rfl
  | boolean bs => rfl
  | string o d => rfl
  | array o inner =>
      simpa [Column.emptyLike, Column.sameShape] using ih inner sizeOf_lt_array
  | nullable inner v =>
      simpa [Column.emptyLike, Column.sameShape] using ih inner sizeOf_lt_nullable
  | tuple fields l =>
      simp only [Column.emptyLike, Column.sameShape, Column.emptyLikeAll_eq_map]
      refine Column.sameShapeAll_of (by simp) ?_
      intro p hp hq
      simp only [List.getElem_map]
      exact ih _ (sizeOf_lt_tuple (by simp))

theorem Column.emptyLike_congr : ∀ (a b : Column), Column.sameShape a b = true →
    a.emptyLike = b.emptyLike := by
  refine sizeOfStrongInd (P := fun a => ∀ b, Column.sameShape a b = true →
    a.emptyLike = b.emptyLike) ?_
  intro a ih b hab
  cases a with
  | null l => cases b <;> first | rfl | simp [Column.sameShape] at hab
  | emptyArray l => cases b <;> first | rfl | simp [Column.sameShape] at hab
  | number vs => cases b <;> first | rfl | simp [Column.sameShape] at hab
  | boolean bs => cases b <;> first | rfl | simp [Column.sameShape] at hab
  | string o d => cases b <;> first | rfl | simp [Column.sameShape] at hab
  | array o inner =>
      cases b <;> simp [Column.sameShape] at hab
      simp only [Column.emptyLike]
      rw [ih inner sizeOf_lt_array _ hab]
  | nullable inner v =>
      cases b <;> simp [Column.sameShape] at hab
      simp only [Column.emptyLike]
      rw [ih inner sizeOf_lt_nullable _ hab]
  | tuple fields l =>
      cases b with
      | tuple gs m =>
          simp only [Column.sameShape] at hab
          simp only [Column.emptyLike, Column.emptyLikeAll_eq_map]
          have hlen := Column.sameShapeAll_length hab
          congr 1
          refine List.ext_getElem (by simp [hlen]) ?_
          intro p hp hq
          simp only [List.getElem_map]
          exact ih _ (sizeOf_lt_tuple (by simp)) _
            (Column.sameShapeAll_getElem hab p (by simpa using hp) (by simpa using hq))
      | null l => simp [Column.sameShape] at hab
      | emptyArray l => simp [Column.sameShape] at hab
      | number vs => simp [Column.sameShape] at hab
      | boolean bs => simp [Column.sameShape] at hab
      | string o d => simp [Column.sameShape] at hab
      | array o i => simp [Column.sameShape] at hab
      | nullable i v => simp [Column.sameShape] at hab

theorem Column.emptyLike_idem (c : Column) : c.emptyLike.emptyLike = c.emptyLike :=
  Column.emptyLike_congr _ _ (Column.sameShape_emptyLike c)

theorem cellFitsZip_congr : ∀ {f1 f2 : List Column}, f1.length = f2.length →
    (∀ p (hp : p < f1.length) (hq : p < f2.length) (v : CellValue),
      cellFits f1[p] v = cellFits f2[p] v) →
    ∀ vs, cellFitsZip f1 vs = cellFitsZip f2 vs := by
  intro f1
  induction f1 with
  | nil => intro f2 hlen _ vs; cases f2 with
      | nil => rfl
      | cons g gs => simp at hlen
  | cons f fs ih =>
      intro f2 hlen h vs
      cases f2 with
      | nil => simp at hlen
      | cons g gs =>
          cases vs with
          | nil => rfl
          | cons v vs =>
              simp only [cellFitsZip]
              rw [show cellFits f v = cellFits g v from by simpa using h 0 (by simp) (by simp) v,
                ih (by simpa using hlen)
                  (fun p hp hq w => by simpa using h (p+1) (by simpa using hp) (by simpa using hq) w) vs]

theorem cellFits_congr : ∀ (a b : Column), Column.sameShape a b = true →
    ∀ v, cellFits a v = cellFits b v := by
  refine sizeOfStrongInd (P := fun a => ∀ b, Column.sameShape a b = true →
    ∀ v, cellFits a v = cellFits b v) ?_
  intro a ih b hab v
  cases a with
  | null l => cases b <;> first | rfl | simp [Column.sameShape] at hab
  | emptyArray l => cases b <;> first | rfl | simp [Column.sameShape] at hab
  | number vs => cases b <;> first | rfl | simp [Column.sameShape] at hab
  | boolean bs => cases b <;> first | rfl | simp [Column.sameShape] at hab
  | string o d => cases b <;> first | rfl | simp [Column.sameShape] at hab
  | array o inner =>
      cases b <;> simp [Column.sameShape] at hab
      cases v with
      | array elems =>
          simp only [cellFits]
          exact list_all_congr (fun e _ => ih inner sizeOf_lt_array _ hab e)
      | null => rfl
      | emptyArray => rfl
      | number n => rfl
      | boolean bb => rfl
      | string s => rfl
      | tuple ws => rfl
  | nullable inner vv =>
      cases b <;> simp [Column.sameShape] at hab
      simp only [cellFits]
      rw [ih inner sizeOf_lt_nullable _ hab v]
  | tuple fields l =>
      cases b with
      | tuple gs m =>
          simp only [Column.sameShape] at hab
          cases v with
          | tuple ws =>
              simp only [cellFits]
              exact cellFitsZip_congr (Column.sameShapeAll_length hab)
                (fun p hp hq w => ih _ (sizeOf_lt_tuple (by simp)) _
                  (Column.sameShapeAll_getElem hab p hp hq) w) ws
          | null => rfl
          | emptyArray => rfl
          | number n => rfl
          | boolean bb => rfl
          | string s => rfl
          | array es => rfl
      | null l => simp [Column.sameShape] at hab
      | emptyArray l => simp [Column.sameShape] at hab
      | number vs => simp [Column.sameShape] at hab
      | boolean bs => simp [Column.sameShape] at hab
      | string o d => simp [Column.sameShape] at hab
      | array o i => simp [Column.sameShape] at hab
      | nullable i v => simp [Column.sameShape] at hab

theorem offsetsMono_iff_chain' : ∀ l : List Nat,
    offsetsMono l = true ↔ List.Chain' (· ≤ ·) l := by
  intro l
  induction l with
  | nil => simp [offsetsMono]
  | cons a tail ih =>
      cases tail with
      | nil => simp [offsetsMono]
      | cons b rest =>
          simp only [offsetsMono, Bool.and_eq_true, List.chain'_cons]
          rw [← ih]
          constructor
          · intro ⟨h1, h2⟩; exact ⟨Nat.le_of_ble_eq_true h1, h2⟩
          · intro ⟨h1, h2⟩; exact ⟨Nat.ble_eq_true_of_le h1, h2⟩

theorem offsetsMono_getD_le {l : List Nat} (h : offsetsMono l = true) {i j : Nat}
    (hij : i ≤ j) (hj : j < l.length) : l.getD i 0 ≤ l.getD j 0 := by
  rcases Nat.eq_or_lt_of_le hij with heq | hlt
  · subst heq; exact le_refl _
  · have hchain := (offsetsMono_iff_chain' l).mp h
    have hpair := (List.chain'_iff_pairwise).mp hchain
    have := (List.pairwise_iff_getElem).mp hpair i j (by omega) hj hlt
    rw [getD_in_range (by omega), getD_in_range hj]
    exact this

theorem head?_eq_some_getD {l : List Nat} {x : Nat} (h : l.head? = some x) :
    l ≠ [] ∧ l.getD 0 0 = x := by
  cases l with
  | nil => simp at h
  | cons a tail =>
      simp only [List.head?_cons, Option.some.injEq] at h
      subst h
      exact ⟨by simp, rfl⟩

theorem getLast?_eq_some_getD {l : List Nat} {x : Nat} (h : l.getLast? = some x) :
    l ≠ [] ∧ l.getD (l.length - 1) 0 = x := by
  cases l with
  | nil => simp at h
  | cons a tail =>
      have hne : a :: tail ≠ [] := by simp
      rw [List.getLast?_eq_getLast _ hne, Option.some.injEq] at h
      refine ⟨hne, ?_⟩
      rw [getD_in_range (by simp)]
      rw [← h, List.getLast_eq_getElem]

theorem wf_string_facts {offs data : List Nat}
    (h : Column.wf (.string offs data) = true) :
    offs ≠ [] ∧ offs.getD 0 0 = 0 ∧ offsetsMono offs = true ∧
      offs.getD (offs.length - 1) 0 = data.length := by
  simp only [Column.wf, Bool.and_eq_true, beq_iff_eq] at h
  obtain ⟨⟨h1, h2⟩, h3⟩ := h
  obtain ⟨hne, hh⟩ := head?_eq_some_getD h1
  obtain ⟨_, hl⟩ := getLast?_eq_some_getD h3
  exact ⟨hne, hh, h2, hl⟩

theorem wf_array_facts {offs : List Nat} {inner : Column}
    (h : Column.wf (.array offs inner) = true) :
    offs ≠ [] ∧ offs.getD 0 0 = 0 ∧ offsetsMono offs = true ∧
      offs.getD (offs.length - 1) 0 = inner.len ∧ inner.wf = true := by
  simp only [Column.wf, Bool.and_eq_true, beq_iff_eq] at h
  obtain ⟨⟨⟨h1, h2⟩, h3⟩, h4⟩ := h
  obtain ⟨hne, hh⟩ := head?_eq_some_getD h1
  obtain ⟨_, hl⟩ := getLast?_eq_some_getD h3
  exact ⟨hne, hh, h2, hl, h4⟩

theorem offsetsMono_getD_le_last {l : List Nat} (h : offsetsMono l = true)
    (hne : l ≠ []) {i : Nat} (hi : i < l.length) :
    l.getD i 0 ≤ l.getD (l.length - 1) 0 := by
  refine offsetsMono_getD_le h (by omega) (by
    have : 0 < l.length := List.length_pos.mpr hne
    omega)

theorem cellFits_cellAt : ∀ (c : Column) (r : Nat),
    cellFits c (c.cellAt r) = true := by
  refine sizeOfStrongInd (P := fun c => ∀ r, cellFits c (c.cellAt r) = true) ?_
  intro c ih r
  cases c with
  | null l => rfl
  | emptyArray l => rfl
  | number vs => rfl
  | boolean bs => rfl
  | string o d => rfl
  | array o inner =>
      simp only [Column.cellAt, cellFits, List.all_eq_true]
      intro e he
      obtain ⟨k, _, hk⟩ := List.mem_map.mp he
      subst hk
      exact ih inner sizeOf_lt_array _
  | nullable inner v =>
      simp only [Column.cellAt]
      by_cases hv : v.getD r false
      · simp only [hv, if_true, cellFits]
        rw [ih inner sizeOf_lt_nullable r]
        simp
      · simp only [hv, if_false]
        rfl
  | tuple fields l =>
      simp only [Column.cellAt, cellFits, Column.cellAtAll_eq_map]
      refine cellFitsZip_of (by simp) ?_
      intro p hp hq
      simp only [List.getElem_map]
      exact ih _ (sizeOf_lt_tuple (by simp)) r

theorem defaultCell_fits : ∀ c : Column, cellFits c c.defaultCell = true := by
  refine sizeOfStrongInd ?_
  intro c ih
  cases c with
  | null l => rfl
  | emptyArray l => rfl
  | number vs => rfl
  | boolean bs => rfl
  | string o d => rfl
  | array o inner => rfl
  | nullable inner v => rfl
  | tuple fields l =>
      simp only [Column.defaultCell, cellFits, Column.defaultCellAll_eq_map]
      refine cellFitsZip_of (by simp) ?_
      intro p hp hq
      simp only [List.getElem_map]
      exact ih _ (sizeOf_lt_tuple (by simp))

/-! ### Builder helper lemmas -/

theorem getD_append_left {l₁ l₂ : List α} {n : Nat} (h : n < l₁.length) (d : α) :
    (l₁ ++ l₂).getD n d = l₁.getD n d := by
  rw [List.getD_eq_getElem?_getD, List.getD_eq_getElem?_getD, List.getElem?_append,
    if_pos h]

theorem getD_append_right {l₁ l₂ : List α} {n : Nat} (h : l₁.length ≤ n) (d : α) :
    (l₁ ++ l₂).getD n d = l₂.getD (n - l₁.length) d := by
  rw [List.getD_eq_getElem?_getD, List.getD_eq_getElem?_getD, List.getElem?_append,
    if_neg (by omega)]

theorem headD_eq_getD (l : List α) (d : α) : l.headD d = l.getD 0 d := by
  cases l <;> rfl

theorem getD_drop (l : List α) (i j : Nat) (d : α) :
    (l.drop i).getD j d = l.getD (i + j) d := by
  rw [List.getD_eq_getElem?_getD, List.getD_eq_getElem?_getD, List.getElem?_drop]

theorem optionMap_extract_inverse {f : α → Option β} {g : β → α} : ∀ {vs : List α}
    {xs : List β}, optionMap f vs = some xs →
    (∀ v b, f v = some b → v = g b) → vs = xs.map g := by
  intro vs xs h hfg
  refine List.ext_getElem (by simp [optionMap_length h]) ?_
  intro n h₁ h₂
  have := optionMap_getElem h n h₁ (by simpa using h₂)
  simp only [List.getElem_map]
  exact hfg _ _ this

theorem Column.cells_null (m : Nat) :
    (Column.null m).cells = List.replicate m CellValue.null := by
  simp [Column.cells, Column.len, Column.cellAt, List.map_const']

theorem Column.cells_emptyArray (m : Nat) :
    (Column.emptyArray m).cells = List.replicate m CellValue.emptyArray := by
  simp [Column.cells, Column.len, Column.cellAt, List.map_const']

theorem Column.cells_number (l : List Int) :
    (Column.number l).cells = l.map CellValue.number := by
  refine List.ext_getElem (by simp [Column.cells_length, Column.len]) ?_
  intro n h₁ h₂
  rw [Column.cells_getElem _ _ h₁]
  simp only [Column.cellAt, List.getElem_map]
  rw [getD_in_range (by simpa using h₂)]

theorem Column.cells_boolean (l : List Bool) :
    (Column.boolean l).cells = l.map CellValue.boolean := by
  refine List.ext_getElem (by simp [Column.cells_length, Column.len]) ?_
  intro n h₁ h₂
  rw [Column.cells_getElem _ _ h₁]
  simp only [Column.cellAt, List.getElem_map]
  rw [getD_in_range (by simpa using h₂)]

theorem cellAt_front {c1 c2 : Column} {X : List CellValue}
    (h : c2.cells = c1.cells ++ X) {i : Nat} (hi : i < c1.len) :
    c2.cellAt i = c1.cellAt i := by
  have hlen : c2.cells.length = c1.cells.length + X.length := by simp [h]
  have hi1 : i < c1.cells.length := by rw [c1.cells_length]; exact hi
  have hi2 : i < c2.len := by
    have := c2.cells_length
    have := c1.cells_length
    omega
  have hg := congrArg (fun l => l.getD i CellValue.null) h
  simp only at hg
  rw [Column.cells_getD _ _ hi2, getD_append_left hi1, Column.cells_getD _ _ hi] at hg
  exact hg

theorem cellAt_suffix {c1 c2 : Column} {X : List CellValue}
    (h : c2.cells = c1.cells ++ X) {k : Nat} (hk : k < X.length) :
    c2.cellAt (c1.len + k) = X[k] := by
  have hlen : c2.cells.length = c1.cells.length + X.length := by simp [h]
  have hc1 : c1.cells.length = c1.len := c1.cells_length
  have hidx : c1.len + k < c2.len := by
    have := c2.cells_length
    omega
  have hg := congrArg (fun l => l.getD (c1.len + k) CellValue.null) h
  simp only at hg
  rw [Column.cells_getD _ _ hidx, getD_append_right (by omega)] at hg
  rw [hg, show c1.len + k - c1.cells.length = k by omega, getD_in_range hk]

theorem runningEnds_chain : ∀ (lens : List Nat) (s : Nat),
    offsetsMono (runningEnds s lens) = true := by
  intro lens
  induction lens with
  | nil => intro s; rfl
  | cons n ns ih =>
      intro s
      cases ns with
      | nil => rfl
      | cons m ms =>
          simp only [runningEnds, offsetsMono, Bool.and_eq_true]
          constructor
          · exact Nat.ble_eq_true_of_le (by omega)
          · exact (by simpa [runningEnds] using ih (s + n))

theorem offsetsMono_append {l₁ l₂ : List Nat} (h1 : offsetsMono l₁ = true)
    (h2 : offsetsMono l₂ = true)
    (hlink : l₁ ≠ [] → l₂ ≠ [] → l₁.getD (l₁.length - 1) 0 ≤ l₂.getD 0 0) :
    offsetsMono (l₁ ++ l₂) = true := by
  rw [offsetsMono_iff_chain'] at h1 h2 ⊢
  refine List.Chain'.append h1 h2 ?_
  intro x hx y hy
  have hne1 : l₁ ≠ [] := by intro h; subst h; simp at hx
  have hne2 : l₂ ≠ [] := by intro h; subst h; simp at hy
  have hx2 := getLast?_eq_some_getD hx
  have hy2 : l₂.getD 0 0 = y := by
    cases l₂ with
    | nil => simp at hy
    | cons a t => simp only [List.head?_cons, Option.mem_def, Option.some.injEq] at hy; simp [hy]
  have := hlink hne1 hne2
  omega

theorem runningEnds_getD_head {s : Nat} {lens : List Nat} (h : lens ≠ []) :
    s ≤ (runningEnds s lens).getD 0 0 := by
  cases lens with
  | nil => simp at h
  | cons n ns => simp [runningEnds]

theorem runningEnds_getD_last {s : Nat} {lens : List Nat} (h : lens ≠ []) :
    (runningEnds s lens).getD ((runningEnds s lens).length - 1) 0 = s + lens.sum := by
  have hlen : (runningEnds s lens).length = lens.length := runningEnds_length s lens
  have hpos : 0 < lens.length := List.length_pos.mpr h
  have h1 : (runningEnds s lens).getD ((runningEnds s lens).length - 1) 0
      = (runningEnds s lens).getD (lens.length - 1) 0 := by rw [hlen]
  rw [h1, getD_in_range (by omega),
    runningEnds_getElem lens s (lens.length - 1) (by omega)]
  congr 1
  rw [show lens.length - 1 + 1 = lens.length by omega, List.take_of_length_le (le_refl _)]

theorem append_runningEnds_getD {offs : List Nat} {s : Nat} {lens : List Nat}
    (hlen : 1 ≤ offs.length) (hlast : offs.getD (offs.length - 1) 0 = s)
    (k : Nat) (hk : k ≤ lens.length) :
    (offs ++ runningEnds s lens).getD (offs.length - 1 + k) 0
      = s + (lens.take k).sum := by
  cases k with
  | zero =>
      rw [Nat.add_zero, getD_append_left (by omega), hlast]
      simp
  | succ k =>
      rw [show offs.length - 1 + (k + 1) = offs.length + k by omega,
        getD_append_right (by omega), show offs.length + k - offs.length = k by omega]
      rw [getD_in_range (by rw [runningEnds_length]; omega)]
      exact runningEnds_getElem lens s k (by rw [runningEnds_length]; omega)

theorem head?_append_left {l₁ l₂ : List α} (h : l₁ ≠ []) :
    (l₁ ++ l₂).head? = l₁.head? := by
  cases l₁ with
  | nil => simp at h
  | cons a t => rfl

theorem head?_eq_of_ne {l : List Nat} (h : l ≠ []) : l.head? = some (l.getD 0 0) := by
  cases l with
  | nil => simp at h
  | cons a t => rfl

theorem getLast?_eq_of_ne {l : List Nat} (h : l ≠ []) :
    l.getLast? = some (l.getD (l.length - 1) 0) := by
  rw [List.getLast?_eq_getLast _ h]
  congr 1
  rw [getD_in_range (by
    have : 0 < l.length := List.length_pos.mpr h
    omega), List.getLast_eq_getElem]

theorem cellAt_array_eq_slice {offs : List Nat} {inner : Column} (r : Nat)
    (hbe : offs.getD r 0 ≤ offs.getD (r + 1) 0) (he : offs.getD (r + 1) 0 ≤ inner.len) :
    Column.cellAt (.array offs inner) r
      = .array (listSlice inner.cells (offs.getD r 0) (offs.getD (r + 1) 0)) := by
  simp only [Column.cellAt]
  congr 1
  rw [← listSlice_eq_map_range CellValue.null hbe (by rw [Column.cells_length]; exact he)]
  refine List.map_congr_left ?_
  intro k hk
  rw [List.mem_range] at hk
  exact (Column.cells_getD inner _ (by omega) _).symm

/-! ### The builder specification -/

/-- What appending vs rows to a well-formed builder c produces: the same type,
the same empty seed, still well-formed, with exactly the pushed rows added. -/
def AppendSpec (c : Column) (vs : List CellValue) (out : Column) : Prop :=
  Column.sameShape c out = true ∧ out.emptyLike = c.emptyLike ∧ out.wf = true ∧
    out.len = c.len + vs.length ∧ out.cells = c.cells ++ vs

theorem appendCells_null_spec {l : Nat} {vs : List CellValue}
    (hfit : ∀ v ∈ vs, cellFits (.null l) v = true) :
    ∃ out, appendCells (.null l) vs = some out ∧ AppendSpec (.null l) vs out := by
  have hall : vs.all (fun v => match v with | CellValue.null => true | _ => false) = true := by
    rw [List.all_eq_true]
    intro v hv
    have := hfit v hv
    cases v <;> simp [cellFits] at this ⊢
  have hvs : vs = List.replicate vs.length CellValue.null :=
    List.eq_replicate_of_mem (fun v hv => by
      have := hfit v hv
      cases v <;> first | rfl | simp [cellFits] at this)
  refine ⟨.null (l + vs.length), by simp [appendCells, hall], rfl, rfl, rfl,
    by simp [Column.len], ?_⟩
  rw [Column.cells_null, Column.cells_null, List.replicate_add]
  rw [← hvs]

theorem appendCells_emptyArray_spec {l : Nat} {vs : List CellValue}
    (hfit : ∀ v ∈ vs, cellFits (.emptyArray l) v = true) :
    ∃ out, appendCells (.emptyArray l) vs = some out ∧
      AppendSpec (.emptyArray l) vs out := by
  have hall : vs.all (fun v => match v with | CellValue.emptyArray => true | _ => false)
      = true := by
    rw [List.all_eq_true]
    intro v hv
    have := hfit v hv
    cases v <;> simp [cellFits] at this ⊢
  have hvs : vs = List.replicate vs.length CellValue.emptyArray :=
    List.eq_replicate_of_mem (fun v hv => by
      have := hfit v hv
      cases v <;> first | rfl | simp [cellFits] at this)
  refine ⟨.emptyArray (l + vs.length), by simp [appendCells, hall], rfl, rfl, rfl,
    by simp [Column.len], ?_⟩
  rw [Column.cells_emptyArray, Column.cells_emptyArray, List.replicate_add]
  rw [← hvs]

theorem appendCells_number_spec {ns : List Int} {vs : List CellValue}
    (hfit : ∀ v ∈ vs, cellFits (.number ns) v = true) :
    ∃ out, appendCells (.number ns) vs = some out ∧ AppendSpec (.number ns) vs out := by
  obtain ⟨xs, hxs⟩ := optionMap_isSome
    (f := fun v => match v with | CellValue.number n => some n | _ => none) vs
    (by
      intro v hv
      have := hfit v hv
      cases v <;> first | exact ⟨_, rfl⟩ | simp [cellFits] at this)
  have hvs : vs = xs.map CellValue.number :=
    optionMap_extract_inverse hxs (fun v b hb => by
      cases v <;> simp at hb
      simp [hb])
  refine ⟨.number (ns ++ xs), by simp [appendCells, hxs], rfl, rfl, rfl,
    by simp [Column.len, optionMap_length hxs], ?_⟩
  rw [Column.cells_number, Column.cells_number, List.map_append, ← hvs]

theorem appendCells_boolean_spec {bs : List Bool} {vs : List CellValue}
    (hfit : ∀ v ∈ vs, cellFits (.boolean bs) v = true) :
    ∃ out, appendCells (.boolean bs) vs = some out ∧ AppendSpec (.boolean bs) vs out := by
  obtain ⟨xs, hxs⟩ := optionMap_isSome
    (f := fun v => match v with | CellValue.boolean b => some b | _ => none) vs
    (by
      intro v hv
      have := hfit v hv
      cases v <;> first | exact ⟨_, rfl⟩ | simp [cellFits] at this)
  have hvs : vs = xs.map CellValue.boolean :=
    optionMap_extract_inverse hxs (fun v b hb => by
      cases v <;> simp at hb
      simp [hb])
  refine ⟨.boolean (bs ++ xs), by simp [appendCells, hxs], rfl, rfl, rfl,
    by simp [Column.len, optionMap_length hxs], ?_⟩
  rw [Column.cells_boolean, Column.cells_boolean, List.map_append, ← hvs]

theorem ext_getD {l₁ l₂ : List α} (d : α) (hlen : l₁.length = l₂.length)
    (h : ∀ n, n < l₁.length → l₁.getD n d = l₂.getD n d) : l₁ = l₂ := by
  refine List.ext_getElem hlen ?_
  intro n h₁ h₂
  have := h n h₁
  rw [getD_in_range h₁, getD_in_range h₂] at this
  exact this

theorem getD_map_in_range {f : α → β} {l : List α} {k : Nat} (hk : k < l.length)
    (d : β) : (l.map f).getD k d = f (l[k]) := by
  rw [getD_in_range (by simpa using hk), List.getElem_map]

theorem getD_map_getD (f : α → β) (l : List α) (k : Nat) (d : α) :
    (l.map f).getD k (f d) = f (l.getD k d) := by
  rw [List.getD_eq_getElem?_getD, List.getD_eq_getElem?_getD, List.getElem?_map]
  cases l[k]? <;> rfl

theorem getD_irrel {l : List α} {k : Nat} (hk : k < l.length) (d₁ d₂ : α) :
    l.getD k d₁ = l.getD k d₂ := by
  rw [getD_in_range hk, getD_in_range hk]

theorem appendCells_string_spec {offs data : List Nat} {vs : List CellValue}
    (hwf : Column.wf (.string offs data) = true)
    (hfit : ∀ v ∈ vs, cellFits (.string offs data) v = true) :
    ∃ out, appendCells (.string offs data) vs = some out ∧
      AppendSpec (.string offs data) vs out := by
  obtain ⟨hne, hhead, hmono, hlast⟩ := wf_string_facts hwf
  obtain ⟨rows, hrows⟩ := optionMap_isSome
    (f := fun v => match v with | CellValue.string s => some s | _ => none) vs
    (by
      intro v hv
      have := hfit v hv
      cases v <;> first | exact ⟨_, rfl⟩ | simp [cellFits] at this)
  have hvs : vs = rows.map CellValue.string :=
    optionMap_extract_inverse hrows (fun v b hb => by
      cases v <;> simp at hb
      simp [hb])
  have hrowslen : rows.length = vs.length := optionMap_length hrows
  have hoffslen : 1 ≤ offs.length := by
    have := List.length_pos.mpr hne
    omega
  have hflatlen : rows.flatten.length = (rows.map List.length).sum :=
    List.length_flatten rows
  refine ⟨.string (offs ++ runningEnds data.length (rows.map List.length))
      (data ++ rows.flatten), by simp [appendCells, hrows], rfl, rfl, ?_, ?_, ?_⟩
  · -- well-formedness of the output
    simp only [Column.wf, Bool.and_eq_true, beq_iff_eq]
    refine ⟨⟨?_, ?_⟩, ?_⟩
    · rw [head?_append_left hne, head?_eq_of_ne hne, hhead]
    · refine offsetsMono_append hmono (runningEnds_chain _ _) ?_
      intro h1 h2
      rw [hlast]
      refine runningEnds_getD_head ?_
      intro hemp
      rw [hemp] at h2
      simp [runningEnds] at h2
    · by_cases hrowsnil : rows = []
      · subst hrowsnil
        simp only [List.map_nil, runningEnds, List.append_nil, List.flatten_nil]
        rw [getLast?_eq_of_ne hne, hlast]
      · have hlensne : rows.map List.length ≠ [] := by simpa using hrowsnil
        have hrene : runningEnds data.length (rows.map List.length) ≠ [] := by
          intro hemp
          have hrl := runningEnds_length data.length (rows.map List.length)
          rw [hemp] at hrl
          simp at hrl
          exact hrowsnil (List.length_eq_zero.mp hrl.symm)
        rw [List.getLast?_append_of_ne_nil _ hrene, getLast?_eq_of_ne hrene,
          runningEnds_getD_last hlensne]
        simp [hflatlen]
  · -- length
    simp only [Column.len, List.length_append, runningEnds_length, List.length_map,
      hrowslen]
    omega
  · -- cells
    have houtlen : (Column.string (offs ++ runningEnds data.length (rows.map List.length))
        (data ++ rows.flatten)).len = (offs.length - 1) + vs.length := by
      simp only [Column.len, List.length_append, runningEnds_length, List.length_map,
        hrowslen]
      omega
    refine ext_getD CellValue.null ?_ ?_
    · rw [Column.cells_length, houtlen, List.length_append, Column.cells_length]
      rfl
    · intro r hr
      rw [Column.cells_length, houtlen] at hr
      rw [Column.cells_getD _ _ (by rw [houtlen]; exact hr)]
      by_cases hcase : r < offs.length - 1
      · have e1 : (offs ++ runningEnds data.length (rows.map List.length)).getD r 0
            = offs.getD r 0 := getD_append_left (by omega) 0
        have e2 : (offs ++ runningEnds data.length (rows.map List.length)).getD (r + 1) 0
            = offs.getD (r + 1) 0 := getD_append_left (by omega) 0
        have hbound : offs.getD (r + 1) 0 ≤ data.length := by
          rw [← hlast]
          exact offsetsMono_getD_le_last hmono hne (by omega)
        simp only [Column.cellAt, e1, e2]
        rw [listSlice_append_left hbound]
        have hr1 : (Column.cells (.string offs data) ++ vs).getD r CellValue.null
            = Column.cellAt (.string offs data) r := by
          rw [getD_append_left (by rw [Column.cells_length]; exact hcase),
            Column.cells_getD _ _ (by simp only [Column.len]; exact hcase)]
        rw [hr1]
        rfl
      · obtain ⟨k, hk, hreq⟩ : ∃ k, k < vs.length ∧ r = (offs.length - 1) + k :=
          ⟨r - (offs.length - 1), by omega, by omega⟩
        subst hreq
        have hk1 : k ≤ (rows.map List.length).length := by
          rw [List.length_map, hrowslen]
          omega
        have hk2 : k + 1 ≤ (rows.map List.length).length := by
          rw [List.length_map, hrowslen]
          omega
        have e1 := append_runningEnds_getD hoffslen hlast k hk1
        have e2 := append_runningEnds_getD hoffslen hlast (k + 1) hk2
        simp only [Column.cellAt]
        rw [show offs.length - 1 + k + 1 = offs.length - 1 + (k + 1) from by omega]
        rw [e1, e2, listSlice_shift]
        rw [show ((rows.map List.length).take k).sum
            = ((rows.take k).map List.length).sum from by rw [List.map_take],
          show ((rows.map List.length).take (k + 1)).sum
            = ((rows.take (k + 1)).map List.length).sum from by rw [List.map_take]]
        rw [listSlice_flatten_segment rows k (by omega)]
        have hr1 : (Column.cells (.string offs data) ++ vs).getD
            (offs.length - 1 + k) CellValue.null = vs.getD k CellValue.null := by
          rw [getD_append_right (by rw [Column.cells_length]; simp only [Column.len]; omega)]
          congr 1
          rw [Column.cells_length]
          simp only [Column.len]
          omega
        rw [hr1]
        have hv2 : vs.getD k (CellValue.string []) = CellValue.string (rows.getD k []) := by
          rw [hvs]
          exact getD_map_getD _ _ _ _
        have hkr : k < rows.length := by omega
        rw [getD_irrel (by omega) CellValue.null (CellValue.string []), hv2,
          getD_in_range hkr]

theorem sum_take_le (l : List Nat) (n : Nat) : (l.take n).sum ≤ l.sum := by
  conv_rhs => rw [← List.take_append_drop n l]
  rw [List.sum_append]
  omega

theorem appendCells_array_spec {offs : List Nat} {inner : Column} {vs : List CellValue}
    (hwf : Column.wf (.array offs inner) = true)
    (hfit : ∀ v ∈ vs, cellFits (.array offs inner) v = true)
    (ihInner : ∀ ws : List CellValue, inner.wf = true →
      (∀ w ∈ ws, cellFits inner w = true) →
      ∃ out, appendCells inner ws = some out ∧ AppendSpec inner ws out) :
    ∃ out, appendCells (.array offs inner) vs = some out ∧
      AppendSpec (.array offs inner) vs out := by
  obtain ⟨hne, hhead, hmono, hlast, hwfi⟩ := wf_array_facts hwf
  obtain ⟨rows, hrows⟩ := optionMap_isSome
    (f := fun v => match v with | CellValue.array es => some es | _ => none) vs
    (by
      intro v hv
      have := hfit v hv
      cases v <;> first | exact ⟨_, rfl⟩ | simp [cellFits] at this)
  have hvs : vs = rows.map CellValue.array :=
    optionMap_extract_inverse hrows (fun v b hb => by
      cases v <;> simp at hb
      simp [hb])
  have hrowslen : rows.length = vs.length := optionMap_length hrows
  have hoffslen : 1 ≤ offs.length := by
    have := List.length_pos.mpr hne
    omega
  have hflatlen : rows.flatten.length = (rows.map List.length).sum :=
    List.length_flatten rows
  have hfitflat : ∀ w ∈ rows.flatten, cellFits inner w = true := by
    intro w hw
    obtain ⟨row, hrow, hw2⟩ := List.mem_flatten.mp hw
    have hmemv : CellValue.array row ∈ vs := by
      rw [hvs]
      exact List.mem_map.mpr ⟨row, hrow, rfl⟩
    have := hfit _ hmemv
    simp only [cellFits, List.all_eq_true] at this
    exact this w hw2
  obtain ⟨inner2, hi2, hsh, hemp, hwfi2, hleni, hcellsi⟩ :=
    ihInner rows.flatten hwfi hfitflat
  have hleni2 : inner2.len = inner.len + (rows.map List.length).sum := by
    rw [hleni, hflatlen]
  refine ⟨.array (offs ++ runningEnds inner.len (rows.map List.length)) inner2,
    by simp [appendCells, hrows, hi2], by simp [Column.sameShape, hsh],
    by simp [Column.emptyLike, hemp], ?_, ?_, ?_⟩
  · -- well-formedness of the output
    simp only [Column.wf, Bool.and_eq_true, beq_iff_eq]
    refine ⟨⟨⟨?_, ?_⟩, ?_⟩, hwfi2⟩
    · rw [head?_append_left hne, head?_eq_of_ne hne, hhead]
    · refine offsetsMono_append hmono (runningEnds_chain _ _) ?_
      intro h1 h2
      rw [hlast]
      refine runningEnds_getD_head ?_
      intro hemp2
      rw [hemp2] at h2
      simp [runningEnds] at h2
    · by_cases hrowsnil : rows = []
      · subst hrowsnil
        simp only [List.map_nil, runningEnds, List.append_nil]
        rw [getLast?_eq_of_ne hne, hlast, hleni2]
        simp
      · have hlensne : rows.map List.length ≠ [] := by simpa using hrowsnil
        have hrene : runningEnds inner.len (rows.map List.length) ≠ [] := by
          intro hemp2
          have hrl := runningEnds_length inner.len (rows.map List.length)
          rw [hemp2] at hrl
          simp at hrl
          exact hrowsnil (List.length_eq_zero.mp hrl.symm)
        rw [List.getLast?_append_of_ne_nil _ hrene, getLast?_eq_of_ne hrene,
          runningEnds_getD_last hlensne, hleni2]
  · -- length
    simp only [Column.len, List.length_append, runningEnds_length, List.length_map,
      hrowslen]
    omega
  · -- cells
    have houtlen : (Column.array (offs ++ runningEnds inner.len (rows.map List.length))
        inner2).len = (offs.length - 1) + vs.length := by
      simp only [Column.len, List.length_append, runningEnds_length, List.length_map,
        hrowslen]
      omega
    refine ext_getD CellValue.null ?_ ?_
    · rw [Column.cells_length, houtlen, List.length_append, Column.cells_length]
      rfl
    · intro r hr
      rw [Column.cells_length, houtlen] at hr
      rw [Column.cells_getD _ _ (by rw [houtlen]; exact hr)]
      by_cases hcase : r < offs.length - 1
      · have e1 : (offs ++ runningEnds inner.len (rows.map List.length)).getD r 0
            = offs.getD r 0 := getD_append_left (by omega) 0
        have e2 : (offs ++ runningEnds inner.len (rows.map List.length)).getD (r + 1) 0
            = offs.getD (r + 1) 0 := getD_append_left (by omega) 0
        have hbound : offs.getD (r + 1) 0 ≤ inner.len := by
          rw [← hlast]
          exact offsetsMono_getD_le_last hmono hne (by omega)
        have hbe : offs.getD r 0 ≤ offs.getD (r + 1) 0 :=
          offsetsMono_getD_le hmono (by omega) (by omega)
        rw [cellAt_array_eq_slice r (by rw [e1, e2]; exact hbe)
          (by rw [e2]; omega)]
        rw [e1, e2, hcellsi]
        rw [listSlice_append_left (by rw [Column.cells_length]; exact hbound)]
        have hr1 : (Column.cells (.array offs inner) ++ vs).getD r CellValue.null
            = Column.cellAt (.array offs inner) r := by
          rw [getD_append_left (by rw [Column.cells_length]; exact hcase),
            Column.cells_getD _ _ (by simp only [Column.len]; exact hcase)]
        rw [hr1, cellAt_array_eq_slice r hbe hbound]
      · obtain ⟨k, hk, hreq⟩ : ∃ k, k < vs.length ∧ r = (offs.length - 1) + k :=
          ⟨r - (offs.length - 1), by omega, by omega⟩
        subst hreq
        have hk1 : k ≤ (rows.map List.length).length := by
          rw [List.length_map, hrowslen]
          omega
        have hk2 : k + 1 ≤ (rows.map List.length).length := by
          rw [List.length_map, hrowslen]
          omega
        have e1 := append_runningEnds_getD hoffslen hlast k hk1
        have e2 := append_runningEnds_getD hoffslen hlast (k + 1) hk2
        have hsum1 : ((rows.map List.length).take k).sum
            ≤ ((rows.map List.length).take (k + 1)).sum := by
          rw [List.sum_take_succ _ k (by rw [List.length_map, hrowslen]; omega)]
          omega
        have hsum2 : ((rows.map List.length).take (k + 1)).sum
            ≤ (rows.map List.length).sum := sum_take_le _ _
        have e2' : (offs ++ runningEnds inner.len (rows.map List.length)).getD
            ((offs.length - 1 + k) + 1) 0
            = inner.len + ((rows.map List.length).take (k + 1)).sum := by
          rw [show offs.length - 1 + k + 1 = offs.length - 1 + (k + 1) from by omega]
          exact e2
        rw [cellAt_array_eq_slice (offs.length - 1 + k)
          (by rw [e1, e2']; omega) (by rw [e2']; omega)]
        rw [e1, e2', hcellsi]
        have hinlen : inner.len = (Column.cells inner).length :=
          (Column.cells_length inner).symm
        rw [hinlen, listSlice_shift]
        rw [show ((rows.map List.length).take k).sum
            = ((rows.take k).map List.length).sum from by rw [List.map_take],
          show ((rows.map List.length).take (k + 1)).sum
            = ((rows.take (k + 1)).map List.length).sum from by rw [List.map_take]]
        rw [listSlice_flatten_segment rows k (by omega)]
        have hr1 : (Column.cells (.array offs inner) ++ vs).getD
            (offs.length - 1 + k) CellValue.null = vs.getD k CellValue.null := by
          rw [getD_append_right (by rw [Column.cells_length]; simp only [Column.len]; omega)]
          congr 1
          rw [Column.cells_length]
          simp only [Column.len]
          omega
        rw [hr1]
        have hv2 : vs.getD k (CellValue.array []) = CellValue.array (rows.getD k []) := by
          rw [hvs]
          exact getD_map_getD _ _ _ _
        have hkr : k < rows.length := by omega
        rw [getD_irrel (by omega) CellValue.null (CellValue.array []), hv2,
          getD_in_range hkr]

theorem cellAt_suffix_getD {c1 c2 : Column} {X : List CellValue}
    (h : c2.cells = c1.cells ++ X) {k : Nat} (hk : k < X.length) (d : CellValue) :
    c2.cellAt (c1.len + k) = X.getD k d := by
  rw [cellAt_suffix h hk, getD_in_range hk]

theorem appendCells_nullable_spec {inner : Column} {validity : List Bool}
    {vs : List CellValue}
    (hwf : Column.wf (.nullable inner validity) = true)
    (hfit : ∀ v ∈ vs, cellFits (.nullable inner validity) v = true)
    (ihInner : ∀ ws : List CellValue, inner.wf = true →
      (∀ w ∈ ws, cellFits inner w = true) →
      ∃ out, appendCells inner ws = some out ∧ AppendSpec inner ws out) :
    ∃ out, appendCells (.nullable inner validity) vs = some out ∧
      AppendSpec (.nullable inner validity) vs out := by
  have hwf2 : validity.length = inner.len ∧ inner.wf = true := by
    simpa only [Column.wf, Bool.and_eq_true, beq_iff_eq] using hwf
  have hfws : ∀ w ∈ vs.map (fun v => match v with
      | CellValue.null => inner.defaultCell | _ => v), cellFits inner w = true := by
    intro w hw
    obtain ⟨v, hv, hw2⟩ := List.mem_map.mp hw
    subst hw2
    have hf := hfit v hv
    cases v with
    | null => exact defaultCell_fits inner
    | emptyArray => simpa [cellFits] using hf
    | number n => simpa [cellFits] using hf
    | boolean b => simpa [cellFits] using hf
    | string s => simpa [cellFits] using hf
    | array es => simpa [cellFits] using hf
    | tuple ts => simpa [cellFits] using hf
  obtain ⟨inner2, hi2, hsh, hemp, hwfi2, hleni, hcellsi⟩ :=
    ihInner (vs.map (fun v => match v with
      | CellValue.null => inner.defaultCell | _ => v)) hwf2.2 hfws
  refine ⟨.nullable inner2 (validity ++ vs.map (fun v => match v with
      | CellValue.null => false | _ => true)),
    by simp [appendCells, hi2], by simp [Column.sameShape, hsh],
    by simp [Column.emptyLike, hemp], ?_, ?_, ?_⟩
  · -- well-formedness
    simp only [Column.wf, Bool.and_eq_true, beq_iff_eq]
    refine ⟨?_, hwfi2⟩
    rw [List.length_append, List.length_map, hleni, List.length_map, hwf2.1]
  · -- length
    simp only [Column.len, List.length_append, List.length_map]
  · -- cells
    have houtlen : (Column.nullable inner2 (validity ++ vs.map (fun v => match v with
        | CellValue.null => false | _ => true))).len = validity.length + vs.length := by
      simp only [Column.len, List.length_append, List.length_map]
    refine ext_getD CellValue.null ?_ ?_
    · rw [Column.cells_length, houtlen, List.length_append, Column.cells_length]
      rfl
    · intro r hr
      rw [Column.cells_length, houtlen] at hr
      rw [Column.cells_getD _ _ (by rw [houtlen]; exact hr)]
      by_cases hcase : r < validity.length
      · simp only [Column.cellAt]
        rw [getD_append_left hcase]
        rw [cellAt_front hcellsi (by omega)]
        have hr1 : (Column.cells (.nullable inner validity) ++ vs).getD r CellValue.null
            = Column.cellAt (.nullable inner validity) r := by
          rw [getD_append_left (by rw [Column.cells_length]; exact hcase),
            Column.cells_getD _ _ (by simp only [Column.len]; exact hcase)]
        rw [hr1]
        rfl
      · obtain ⟨k, hk, hreq⟩ : ∃ k, k < vs.length ∧ r = validity.length + k :=
          ⟨r - validity.length, by omega, by omega⟩
        subst hreq
        simp only [Column.cellAt]
        rw [getD_append_right (by omega),
          show validity.length + k - validity.length = k from by omega]
        have hb : (vs.map (fun v => match v with
            | CellValue.null => false | _ => true)).getD k false
            = (fun v => match v with
              | CellValue.null => false | _ => true) (vs.getD k CellValue.null) :=
          getD_map_getD _ vs k CellValue.null
        have hwsk : inner2.cellAt (validity.length + k)
            = (fun v => match v with
              | CellValue.null => inner.defaultCell | _ => v) (vs.getD k CellValue.null) := by
          rw [hwf2.1]
          rw [cellAt_suffix_getD hcellsi (by rw [List.length_map]; exact hk)
            ((fun v => match v with
              | CellValue.null => inner.defaultCell | _ => v) CellValue.null)]
          exact getD_map_getD _ vs k CellValue.null
        rw [hb, hwsk]
        have hr1 : (Column.cells (.nullable inner validity) ++ vs).getD
            (validity.length + k) CellValue.null = vs.getD k CellValue.null := by
          rw [getD_append_right (by rw [Column.cells_length]; simp only [Column.len]; omega)]
          congr 1
          rw [Column.cells_length]
          simp only [Column.len]
          omega
        rw [hr1]
        cases hA : vs.getD k CellValue.null <;> simp

theorem appendTupleFields_spec : ∀ (fields : List Column) (rows : List (List CellValue)),
    (∀ f ∈ fields, ∀ ws : List CellValue, f.wf = true →
      (∀ w ∈ ws, cellFits f w = true) →
      ∃ out, appendCells f ws = some out ∧ AppendSpec f ws out) →
    (∀ f ∈ fields, f.wf = true) →
    (∀ ws ∈ rows, cellFitsZip fields ws = true) →
    ∃ fields2, appendTupleFields fields rows = some fields2 ∧
      fields2.length = fields.length ∧
      ∀ p (hp : p < fields.length) (hq : p < fields2.length),
        Column.sameShape fields[p] fields2[p] = true ∧
        fields2[p].emptyLike = fields[p].emptyLike ∧
        fields2[p].wf = true ∧
        fields2[p].len = fields[p].len + rows.length ∧
        fields2[p].cells = fields[p].cells
          ++ rows.map (fun ws => ws.getD p CellValue.null) := by
  intro fields
  induction fields with
  | nil =>
      intro rows _ _ _
      exact ⟨[], rfl, rfl, fun p hp _ => by simp at hp⟩
  | cons f fs ih =>
      intro rows hIH hwf hfit
      have hfit0 : ∀ w ∈ rows.map (fun ws => ws.headD CellValue.null),
          cellFits f w = true := by
        intro w hw
        obtain ⟨ws, hws, hw2⟩ := List.mem_map.mp hw
        subst hw2
        have hz := hfit ws hws
        have hlen := cellFitsZip_length hz
        cases ws with
        | nil => simp at hlen
        | cons w0 wrest =>
            simp only [List.headD_cons]
            simpa using cellFitsZip_getElem hz 0 (by simp) (by simp)
      obtain ⟨f2, hf2, hsh, hemp, hwf2, hlen2, hcells2⟩ :=
        hIH f (by simp) _ (hwf f (by simp)) hfit0
      have hfitrest : ∀ ws ∈ rows.map (fun ws => ws.drop 1),
          cellFitsZip fs ws = true := by
        intro ws hws
        obtain ⟨ws0, hws0, hws2⟩ := List.mem_map.mp hws
        subst hws2
        have hz := hfit ws0 hws0
        have hlen := cellFitsZip_length hz
        cases ws0 with
        | nil => simp at hlen
        | cons w0 wrest =>
            simp only [cellFitsZip, Bool.and_eq_true] at hz
            simpa using hz.2
      obtain ⟨fs2, hfs2, hlenfs2, hpointwise⟩ :=
        ih (rows.map (fun ws => ws.drop 1))
          (fun g hg => hIH g (by simp [hg])) (fun g hg => hwf g (by simp [hg])) hfitrest
      refine ⟨f2 :: fs2, by simp only [appendTupleFields, hf2, hfs2], by simp [hlenfs2], ?_⟩
      intro p hp hq
      cases p with
      | zero =>
          simp only [List.getElem_cons_zero]
          refine ⟨hsh, hemp, hwf2, by simpa using hlen2, ?_⟩
          rw [hcells2]
          congr 1
          refine List.map_congr_left ?_
          intro ws _
          rw [headD_eq_getD]
      | succ p =>
          simp only [List.getElem_cons_succ]
          have hpt := hpointwise p (by simpa using hp) (by simpa using hq)
          refine ⟨hpt.1, hpt.2.1, hpt.2.2.1, by simpa using hpt.2.2.2.1, ?_⟩
          rw [hpt.2.2.2.2]
          congr 1
          rw [List.map_map]
          refine List.map_congr_left ?_
          intro ws _
          simp only [Function.comp_apply]
          rw [getD_drop]
          congr 1
          omega

theorem appendCells_tuple_spec {fields : List Column} {l : Nat} {vs : List CellValue}
    (hwf : Column.wf (.tuple fields l) = true)
    (hfit : ∀ v ∈ vs, cellFits (.tuple fields l) v = true)
    (ihFields : ∀ f ∈ fields, ∀ ws : List CellValue, f.wf = true →
      (∀ w ∈ ws, cellFits f w = true) →
      ∃ out, appendCells f ws = some out ∧ AppendSpec f ws out) :
    ∃ out, appendCells (.tuple fields l) vs = some out ∧
      AppendSpec (.tuple fields l) vs out := by
  have hwfall : ∀ f ∈ fields, f.wf = true ∧ f.len = l := by
    refine Column.wfAll_mem ?_
    simpa only [Column.wf] using hwf
  obtain ⟨rows, hrows⟩ := optionMap_isSome
    (f := fun v => match v with | CellValue.tuple ws => some ws | _ => none) vs
    (by
      intro v hv
      have := hfit v hv
      cases v <;> first | exact ⟨_, rfl⟩ | simp [cellFits] at this)
  have hvs : vs = rows.map CellValue.tuple :=
    optionMap_extract_inverse hrows (fun v b hb => by
      cases v <;> simp at hb
      simp [hb])
  have hrowslen : rows.length = vs.length := optionMap_length hrows
  have hzip : ∀ ws ∈ rows, cellFitsZip fields ws = true := by
    intro ws hws
    have hmemv : CellValue.tuple ws ∈ vs := by
      rw [hvs]
      exact List.mem_map.mpr ⟨ws, hws, rfl⟩
    simpa [cellFits] using hfit _ hmemv
  have hlencheck : rows.all (fun ws => ws.length == fields.length) = true := by
    rw [List.all_eq_true]
    intro ws hws
    simp [(cellFitsZip_length (hzip ws hws)).symm]
  obtain ⟨fields2, hf2, hlen2, hpoint⟩ := appendTupleFields_spec fields rows
    ihFields (fun f hf => (hwfall f hf).1) hzip
  refine ⟨.tuple fields2 (l + vs.length),
    by simp [appendCells, hrows, hlencheck, hf2], ?_, ?_, ?_, by simp [Column.len], ?_⟩
  · -- shape
    simp only [Column.sameShape]
    refine Column.sameShapeAll_of hlen2.symm ?_
    intro p hp hq
    exact (hpoint p hp hq).1
  · -- emptyLike
    simp only [Column.emptyLike, Column.emptyLikeAll_eq_map]
    congr 1
    refine List.ext_getElem (by simp [hlen2]) ?_
    intro n h₁ h₂
    simp only [List.getElem_map]
    exact (hpoint n (by simpa using h₂) (by simpa using h₁)).2.1
  · -- wf
    simp only [Column.wf]
    refine Column.wfAll_of ?_
    intro f2 hf2mem
    obtain ⟨p, hp, hp2⟩ := List.mem_iff_getElem.mp hf2mem
    subst hp2
    have hpt := hpoint p (by omega) hp
    refine ⟨hpt.2.2.1, ?_⟩
    rw [hpt.2.2.2.1, (hwfall _ (List.getElem_mem (by omega))).2, hrowslen]
  · -- cells
    have houtlen : (Column.tuple fields2 (l + vs.length)).len = l + vs.length := rfl
    refine ext_getD CellValue.null ?_ ?_
    · rw [Column.cells_length, houtlen, List.length_append, Column.cells_length]
      rfl
    · intro r hr
      rw [Column.cells_length, houtlen] at hr
      rw [Column.cells_getD _ _ (by rw [houtlen]; exact hr)]
      simp only [Column.cellAt, Column.cellAtAll_eq_map]
      by_cases hcase : r < l
      · have hr1 : (Column.cells (.tuple fields l) ++ vs).getD r CellValue.null
            = Column.cellAt (.tuple fields l) r := by
          rw [getD_append_left (by rw [Column.cells_length]; exact hcase),
            Column.cells_getD _ _ (by simp only [Column.len]; exact hcase)]
        rw [hr1]
        simp only [Column.cellAt, Column.cellAtAll_eq_map]
        congr 1
        refine List.ext_getElem (by simp [hlen2]) ?_
        intro n h₁ h₂
        simp only [List.getElem_map]
        have hpt := hpoint n (by simpa using h₂) (by simpa using h₁)
        refine cellAt_front hpt.2.2.2.2 ?_
        rw [(hwfall _ (List.getElem_mem (by simpa using h₂))).2]
        exact hcase
      · obtain ⟨k, hk, hreq⟩ : ∃ k, k < vs.length ∧ r = l + k :=
          ⟨r - l, by omega, by omega⟩
        subst hreq
        have hr1 : (Column.cells (.tuple fields l) ++ vs).getD (l + k) CellValue.null
            = vs.getD k CellValue.null := by
          rw [getD_append_right (by rw [Column.cells_length]; simp only [Column.len]; omega)]
          congr 1
          rw [Column.cells_length]
          simp only [Column.len]
          omega
        rw [hr1]
        have hkr : k < rows.length := by omega
        have hv2 : vs.getD k (CellValue.tuple []) = CellValue.tuple (rows.getD k []) := by
          rw [hvs]
          exact getD_map_getD _ _ _ _
        rw [getD_irrel (by omega) CellValue.null (CellValue.tuple []), hv2,
          getD_in_range hkr]
        congr 1
        have hrowlen : (rows[k]).length = fields.length :=
          cellFitsZip_length (hzip _ (List.getElem_mem hkr)) |>.symm
        refine List.ext_getElem (by simp [hlen2, hrowlen]) ?_
        intro n h₁ h₂
        simp only [List.getElem_map]
        have hpt := hpoint n (by simpa [hlen2] using h₁) (by simpa using h₁)
        have hflen : fields2[n].len = fields[n].len + rows.length := hpt.2.2.2.1
        have hn2 : n < fields.length := by simpa [hlen2] using h₁
        have hfl : (fields[n]).len = l :=
          (hwfall _ (List.getElem_mem hn2)).2
        have hcell := cellAt_suffix_getD hpt.2.2.2.2
          (k := k) (by rw [List.length_map]; exact hkr) CellValue.null
        rw [hfl] at hcell
        rw [hcell, getD_map_in_range hkr]
        rw [getD_in_range (by rw [hrowlen]; simpa [hlen2] using h₁)]

theorem appendCells_spec : ∀ (c : Column) (vs : List CellValue),
    c.wf = true → (∀ v ∈ vs, cellFits c v = true) →
    ∃ out, appendCells c vs = some out ∧ AppendSpec c vs out := by
  refine sizeOfStrongInd (P := fun c => ∀ vs, c.wf = true →
    (∀ v ∈ vs, cellFits c v = true) →
    ∃ out, appendCells c vs = some out ∧ AppendSpec c vs out) ?_
  intro c ih vs hwf hfit
  cases c with
  | null l => exact appendCells_null_spec hfit
  | emptyArray l => exact appendCells_emptyArray_spec hfit
  | number ns => exact appendCells_number_spec hfit
  | boolean bs => exact appendCells_boolean_spec hfit
  | string offs data => exact appendCells_string_spec hwf hfit
  | array offs inner =>
      exact appendCells_array_spec hwf hfit
        (fun ws hw hf => ih inner sizeOf_lt_array ws hw hf)
  | nullable inner validity =>
      exact appendCells_nullable_spec hwf hfit
        (fun ws hw hf => ih inner sizeOf_lt_nullable ws hw hf)
  | tuple fields l =>
      exact appendCells_tuple_spec hwf hfit
        (fun f hf ws hw hfi => ih f (sizeOf_lt_tuple hf) ws hw hfi)

/-! ### The column concat specification -/

theorem cells_map_length (columns : List Column) :
    (columns.map Column.cells).map List.length = columns.map Column.len := by
  rw [List.map_map]
  refine List.map_congr_left ?_
  intro c _
  simp [Column.cells_length]

theorem cellsJoin_length (columns : List Column) :
    (cellsJoin columns).length = sumLens columns := by
  rw [cellsJoin, List.length_flatten, cells_map_length, sumLens]

theorem concat_scalar_types_spec {builder c0 : Column} {columns : List Column}
    (hbwf : builder.wf = true) (hblen : builder.len = 0)
    (hbshape : Column.sameShape builder c0 = true)
    (hcols : ∀ c ∈ columns, Column.sameShape c0 c = true) :
    ∃ out, Column.concat_scalar_types builder columns = some out ∧
      Column.sameShape c0 out = true ∧
      out.emptyLike = builder.emptyLike ∧
      out.wf = true ∧
      out.len = sumLens columns ∧
      out.cells = cellsJoin columns := by
  have hvariant : ∀ c ∈ columns, Column.sameVariant builder c = true := fun c hc =>
    Column.sameShape_sameVariant (Column.sameShape_trans _ _ _ hbshape (hcols c hc))
  have hmap := optionMap_if_map (p := fun c => Column.sameVariant builder c)
    (g := Column.cells) hvariant
  have hfit : ∀ v ∈ (columns.map Column.cells).flatten, cellFits builder v = true := by
    intro v hv
    obtain ⟨cl, hcl, hv2⟩ := List.mem_flatten.mp hv
    obtain ⟨c, hc, hcl2⟩ := List.mem_map.mp hcl
    subst hcl2
    obtain ⟨r, hr, hv3⟩ := Column.mem_cells hv2
    subst hv3
    rw [cellFits_congr builder c (Column.sameShape_trans _ _ _ hbshape (hcols c hc))]
    exact cellFits_cellAt c r
  obtain ⟨out, hout, hsh, hemp, hwfo, hlen, hcells⟩ :=
    appendCells_spec builder _ hbwf hfit
  refine ⟨out, ?_, ?_, hemp, hwfo, ?_, ?_⟩
  · simp only [Column.concat_scalar_types, hmap]
    exact hout
  · exact Column.sameShape_trans _ _ _ (Column.sameShape_symm _ _ hbshape) hsh
  · rw [hlen, hblen, List.length_flatten, cells_map_length]
    simp [sumLens]
  · rw [hcells, Column.cells_len_zero hblen, List.nil_append]
    rfl

/-- What the concat dispatcher guarantees: the output has the first input's
type and zero-length seed, its row count is the total row count, and for
well-formed inputs it is well-formed and its rows are the inputs' rows in
order. -/
def ConcatOut (c0 : Column) (rest : List Column) (out : Column) : Prop :=
  Column.sameShape c0 out = true ∧
  out.emptyLike = c0.emptyLike ∧
  out.len = sumLens (c0 :: rest) ∧
  ((∀ c ∈ c0 :: rest, c.wf = true) →
    out.wf = true ∧ out.cells = cellsJoin (c0 :: rest))

theorem concatFields_spec : ∀ (fs : List Column) (idx : Nat) (rest : List Column),
    (∀ f ∈ fs, ∀ rest2 : List Column, (∀ c ∈ rest2, Column.sameShape f c = true) →
      ∃ out, Column.concatDispatch f rest2 = some out ∧ ConcatOut f rest2 out) →
    (∀ c ∈ rest, ∃ gs m, c = Column.tuple gs m ∧ idx + fs.length ≤ gs.length ∧
      ∀ p, p < fs.length →
        Column.sameShape (fs.getD p (.null 0)) (gs.getD (idx + p) (.null 0)) = true) →
    ∃ outs, Column.concatFields fs idx rest = some outs ∧
      outs.length = fs.length ∧
      ∀ p, p < fs.length →
        ∃ gathered, optionMap (fun c => match c with
            | Column.tuple gs _ => gs.get? (idx + p) | _ => none) rest = some gathered ∧
          Column.concatDispatch (fs.getD p (.null 0)) gathered
            = some (outs.getD p (.null 0)) ∧
          ConcatOut (fs.getD p (.null 0)) gathered (outs.getD p (.null 0)) ∧
          gathered.length = rest.length ∧
          ∀ q, q < rest.length → ∀ gs m, rest.getD q (.null 0) = Column.tuple gs m →
            gathered.getD q (.null 0) = gs.getD (idx + p) (.null 0) := by
  intro fs
  induction fs with
  | nil =>
      intro idx rest _ _
      exact ⟨[], rfl, rfl, fun p hp => by simp at hp⟩
  | cons f0 fsrest ih =>
      intro idx rest hdisp hrest
      -- the head projection succeeds on every element of rest
      have hproj : ∀ c ∈ rest, ((fun c => match c with
          | Column.tuple gs _ => gs.get? idx | _ => none) c).isSome = true := by
        intro c hc
        obtain ⟨gs, m, hceq, hlen, _⟩ := hrest c hc
        subst hceq
        simp only [List.get?_eq_getElem?]
        rw [List.getElem?_eq_getElem (by simp at hlen; omega)]
        rfl
      obtain ⟨gathered, hgathered⟩ := optionMap_isSome' rest hproj
      have hglen : gathered.length = rest.length := optionMap_length hgathered
      -- characterize gathered elements
      have hgat : ∀ q, q < rest.length → ∀ gs m,
          rest.getD q (.null 0) = Column.tuple gs m →
          gathered.getD q (.null 0) = gs.getD idx (.null 0) := by
        intro q hq gs m heq
        have hels := optionMap_getElem hgathered q hq (by omega)
        rw [← getD_in_range hq (Column.null 0)] at hels
        rw [heq] at hels
        simp only [] at hels
        rw [List.get?_eq_getElem?] at hels
        rw [getD_in_range (by omega) (Column.null 0)]
        cases hgs : gs[idx]? with
        | none => rw [hgs] at hels; simp at hels
        | some g =>
            rw [hgs] at hels
            simp at hels
            rw [List.getD_eq_getElem?_getD, hgs, Option.getD_some, hels]
      -- shapes of gathered wrt f0
      have hshape0 : ∀ c ∈ gathered, Column.sameShape f0 c = true := by
        intro c hc
        obtain ⟨q, hq, hcq⟩ := List.mem_iff_getElem.mp hc
        have hq2 : q < rest.length := by omega
        obtain ⟨gs, m, hceq, hlen2, hsh⟩ := hrest (rest[q]) (List.getElem_mem hq2)
        have := hgat q hq2 gs m (by rw [getD_in_range hq2]; exact hceq)
        have hsh0 := hsh 0 (by simp)
        simp only [List.getD_cons_zero, Nat.add_zero] at hsh0
        rw [← hcq, ← getD_in_range hq (Column.null 0), this]
        exact hsh0
      obtain ⟨out0, hout0, hconc0⟩ := hdisp f0 (by simp) gathered hshape0
      -- the tail
      have hrest' : ∀ c ∈ rest, ∃ gs m, c = Column.tuple gs m ∧
          (idx + 1) + fsrest.length ≤ gs.length ∧
          ∀ p, p < fsrest.length →
            Column.sameShape (fsrest.getD p (.null 0))
              (gs.getD ((idx + 1) + p) (.null 0)) = true := by
        intro c hc
        obtain ⟨gs, m, hceq, hlen2, hsh⟩ := hrest c hc
        refine ⟨gs, m, hceq, by simp at hlen2 ⊢; omega, ?_⟩
        intro p hp
        have := hsh (p + 1) (by simp; omega)
        simpa [show idx + (p + 1) = idx + 1 + p from by omega] using this
      obtain ⟨outs, houts, hlenouts, hpoint⟩ := ih (idx + 1) rest
        (fun f hf => hdisp f (by simp [hf])) hrest'
      refine ⟨out0 :: outs, ?_, by simp [hlenouts], ?_⟩
      · simp only [Column.concatFields, hgathered, hout0, houts]
      · intro p hp
        cases p with
        | zero =>
            refine ⟨gathered, by simpa using hgathered, ?_, ?_, hglen, ?_⟩
            · simpa using hout0
            · simpa using hconc0
            · intro q hq gs m heq
              simpa using hgat q hq gs m heq
        | succ p =>
            obtain ⟨gathered2, hg2, hd2, hc2, hgl2, hq2⟩ :=
              hpoint p (by simpa using hp)
            refine ⟨gathered2, ?_, ?_, ?_, hgl2, ?_⟩
            · rw [show idx + (p + 1) = (idx + 1) + p from by omega]
              exact hg2
            · simpa using hd2
            · simpa using hc2
            · intro q hq gs m heq
              rw [show idx + (p + 1) = (idx + 1) + p from by omega]
              exact hq2 q hq gs m heq

theorem flatten_getD_segment' {α : Type _} (L : List (List α)) (m k : Nat)
    (hm : m < L.length) (hk : k < (L.getD m []).length) (d : α) :
    L.flatten.getD (((L.take m).map List.length).sum + k) d
      = (L.getD m []).getD k d := by
  have hLm : L.getD m [] = L[m] := getD_in_range hm []
  rw [hLm] at hk ⊢
  rw [flatten_getD_segment L m hm k hk]

theorem cellsJoin_getD (L : List Column) (m k : Nat) (hm : m < L.length)
    (hk : k < (L.getD m (.null 0)).len) (d : CellValue) :
    (cellsJoin L).getD (((L.take m).map Column.len).sum + k) d
      = (L.getD m (.null 0)).cellAt k := by
  have hLm : L.getD m (.null 0) = L[m] := getD_in_range hm (Column.null 0)
  rw [hLm] at hk ⊢
  have hpsum : ((L.take m).map Column.len).sum
      = (((L.map Column.cells).take m).map List.length).sum := by
    rw [List.map_take, List.map_take, cells_map_length]
  rw [cellsJoin, hpsum,
    flatten_getD_segment (L.map Column.cells) m (by simpa using hm) k
      (by rw [List.getElem_map]; rw [Column.cells_length]; exact hk)]
  rw [List.getElem_map]
  exact Column.cells_getD _ _ hk d

theorem map_boolean_inj {a b : List Bool}
    (h : a.map CellValue.boolean = b.map CellValue.boolean) : a = b := by
  refine List.map_injective_iff.mpr ?_ h
  intro x y hxy
  injection hxy

theorem arrayBuilder_wf (x : Column) : Column.wf (.array [0] x.emptyLike) = true := by
  simp [Column.wf, offsetsMono_singleton, Column.emptyLike_len, Column.emptyLike_wf]

theorem sum_take_map {A : List α} (f : α → Nat) (m : Nat) :
    ((A.take m).map f).sum = ((A.map f).take m).sum := by
  rw [List.map_take]

theorem concatDispatch_nullable_spec {inner0 : Column} {v0 : List Bool}
    {rest : List Column}
    (hshape : ∀ c ∈ rest, Column.sameShape (.nullable inner0 v0) c = true)
    (ihInner : ∀ rest2 : List Column,
      (∀ c ∈ rest2, Column.sameShape inner0 c = true) →
      ∃ out, Column.concatDispatch inner0 rest2 = some out ∧
        ConcatOut inner0 rest2 out) :
    ∃ out, Column.concatDispatch (.nullable inner0 v0) rest = some out ∧
      ConcatOut (.nullable inner0 v0) rest out := by
  have hps : ∀ c ∈ rest, ((fun c => match c with
      | Column.nullable i v => some (i, v) | _ => none) c).isSome = true := by
    intro c hc
    have := hshape c hc
    cases c <;> simp [Column.sameShape] at this ⊢
  obtain ⟨parts, hparts⟩ := optionMap_isSome' rest hps
  have hplen : parts.length = rest.length := optionMap_length hparts
  have hchar : ∀ q, q < rest.length →
      rest.getD q (.null 0) = Column.nullable (parts.getD q (.null 0, [])).1
        (parts.getD q (.null 0, [])).2 := by
    intro q hq
    have hq2 : q < parts.length := by omega
    have hmem := optionMap_getElem hparts q hq hq2
    rw [getD_in_range hq, getD_in_range hq2]
    cases hcq : rest[q] with
    | nullable i v =>
        rw [hcq] at hmem
        simp only [Option.some.injEq] at hmem
        rw [← hmem]
    | null m => rw [hcq] at hmem; simp at hmem
    | emptyArray m => rw [hcq] at hmem; simp at hmem
    | number ns => rw [hcq] at hmem; simp at hmem
    | boolean bs => rw [hcq] at hmem; simp at hmem
    | string o d => rw [hcq] at hmem; simp at hmem
    | array o i => rw [hcq] at hmem; simp at hmem
    | tuple fs m => rw [hcq] at hmem; simp at hmem
  have hshaperest : ∀ q, q < rest.length →
      Column.sameShape inner0 (parts.getD q (.null 0, [])).1 = true := by
    intro q hq
    have hs := hshape _ (List.getElem_mem hq)
    have hcc := hchar q hq
    rw [getD_in_range hq] at hcc
    rw [hcc] at hs
    simpa [Column.sameShape] using hs
  have hishapes : ∀ c ∈ parts.map Prod.fst, Column.sameShape inner0 c = true := by
    intro c hc
    obtain ⟨q, hq, hcq⟩ := List.mem_iff_getElem.mp hc
    have hq2 : q < rest.length := by simp at hq; omega
    have := hshaperest q hq2
    rw [← hcq, List.getElem_map]
    rw [getD_in_range (by omega)] at this
    exact this
  obtain ⟨innerOut, hinnerOut, hshI, hempI, hlenI, himpI⟩ :=
    ihInner (parts.map Prod.fst) hishapes
  have hbshape2 : ∀ c ∈ (Column.boolean v0 :: parts.map (fun p => Column.boolean p.2)),
      Column.sameShape (Column.boolean v0) c = true := by
    intro c hc
    rcases List.mem_cons.mp hc with h | h
    · subst h; rfl
    · obtain ⟨p, _, hp2⟩ := List.mem_map.mp h
      subst hp2
      rfl
  obtain ⟨outv, houtv, hshV, hempV, hwfV, hlenV, hcellsV⟩ :=
    @concat_scalar_types_spec (Column.boolean []) (Column.boolean v0) _ rfl rfl rfl
      hbshape2
  cases outv with
  | boolean bits =>
    have hbitmaps : (Column.boolean v0 :: parts.map (fun p => Column.boolean p.2))
        = (v0 :: parts.map Prod.snd).map Column.boolean := by
      simp [List.map_map, Function.comp]
    have hbits : bits = (v0 :: parts.map Prod.snd).flatten := by
      apply map_boolean_inj
      have h1 := hcellsV
      rw [Column.cells_boolean] at h1
      have h2 : (Column.cells ∘ Column.boolean) = List.map CellValue.boolean :=
        funext (fun v => Column.cells_boolean v)
      rw [h1, hbitmaps, cellsJoin, List.map_map, h2, ← List.map_flatten]
    have hlenlist : (Column.nullable inner0 v0 :: rest).map Column.len
        = (v0 :: parts.map Prod.snd).map List.length := by
      refine List.ext_getElem (by simp [hplen]) ?_
      intro q h₁ h₂
      cases q with
      | zero => rfl
      | succ q =>
          simp only [List.getElem_cons_succ, List.getElem_map]
          have hq2 : q < rest.length := by simpa using h₁
          have hcc := hchar q hq2
          rw [getD_in_range hq2] at hcc
          rw [hcc]
          simp only [Column.len]
          have hpq : parts.getD q (Column.null 0, []) = parts[q] :=
            getD_in_range (by omega) _
          rw [hpq]
  -- assemble the output
    refine ⟨.nullable innerOut bits, ?_, ?_, ?_, ?_, ?_⟩
    · simp only [Column.concatDispatch, hparts, hinnerOut, houtv]
    · simpa [Column.sameShape] using hshI
    · simp only [Column.emptyLike, hempI]
    · show bits.length = sumLens (Column.nullable inner0 v0 :: rest)
      rw [hbits, List.length_flatten, sumLens, hlenlist]
    · intro hwfall
      have hwfparts : ∀ q, q < rest.length →
          (parts.getD q (.null 0, [])).2.length = (parts.getD q (.null 0, [])).1.len ∧
          (parts.getD q (.null 0, [])).1.wf = true := by
        intro q hq
        have hw := hwfall _ (by
          have : rest[q] ∈ rest := List.getElem_mem hq
          exact List.mem_cons.mpr (Or.inr this))
        have hcc := hchar q hq
        rw [getD_in_range hq] at hcc
        rw [hcc] at hw
        simpa only [Column.wf, Bool.and_eq_true, beq_iff_eq] using hw
      have hwf0 : v0.length = inner0.len ∧ inner0.wf = true := by
        have hw := hwfall _ (List.mem_cons.mpr (Or.inl rfl))
        simpa only [Column.wf, Bool.and_eq_true, beq_iff_eq] using hw
      have hinwf : ∀ c ∈ inner0 :: parts.map Prod.fst, c.wf = true := by
        intro c hc
        rcases List.mem_cons.mp hc with h | h
        · subst h; exact hwf0.2
        · obtain ⟨q, hq, hcq⟩ := List.mem_iff_getElem.mp h
          have hq2 : q < rest.length := by simp at hq; omega
          rw [← hcq, List.getElem_map]
          have := (hwfparts q hq2).2
          rw [← getD_in_range (by omega) (Column.null 0, [])]
          exact this
      obtain ⟨hwfInnerOut, hcellsInnerOut⟩ := himpI hinwf
      have hinlens : (inner0 :: parts.map Prod.fst).map Column.len
          = (v0 :: parts.map Prod.snd).map List.length := by
        refine List.ext_getElem (by simp) ?_
        intro q h₁ h₂
        cases q with
        | zero =>
            simpa using hwf0.1.symm
        | succ q =>
            simp only [List.getElem_cons_succ, List.getElem_map]
            have hq2 : q < rest.length := by simp at h₁; omega
            have hw := (hwfparts q hq2).1
            have hpq : parts.getD q (Column.null 0, []) = parts[q] :=
              getD_in_range (by omega) _
            rw [hpq] at hw
            exact hw.symm
      constructor
      · -- well-formedness of the output
        simp only [Column.wf, Bool.and_eq_true, beq_iff_eq]
        refine ⟨?_, hwfInnerOut⟩
        rw [hbits, List.length_flatten, hlenI, sumLens, hinlens]
      · -- cells of the output
        refine ext_getD CellValue.null ?_ ?_
        · rw [Column.cells_length, cellsJoin_length]
          show bits.length = sumLens (Column.nullable inner0 v0 :: rest)
          rw [hbits, List.length_flatten, sumLens, hlenlist]
        · intro r hr
          rw [Column.cells_length] at hr
          rw [Column.cells_getD _ _ hr]
          have hrlen : r < ((v0 :: parts.map Prod.snd).map List.length).sum := by
            have : (Column.nullable innerOut bits).len = bits.length := rfl
            rw [this, hbits, List.length_flatten] at hr
            exact hr
          obtain ⟨m, hm, k, hk, hdecomp⟩ :=
            flatten_index_decomp (v0 :: parts.map Prod.snd) r hrlen
          subst hdecomp
          -- the three getD computations
          have hb : bits.getD (((((v0 :: parts.map Prod.snd)).take m).map List.length).sum + k)
              false = ((v0 :: parts.map Prod.snd).getD m []).getD k false := by
            rw [hbits]
            exact flatten_getD_segment' _ m k hm (by rw [getD_in_range hm]; exact hk) false
          have hkd : k < ((v0 :: parts.map Prod.snd).getD m []).length := by
            rw [getD_in_range hm]
            exact hk
          have hmi : m < (inner0 :: parts.map Prod.fst).length := by
            simpa using hm
          have hpsumI : (((inner0 :: parts.map Prod.fst).take m).map Column.len).sum
              = (((v0 :: parts.map Prod.snd).take m).map List.length).sum := by
            rw [sum_take_map, sum_take_map, hinlens]
          have hkI : k < ((inner0 :: parts.map Prod.fst).getD m (.null 0)).len := by
            have h1 : ((inner0 :: parts.map Prod.fst).map Column.len).getD m 0
                = ((v0 :: parts.map Prod.snd).map List.length).getD m 0 := by rw [hinlens]
            rw [getD_map_in_range (by simpa using hm),
              getD_map_in_range (by simpa using hm)] at h1
            rw [getD_in_range (by simpa using hm)]
            rw [getD_in_range hm] at hkd
            omega
          have hic : innerOut.cellAt ((((v0 :: parts.map Prod.snd).take m).map
              List.length).sum + k)
              = ((inner0 :: parts.map Prod.fst).getD m (.null 0)).cellAt k := by
            have hrI : (((v0 :: parts.map Prod.snd).take m).map List.length).sum + k
                < innerOut.len := by
              rw [hlenI, sumLens, hinlens]
              exact hrlen
            rw [← Column.cells_getD _ _ hrI CellValue.null, hcellsInnerOut, ← hpsumI]
            exact cellsJoin_getD _ m k hmi hkI CellValue.null
          have hpsumL : (((Column.nullable inner0 v0 :: rest).take m).map Column.len).sum
              = (((v0 :: parts.map Prod.snd).take m).map List.length).sum := by
            rw [sum_take_map, sum_take_map, hlenlist]
          have hmL : m < (Column.nullable inner0 v0 :: rest).length := by
            simpa [hplen] using hm
          have hkL : k < ((Column.nullable inner0 v0 :: rest).getD m (.null 0)).len := by
            have h1 : ((Column.nullable inner0 v0 :: rest).map Column.len).getD m 0
                = ((v0 :: parts.map Prod.snd).map List.length).getD m 0 := by rw [hlenlist]
            rw [getD_map_in_range (by simpa using hmL),
              getD_map_in_range (by simpa using hm)] at h1
            rw [getD_in_range (by simpa using hmL)]
            rw [getD_in_range hm] at hkd
            omega
          have hrhs := cellsJoin_getD (Column.nullable inner0 v0 :: rest) m k hmL hkL
            CellValue.null
          rw [← hpsumL] at hb hic
          rw [← hpsumL, hrhs]
          -- now compute both sides at segment m
          simp only [Column.cellAt]
          rw [hb, hic]
          cases m with
          | zero =>
              simp only [List.getD_cons_zero, Column.cellAt]
          | succ q =>
              have hq2 : q < rest.length := by simpa [hplen] using hm
              simp only [List.getD_cons_succ]
              have hcc := hchar q hq2
              rw [hcc]
              simp only [Column.cellAt]
              have hpq : parts.getD q (Column.null 0, []) = parts[q] :=
                getD_in_range (by omega) _
              have e1 : (parts.map Prod.snd).getD q []
                  = (parts.getD q (.null 0, [])).2 := by
                rw [getD_map_in_range (by omega), hpq]
              have e2 : (parts.map Prod.fst).getD q (Column.null 0)
                  = (parts.getD q (.null 0, [])).1 := by
                rw [getD_map_in_range (by omega), hpq]
              rw [e1, e2]
  | null m => simp [Column.sameShape] at hshV
  | emptyArray m => simp [Column.sameShape] at hshV
  | number ns => simp [Column.sameShape] at hshV
  | string o d => simp [Column.sameShape] at hshV
  | array o i => simp [Column.sameShape] at hshV
  | nullable i v => simp [Column.sameShape] at hshV
  | tuple fs m => simp [Column.sameShape] at hshV

theorem sumLens_index_decomp (L : List Column) (r : Nat) (hr : r < sumLens L) :
    ∃ m, ∃ (hm : m < L.length), ∃ k, k < (L.getD m (.null 0)).len ∧
      r = ((L.take m).map Column.len).sum + k := by
  have hr2 : r < ((L.map Column.cells).map List.length).sum := by
    rw [cells_map_length]
    exact hr
  obtain ⟨m, hm, k, hk, hdecomp⟩ := flatten_index_decomp (L.map Column.cells) r hr2
  have hm2 : m < L.length := by simpa using hm
  refine ⟨m, hm2, k, ?_, ?_⟩
  · rw [getD_in_range hm2]
    rw [List.getElem_map, Column.cells_length] at hk
    exact hk
  · rw [hdecomp]
    congr 1
    rw [sum_take_map, sum_take_map, cells_map_length]

theorem concatDispatch_tuple_spec {fields0 : List Column} {l0 : Nat} {rest : List Column}
    (hshape : ∀ c ∈ rest, Column.sameShape (.tuple fields0 l0) c = true)
    (ihFields : ∀ f ∈ fields0, ∀ rest2 : List Column,
      (∀ c ∈ rest2, Column.sameShape f c = true) →
      ∃ out, Column.concatDispatch f rest2 = some out ∧ ConcatOut f rest2 out) :
    ∃ out, Column.concatDispatch (.tuple fields0 l0) rest = some out ∧
      ConcatOut (.tuple fields0 l0) rest out := by
  have hrestfull : ∀ c ∈ rest, ∃ gs m, c = Column.tuple gs m ∧
      gs.length = fields0.length ∧
      ∀ p, p < fields0.length →
        Column.sameShape (fields0.getD p (.null 0)) (gs.getD (0 + p) (.null 0)) = true := by
    intro c hc
    have hs := hshape c hc
    cases c with
    | tuple gs m =>
        simp only [Column.sameShape] at hs
        have hlen := Column.sameShapeAll_length hs
        refine ⟨gs, m, rfl, hlen.symm, ?_⟩
        intro p hp
        have := Column.sameShapeAll_getElem hs p hp (by omega)
        rw [getD_in_range hp, getD_in_range (by omega)]
        simpa using this
    | null m => simp [Column.sameShape] at hs
    | emptyArray m => simp [Column.sameShape] at hs
    | number ns => simp [Column.sameShape] at hs
    | boolean bs => simp [Column.sameShape] at hs
    | string o d => simp [Column.sameShape] at hs
    | array o i => simp [Column.sameShape] at hs
    | nullable i v => simp [Column.sameShape] at hs
  have hrest : ∀ c ∈ rest, ∃ gs m, c = Column.tuple gs m ∧
      0 + fields0.length ≤ gs.length ∧
      ∀ p, p < fields0.length →
        Column.sameShape (fields0.getD p (.null 0)) (gs.getD (0 + p) (.null 0)) = true := by
    intro c hc
    obtain ⟨gs, m, h1, h2, h3⟩ := hrestfull c hc
    exact ⟨gs, m, h1, by omega, h3⟩
  obtain ⟨outs, houts, hlenouts, hpoint⟩ := concatFields_spec fields0 0 rest ihFields hrest
  refine ⟨.tuple outs (l0 + (rest.map Column.len).sum), ?_, ?_, ?_, ?_, ?_⟩
  · simp only [Column.concatDispatch, houts]
  · -- shape
    simp only [Column.sameShape]
    refine Column.sameShapeAll_of hlenouts.symm ?_
    intro p hp hq
    obtain ⟨g, _, _, hconc, _, _⟩ := hpoint p hp
    have := hconc.1
    rw [getD_in_range hp, getD_in_range hq] at this
    exact this
  · -- emptyLike
    simp only [Column.emptyLike, Column.emptyLikeAll_eq_map]
    congr 1
    refine List.ext_getElem (by simp [hlenouts]) ?_
    intro p h₁ h₂
    simp only [List.getElem_map]
    obtain ⟨g, _, _, hconc, _, _⟩ := hpoint p (by simpa using h₂)
    have := hconc.2.1
    rw [getD_in_range (by simpa using h₁), getD_in_range (by simpa using h₂)] at this
    exact this
  · -- length
    simp only [Column.len, sumLens, List.map_cons, List.sum_cons]
  · intro hwfall
    -- facts about the inputs
    have hwf0 : ∀ f ∈ fields0, f.wf = true ∧ f.len = l0 := by
      have := hwfall _ (List.mem_cons.mpr (Or.inl rfl))
      exact Column.wfAll_mem (by simpa only [Column.wf] using this)
    have hwfrest : ∀ q, q < rest.length → ∀ gs m,
        rest.getD q (.null 0) = Column.tuple gs m →
        (∀ g ∈ gs, g.wf = true ∧ g.len = m) ∧
          Column.len (rest.getD q (.null 0)) = m := by
      intro q hq gs m heq
      have hw := hwfall _ (List.mem_cons.mpr (Or.inr (List.getElem_mem hq)))
      rw [getD_in_range hq] at heq
      rw [heq] at hw
      refine ⟨Column.wfAll_mem (by simpa only [Column.wf] using hw), ?_⟩
      rw [getD_in_range hq, heq]
      rfl
    -- per-field facts, all referring to one gathered list
    have hperfield : ∀ p, p < fields0.length →
        ∃ gathered,
          gathered.length = rest.length ∧
          (∀ q, q < rest.length → ∀ gs m, rest.getD q (.null 0) = Column.tuple gs m →
            gathered.getD q (.null 0) = gs.getD (0 + p) (.null 0)) ∧
          (outs.getD p (.null 0)).wf = true ∧
          (outs.getD p (.null 0)).cells
            = cellsJoin (fields0.getD p (.null 0) :: gathered) ∧
          (outs.getD p (.null 0)).len
            = sumLens (fields0.getD p (.null 0) :: gathered) ∧
          ((fields0.getD p (.null 0) :: gathered).map Column.len
            = (Column.tuple fields0 l0 :: rest).map Column.len) := by
      intro p hp
      obtain ⟨gathered, hg, hdisp, hconc, hglen, hgchar⟩ := hpoint p hp
      have hlens : (fields0.getD p (.null 0) :: gathered).map Column.len
          = (Column.tuple fields0 l0 :: rest).map Column.len := by
        refine List.ext_getElem (by simp [hglen]) ?_
        intro q h₁ h₂
        cases q with
        | zero =>
            simp only [List.getElem_cons_zero, List.getElem_map, List.getElem_cons_zero]
            rw [getD_in_range hp]
            show (fields0[p]).len = Column.len (.tuple fields0 l0)
            rw [(hwf0 _ (List.getElem_mem hp)).2]
            rfl
        | succ q =>
            have hq2 : q < rest.length := by simpa [hglen] using h₁
            simp only [List.getElem_map, List.getElem_cons_succ]
            obtain ⟨gs, m, heq, hgslen, _⟩ := hrestfull _ (List.getElem_mem hq2)
            have heq' : rest.getD q (.null 0) = Column.tuple gs m := by
              rw [getD_in_range hq2]
              exact heq
            have hgat := hgchar q hq2 gs m heq'
            have hwq := hwfrest q hq2 gs m heq'
            have hgq : gathered.getD q (.null 0) = gathered[q] :=
              getD_in_range (by omega) _
            rw [← hgq, hgat]
            have hmem : gs.getD (0 + p) (.null 0) ∈ gs := by
              rw [getD_in_range (by omega)]
              exact List.getElem_mem (by omega)
            rw [(hwq.1 _ hmem).2]
            rw [getD_in_range hq2] at heq'
            rw [heq']
            rfl
      have hwfin : ∀ c ∈ fields0.getD p (.null 0) :: gathered, c.wf = true := by
        intro c hc
        rcases List.mem_cons.mp hc with h | h
        · subst h
          rw [getD_in_range hp]
          exact (hwf0 _ (List.getElem_mem hp)).1
        · obtain ⟨q, hq, hcq⟩ := List.mem_iff_getElem.mp h
          have hq2 : q < rest.length := by omega
          obtain ⟨gs, m, heq, hgslen, _⟩ := hrestfull _ (List.getElem_mem hq2)
          have heq' : rest.getD q (.null 0) = Column.tuple gs m := by
            rw [getD_in_range hq2]
            exact heq
          have hgat := hgchar q hq2 gs m heq'
          have hgq : gathered.getD q (.null 0) = gathered[q] :=
            getD_in_range (by omega) _
          rw [← hcq, ← hgq, hgat]
          refine ((hwfrest q hq2 gs m heq').1 _ ?_).1
          rw [getD_in_range (by omega)]
          exact List.getElem_mem (by omega)
      obtain ⟨hwfp, hcellsp⟩ := hconc.2.2.2 hwfin
      exact ⟨gathered, hglen, hgchar, hwfp, hcellsp, hconc.2.2.1, hlens⟩
    constructor
    · -- wf of the output
      simp only [Column.wf]
      refine Column.wfAll_of ?_
      intro f2 hf2
      obtain ⟨p, hp, hp2⟩ := List.mem_iff_getElem.mp hf2
      have hp3 : p < fields0.length := by omega
      obtain ⟨gathered, hglen, hgchar, hwfp, hcellsp, hlenp, hlens⟩ := hperfield p hp3
      have hout : outs.getD p (.null 0) = outs[p] := getD_in_range (by omega) _
      rw [← hp2, ← hout]
      refine ⟨hwfp, ?_⟩
      rw [hlenp]
      simp only [sumLens]
      rw [hlens]
      simp only [List.map_cons, List.sum_cons]
      rfl
    · -- cells of the output
      refine ext_getD CellValue.null ?_ ?_
      · rw [Column.cells_length, cellsJoin_length]
        simp only [Column.len, sumLens, List.map_cons, List.sum_cons]
      · intro r hr
        rw [Column.cells_length] at hr
        rw [Column.cells_getD _ _ hr]
        have hrsum : r < sumLens (Column.tuple fields0 l0 :: rest) := by
          simp only [Column.len] at hr
          simp only [sumLens, List.map_cons, List.sum_cons]
          exact hr
        obtain ⟨m, hm, k, hk, hdecomp⟩ :=
          sumLens_index_decomp (Column.tuple fields0 l0 :: rest) r hrsum
        subst hdecomp
        rw [cellsJoin_getD _ m k hm hk]
        simp only [Column.cellAt, Column.cellAtAll_eq_map]
        obtain ⟨gsm, mm, hgsm, hgsmlen⟩ : ∃ gs mm,
            (Column.tuple fields0 l0 :: rest).getD m (.null 0) = Column.tuple gs mm ∧
            gs.length = fields0.length := by
          cases m with
          | zero => exact ⟨fields0, l0, rfl, rfl⟩
          | succ q =>
              have hq2 : q < rest.length := by simpa using hm
              obtain ⟨gs, mq, heq, hlen2, _⟩ := hrestfull _ (List.getElem_mem hq2)
              refine ⟨gs, mq, ?_, hlen2⟩
              simp only [List.getD_cons_succ]
              rw [getD_in_range hq2]
              exact heq
        rw [hgsm]
        simp only [Column.cellAt, Column.cellAtAll_eq_map]
        congr 1
        refine List.ext_getElem ?_ ?_
        · rw [List.length_map, List.length_map, hlenouts, hgsmlen]
        intro p h₁ h₂
        simp only [List.getElem_map]
        have hp3 : p < fields0.length := by simp [hlenouts] at h₁; omega
        obtain ⟨gathered, hglen, hgchar, hwfp, hcellsp, hlenp, hlens⟩ := hperfield p hp3
        have hout : outs.getD p (.null 0) = outs[p] := getD_in_range (by omega) _
        have hpsump : (((fields0.getD p (.null 0) :: gathered).take m).map Column.len).sum
            = (((Column.tuple fields0 l0 :: rest).take m).map Column.len).sum := by
          rw [sum_take_map, sum_take_map, hlens]
        have hrp : (((Column.tuple fields0 l0 :: rest).take m).map Column.len).sum + k
            < (outs.getD p (.null 0)).len := by
          rw [hlenp]
          simp only [sumLens]
          rw [hlens]
          simpa only [sumLens] using hrsum
        have hmlen : m < (fields0.getD p (.null 0) :: gathered).length := by
          simp only [List.length_cons, hglen]
          simpa using hm
        have hkp : k < ((fields0.getD p (.null 0) :: gathered).getD m (.null 0)).len := by
          have h5 : ((fields0.getD p (.null 0) :: gathered).map Column.len).getD m 0
              = ((Column.tuple fields0 l0 :: rest).map Column.len).getD m 0 := by
            rw [hlens]
          rw [getD_map_in_range hmlen, getD_map_in_range (by simpa using hm)] at h5
          rw [getD_in_range hmlen]
          rw [getD_in_range hm] at hk
          omega
        have hcellval : (outs.getD p (.null 0)).cellAt
            ((((Column.tuple fields0 l0 :: rest).take m).map Column.len).sum + k)
            = ((fields0.getD p (.null 0) :: gathered).getD m (.null 0)).cellAt k := by
          rw [← Column.cells_getD _ _ hrp CellValue.null, hcellsp, ← hpsump]
          exact cellsJoin_getD _ m k hmlen hkp CellValue.null
        rw [← hout, hcellval]
        cases m with
        | zero =>
            simp only [List.getD_cons_zero]
            have hgf : gsm = fields0 := by
              simp only [List.getD_cons_zero] at hgsm
              cases hgsm
              rfl
            subst hgf
            rw [getD_in_range hp3]
        | succ q =>
            have hq2 : q < rest.length := by simpa using hm
            simp only [List.getD_cons_succ] at hgsm
            simp only [List.getD_cons_succ]
            have hgat := hgchar q hq2 gsm mm hgsm
            rw [hgat, getD_in_range (by omega)]
            simp

theorem concatDispatch_spec : ∀ (c0 : Column) (rest : List Column),
    (∀ c ∈ rest, Column.sameShape c0 c = true) →
    ∃ out, Column.concatDispatch c0 rest = some out ∧ ConcatOut c0 rest out := by
  refine sizeOfStrongInd (P := fun c0 => ∀ rest,
    (∀ c ∈ rest, Column.sameShape c0 c = true) →
    ∃ out, Column.concatDispatch c0 rest = some out ∧ ConcatOut c0 rest out) ?_
  intro c0 ih rest hshape
  cases c0 with
  | number vs0 =>
      have hnum : ∀ c ∈ (Column.number vs0) :: rest, ((fun c => match c with
          | Column.number vs => some vs | _ => none) c).isSome = true := by
        intro c hc
        rcases List.mem_cons.mp hc with h | h
        · subst h; rfl
        · have := hshape c h
          cases c <;> simp [Column.sameShape] at this ⊢
      obtain ⟨values, hvalues⟩ := optionMap_isSome' _ hnum
      have hvlen : values.length = (Column.number vs0 :: rest).length :=
        optionMap_length hvalues
      have hchar : ∀ q, q < (Column.number vs0 :: rest).length →
          (Column.number vs0 :: rest).getD q (.null 0)
            = Column.number (values.getD q []) := by
        intro q hq
        have hq2 : q < values.length := by omega
        have hmem := optionMap_getElem hvalues q hq hq2
        rw [getD_in_range hq, getD_in_range hq2]
        cases hcq : (Column.number vs0 :: rest)[q] with
        | number ns =>
            rw [hcq] at hmem
            simp only [Option.some.injEq] at hmem
            rw [hmem]
        | null m => rw [hcq] at hmem; simp at hmem
        | emptyArray m => rw [hcq] at hmem; simp at hmem
        | boolean bs => rw [hcq] at hmem; simp at hmem
        | string o d => rw [hcq] at hmem; simp at hmem
        | array o i => rw [hcq] at hmem; simp at hmem
        | nullable i v => rw [hcq] at hmem; simp at hmem
        | tuple fs m => rw [hcq] at hmem; simp at hmem
      have hlenlist : (Column.number vs0 :: rest).map Column.len
          = values.map List.length := by
        refine List.ext_getElem (by simp [hvlen]) ?_
        intro q h₁ h₂
        simp only [List.getElem_map]
        have hcc := hchar q (by simpa using h₁)
        rw [getD_in_range (by simpa using h₁), getD_in_range (by simpa using h₂)] at hcc
        rw [hcc]
        rfl
      refine ⟨Column.number (Column.concat_primitive_types values), ?_, rfl, rfl, ?_, ?_⟩
      · simp only [Column.concatDispatch, hvalues]
      · simp only [Column.concat_primitive_types, Column.len, List.length_flatten,
          sumLens, hlenlist]
      · intro _
        refine ⟨rfl, ?_⟩
        simp only [Column.concat_primitive_types]
        rw [Column.cells_number, List.map_flatten, cellsJoin]
        congr 1
        refine List.ext_getElem (by simp [hvlen]) ?_
        intro q h₁ h₂
        simp only [List.getElem_map]
        have hcc := hchar q (by simpa using h₂)
        rw [getD_in_range (by simpa using h₂), getD_in_range (by simpa using h₁)] at hcc
        rw [hcc, Column.cells_number]
  | null l =>
      have hcols : ∀ c ∈ (Column.null l) :: rest,
          Column.sameShape (Column.null l) c = true := by
        intro c hc
        rcases List.mem_cons.mp hc with h | h
        · subst h; rfl
        · exact hshape c h
      obtain ⟨out, hout, hsh, hemp, hwfo, hlen, hcells⟩ :=
        @concat_scalar_types_spec (Column.null 0) (Column.null l) _ rfl rfl rfl hcols
      exact ⟨out, by simpa [Column.concatDispatch] using hout, hsh, by rw [hemp]; rfl,
        hlen, fun _ => ⟨hwfo, hcells⟩⟩
  | emptyArray l =>
      have hcols : ∀ c ∈ (Column.emptyArray l) :: rest,
          Column.sameShape (Column.emptyArray l) c = true := by
        intro c hc
        rcases List.mem_cons.mp hc with h | h
        · subst h; rfl
        · exact hshape c h
      obtain ⟨out, hout, hsh, hemp, hwfo, hlen, hcells⟩ :=
        @concat_scalar_types_spec (Column.emptyArray 0) (Column.emptyArray l) _ rfl rfl
          rfl hcols
      exact ⟨out, by simpa [Column.concatDispatch] using hout, hsh, by rw [hemp]; rfl,
        hlen, fun _ => ⟨hwfo, hcells⟩⟩
  | boolean bs =>
      have hcols : ∀ c ∈ (Column.boolean bs) :: rest,
          Column.sameShape (Column.boolean bs) c = true := by
        intro c hc
        rcases List.mem_cons.mp hc with h | h
        · subst h; rfl
        · exact hshape c h
      obtain ⟨out, hout, hsh, hemp, hwfo, hlen, hcells⟩ :=
        @concat_scalar_types_spec (Column.boolean []) (Column.boolean bs) _ rfl rfl rfl
          hcols
      exact ⟨out, by simpa [Column.concatDispatch] using hout, hsh, by rw [hemp]; rfl,
        hlen, fun _ => ⟨hwfo, hcells⟩⟩
  | string offs data =>
      have hcols : ∀ c ∈ (Column.string offs data) :: rest,
          Column.sameShape (Column.string offs data) c = true := by
        intro c hc
        rcases List.mem_cons.mp hc with h | h
        · subst h; rfl
        · exact hshape c h
      obtain ⟨out, hout, hsh, hemp, hwfo, hlen, hcells⟩ :=
        @concat_scalar_types_spec (Column.string [0] []) (Column.string offs data) _
          rfl rfl rfl hcols
      exact ⟨out, by simpa [Column.concatDispatch] using hout, hsh, by rw [hemp]; rfl,
        hlen, fun _ => ⟨hwfo, hcells⟩⟩
  | array offs0 inner0 =>
      have hcols : ∀ c ∈ (Column.array offs0 inner0) :: rest,
          Column.sameShape (Column.array offs0 inner0) c = true := by
        intro c hc
        rcases List.mem_cons.mp hc with h | h
        · subst h; exact Column.sameShape_refl _
        · exact hshape c h
      obtain ⟨out, hout, hsh, hemp, hwfo, hlen, hcells⟩ :=
        @concat_scalar_types_spec (Column.array [0] inner0.emptyLike)
          (Column.array offs0 inner0) _ (arrayBuilder_wf inner0) rfl
          (by simpa [Column.sameShape] using Column.sameShape_emptyLike inner0) hcols
      refine ⟨out, by simpa [Column.concatDispatch] using hout, hsh, ?_, hlen,
        fun _ => ⟨hwfo, hcells⟩⟩
      rw [hemp]
      simp [Column.emptyLike, Column.emptyLike_idem]
  | nullable inner0 v0 =>
      exact concatDispatch_nullable_spec hshape
        (fun rest2 hsh2 => ih inner0 sizeOf_lt_nullable rest2 hsh2)
  | tuple fields0 l0 =>
      exact concatDispatch_tuple_spec hshape
        (fun f hf rest2 hsh2 => ih f (sizeOf_lt_tuple hf) rest2 hsh2)

theorem concat_singleton (c : Column) : Column.concat [c] = some c := rfl

theorem concat_spec (c0 : Column) (rest : List Column)
    (hshape : ∀ c ∈ rest, Column.sameShape c0 c = true) :
    ∃ out, Column.concat (c0 :: rest) = some out ∧ ConcatOut c0 rest out := by
  cases rest with
  | nil =>
      refine ⟨c0, rfl, Column.sameShape_refl c0, rfl, by simp [sumLens], ?_⟩
      intro hwf
      exact ⟨hwf c0 (by simp), by simp [cellsJoin]⟩
  | cons c1 crest =>
      obtain ⟨out, hout, hconc⟩ := concatDispatch_spec c0 (c1 :: crest) hshape
      refine ⟨out, ?_, hconc⟩
      rw [Column.concat]
      simp only [List.length_cons]
      rw [if_neg (by simp)]
      exact hout

theorem optionMap_extract_map {f : α → Option β} {g : β → α}
    (hfg : ∀ b, f (g b) = some b) : ∀ (l : List β), optionMap f (l.map g) = some l := by
  intro l
  induction l with
  | nil => rfl
  | cons b bs ih => simp [optionMap, hfg b, ih]

theorem optionMap_append_some {f : α → Option β} {l1 l2 : List α} {a b : List β}
    (h1 : optionMap f l1 = some a) (h2 : optionMap f l2 = some b) :
    optionMap f (l1 ++ l2) = some (a ++ b) := by
  induction l1 generalizing a with
  | nil => simp [optionMap] at h1; simp [← h1, h2]
  | cons x xs ih =>
      simp only [optionMap] at h1
      cases hfx : f x with
      | none => rw [hfx] at h1; simp at h1
      | some y =>
          rw [hfx] at h1
          cases hrec : optionMap f xs with
          | none => rw [hrec] at h1; simp at h1
          | some ys =>
              rw [hrec] at h1
              simp only [Option.some.injEq] at h1
              subst h1
              simp [optionMap, hfx, ih hrec]

theorem appendCells_boolean_eval (bs : List Bool) (l : List Bool) :
    appendCells (.boolean bs) (l.map CellValue.boolean) = some (.boolean (bs ++ l)) := by
  have hext := optionMap_extract_map (f := fun v => match v with
      | CellValue.boolean b => some b | _ => none) (g := CellValue.boolean)
      (fun b => rfl) l
  simp only [appendCells, hext]

theorem concat_boolean_eval (vlist : List (List Bool)) :
    Column.concat_scalar_types (.boolean []) (vlist.map Column.boolean)
      = some (.boolean vlist.flatten) := by
  have hmap : optionMap (fun c => if Column.sameVariant (.boolean []) c then
      some (Column.cells c) else none) (vlist.map Column.boolean)
      = some ((vlist.map Column.boolean).map Column.cells) :=
    optionMap_if_map (fun c hc => by
      obtain ⟨v, _, hv⟩ := List.mem_map.mp hc
      subst hv
      rfl)
  have hcl : (vlist.map Column.boolean).map Column.cells
      = vlist.map (List.map CellValue.boolean) := by
    rw [List.map_map]
    exact List.map_congr_left (fun v _ => Column.cells_boolean v)
  have hflat : (vlist.map (List.map CellValue.boolean)).flatten
      = (vlist.flatten).map CellValue.boolean := (List.map_flatten _ _).symm
  simp only [Column.concat_scalar_types, hmap, hcl, hflat]
  rw [appendCells_boolean_eval]
  simp

/-- The validity bitmap of a nullable concat is the concatenation of the input
validity bitmaps (the inner columns are concatenated independently). -/
theorem concatDispatch_nullable_validity {inner0 : Column} {v0 : List Bool}
    {rest : List Column}
    (hshape : ∀ c ∈ rest, Column.sameShape (.nullable inner0 v0) c = true) :
    ∃ parts innerOut,
      optionMap (fun c => match c with
        | Column.nullable i v => some (i, v) | _ => none) rest = some parts ∧
      Column.concatDispatch inner0 (parts.map Prod.fst) = some innerOut ∧
      Column.concatDispatch (.nullable inner0 v0) rest
        = some (.nullable innerOut ((v0 :: parts.map Prod.snd).flatten)) ∧
      parts.length = rest.length ∧
      (∀ q, q < rest.length →
        rest.getD q (.null 0) = Column.nullable (parts.getD q (.null 0, [])).1
          (parts.getD q (.null 0, [])).2) := by
  have hps : ∀ c ∈ rest, ((fun c => match c with
      | Column.nullable i v => some (i, v) | _ => none) c).isSome = true := by
    intro c hc
    have := hshape c hc
    cases c <;> simp [Column.sameShape] at this ⊢
  obtain ⟨parts, hparts⟩ := optionMap_isSome' rest hps
  have hplen : parts.length = rest.length := optionMap_length hparts
  have hchar : ∀ q, q < rest.length →
      rest.getD q (.null 0) = Column.nullable (parts.getD q (.null 0, [])).1
        (parts.getD q (.null 0, [])).2 := by
    intro q hq
    have hq2 : q < parts.length := by omega
    have hmem := optionMap_getElem hparts q hq hq2
    rw [getD_in_range hq, getD_in_range hq2]
    cases hcq : rest[q] with
    | nullable i v =>
        rw [hcq] at hmem
        simp only [Option.some.injEq] at hmem
        rw [← hmem]
    | null m => rw [hcq] at hmem; simp at hmem
    | emptyArray m => rw [hcq] at hmem; simp at hmem
    | number ns => rw [hcq] at hmem; simp at hmem
    | boolean bs => rw [hcq] at hmem; simp at hmem
    | string o d => rw [hcq] at hmem; simp at hmem
    | array o i => rw [hcq] at hmem; simp at hmem
    | tuple fs m => rw [hcq] at hmem; simp at hmem
  have hishapes : ∀ c ∈ parts.map Prod.fst, Column.sameShape inner0 c = true := by
    intro c hc
    obtain ⟨q, hq, hcq⟩ := List.mem_iff_getElem.mp hc
    have hq2 : q < rest.length := by simp at hq; omega
    have hs := hshape _ (List.getElem_mem hq2)
    have hcc := hchar q hq2
    rw [getD_in_range hq2] at hcc
    rw [hcc] at hs
    simp only [Column.sameShape] at hs
    rw [← hcq, List.getElem_map]
    have hpq : parts.getD q (Column.null 0, []) = parts[q] := getD_in_range (by omega) _
    rw [hpq] at hs
    exact hs
  obtain ⟨innerOut, hinnerOut, _⟩ := concatDispatch_spec inner0 (parts.map Prod.fst)
    hishapes
  have hbitmaps : (Column.boolean v0 :: parts.map (fun p => Column.boolean p.2))
      = (v0 :: parts.map Prod.snd).map Column.boolean := by
    simp [List.map_map, Function.comp]
  have hvalid : Column.concat_scalar_types (.boolean [])
      (Column.boolean v0 :: parts.map (fun p => Column.boolean p.2))
      = some (.boolean ((v0 :: parts.map Prod.snd).flatten)) := by
    rw [hbitmaps, concat_boolean_eval]
  refine ⟨parts, innerOut, hparts, hinnerOut, ?_, hplen, hchar⟩
  simp only [Column.concatDispatch, hparts, hinnerOut, hvalid]

/-! ### Scalar broadcast and chunk concat -/

theorem sizeOf_lt_scalar_tuple {fields : List Scalar} {s : Scalar} (hf : s ∈ fields) :
    sizeOf s < sizeOf (Scalar.tuple fields) := by
  have := List.sizeOf_lt_of_mem hf
  simp
  omega

theorem Scalar.shapeCol_len : ∀ s : Scalar, s.shapeCol.len = 0 := by
  intro s
  cases s <;> rfl

theorem Scalar.shapeCol_wf : ∀ s : Scalar, s.shapeCol.wf = true := by
  refine sizeOfStrongInd ?_
  intro s ih
  cases s with
  | null => rfl
  | emptyArray => rfl
  | number n => rfl
  | boolean b => rfl
  | string bytes => rfl
  | array col => exact arrayBuilder_wf col
  | tuple fields =>
      simp only [Scalar.shapeCol, Column.wf, Scalar.shapeColAll_eq_map]
      refine Column.wfAll_of ?_
      intro f hf
      obtain ⟨s, hs, hsf⟩ := List.mem_map.mp hf
      subst hsf
      exact ⟨ih s (sizeOf_lt_scalar_tuple hs), Scalar.shapeCol_len s⟩

theorem Scalar.toCell_fits : ∀ s : Scalar, cellFits s.shapeCol s.toCell = true := by
  refine sizeOfStrongInd ?_
  intro s ih
  cases s with
  | null => rfl
  | emptyArray => rfl
  | number n => rfl
  | boolean b => rfl
  | string bytes => rfl
  | array col =>
      simp only [Scalar.shapeCol, Scalar.toCell, cellFits, List.all_eq_true]
      intro v hv
      obtain ⟨r, hr, hv2⟩ := Column.mem_cells hv
      subst hv2
      rw [cellFits_congr _ _ (Column.sameShape_emptyLike col)]
      exact cellFits_cellAt col r
  | tuple fields =>
      simp only [Scalar.shapeCol, Scalar.toCell, cellFits, Scalar.shapeColAll_eq_map,
        Scalar.toCellAll_eq_map]
      refine cellFitsZip_of (by simp) ?_
      intro p hp hq
      simp only [List.getElem_map]
      exact ih _ (sizeOf_lt_scalar_tuple (List.getElem_mem (by simpa using hp)))

theorem repeatN_spec (s : Scalar) (n : Nat) :
    ∃ col, s.repeatN n = some col ∧ col.wf = true ∧ col.len = n ∧
      Column.sameShape s.shapeCol col = true ∧
      col.cells = List.replicate n s.toCell := by
  obtain ⟨out, hout, hsh, _, hwfo, hlen, hcells⟩ :=
    appendCells_spec s.shapeCol (List.replicate n s.toCell) (Scalar.shapeCol_wf s)
      (fun v hv => by
        rw [List.eq_of_mem_replicate hv]
        exact Scalar.toCell_fits s)
  refine ⟨out, hout, hwfo, ?_, hsh, ?_⟩
  · rw [hlen, Scalar.shapeCol_len]
    simp
  · rw [hcells, Column.cells_len_zero (Scalar.shapeCol_len s), List.nil_append]

theorem Chunk.wfB_entry {ck : Chunk} (hwfb : ck.wfB = true) {i : Nat}
    (hi : i < ck.columns.length) :
    ∀ c, ck.columns.getD i (.column (.null 0)) = Value.column c →
      c.wf = true ∧ c.len = ck.num_rows := by
  intro c hc
  have hmem : Value.column c ∈ ck.columns := by
    rw [← hc, getD_in_range hi]
    exact List.getElem_mem hi
  have := List.all_eq_true.mp hwfb _ hmem
  simpa using this

theorem materializeAt_spec {ck : Chunk} {i : Nat} (hi : i < ck.columns.length)
    (hwfb : ck.wfB = true) :
    ∃ col, materializeAt i ck = some col ∧ col.wf = true ∧ col.len = ck.num_rows ∧
      Column.sameShape (ck.columns.getD i (.column (.null 0))).shapeCol col = true := by
  have hget : ck.columns.get? i = some (ck.columns.getD i (.column (.null 0))) := by
    rw [List.get?_eq_getElem?, List.getElem?_eq_getElem hi, getD_in_range hi]
  cases hv : ck.columns.getD i (.column (.null 0)) with
  | scalar s =>
      obtain ⟨col, hcol, hwfc, hlenc, hshc, _⟩ := repeatN_spec s ck.num_rows
      refine ⟨col, ?_, hwfc, hlenc, ?_⟩
      · have hget' : ck.columns.get? i = some (Value.scalar s) := by rw [hget, hv]
        simp only [materializeAt, hget', hcol]
      · exact hshc
  | column c =>
      obtain ⟨hwfc, hlenc⟩ := Chunk.wfB_entry hwfb hi c hv
      refine ⟨c, ?_, hwfc, hlenc, ?_⟩
      · have hget' : ck.columns.get? i = some (Value.column c) := by rw [hget, hv]
        simp only [materializeAt, hget']
      · exact Column.sameShape_refl c

theorem Chunk.concatCols_spec (chunks : List Chunk) : ∀ (is : List Nat),
    (∀ i ∈ is, (Chunk.concatColumnAt chunks i).isSome = true) →
    ∃ cols, Chunk.concatCols chunks is = some cols ∧ cols.length = is.length ∧
      ∀ j, j < is.length →
        ∃ c, Chunk.concatColumnAt chunks (is.getD j 0) = some c ∧
          cols.getD j (.column (.null 0)) = Value.column c := by
  intro is
  induction is with
  | nil => intro _; exact ⟨[], rfl, rfl, fun j hj => by simp at hj⟩
  | cons i irest ih =>
      intro h
      obtain ⟨c, hc⟩ := Option.isSome_iff_exists.mp (h i (by simp))
      obtain ⟨cols, hcols, hlen, hpt⟩ := ih (fun j hj => h j (by simp [hj]))
      refine ⟨.column c :: cols, ?_, by simp [hlen], ?_⟩
      · simp only [Chunk.concatCols, hc, hcols]
      · intro j hj
        cases j with
        | zero => exact ⟨c, by simpa using hc, rfl⟩
        | succ j =>
            obtain ⟨c2, hc2, he2⟩ := hpt j (by simpa using hj)
            exact ⟨c2, by simpa using hc2, by simpa using he2⟩

/-! ### Dispatch fusion -/

/-- The variants whose dispatch arm goes through concat_scalar_types
(concat.rs lines 85-106). -/
def builderVariant : Column → Bool
  | .null _ => true
  | .emptyArray _ => true
  | .boolean _ => true
  | .string _ _ => true
  | .array _ _ => true
  | _ => false

theorem builderVariant_congr {a b : Column} (h : Column.sameVariant a b = true) :
    builderVariant b = builderVariant a := by
  cases a <;> cases b <;> first | rfl | simp [Column.sameVariant] at h

theorem sameVariant_trans : ∀ (a b c : Column), Column.sameVariant a b = true →
    Column.sameVariant b c = true → Column.sameVariant a c = true := by
  intro a b c hab hbc
  cases a <;> cases b <;> simp [Column.sameVariant] at hab <;>
    cases c <;> simp [Column.sameVariant] at hbc ⊢

theorem sameVariant_emptyLike (c : Column) :
    Column.sameVariant c.emptyLike c = true :=
  Column.sameShape_sameVariant (Column.sameShape_emptyLike c)

theorem concat_scalar_types_eq_append {builder : Column} {columns : List Column}
    (hvar : ∀ c ∈ columns, Column.sameVariant builder c = true) :
    Column.concat_scalar_types builder columns
      = appendCells builder (cellsJoin columns) := by
  have hmap := optionMap_if_map (p := fun c => Column.sameVariant builder c)
    (g := Column.cells) hvar
  simp only [Column.concat_scalar_types, hmap]
  rfl

theorem dispatch_builder_eval : ∀ (c0 : Column), builderVariant c0 = true →
    ∀ (rest : List Column), (∀ c ∈ rest, Column.sameVariant c0 c = true) →
    Column.concatDispatch c0 rest
      = appendCells c0.emptyLike (cellsJoin (c0 :: rest)) := by
  intro c0 hb rest hvar
  have hvar0 : ∀ c ∈ c0 :: rest, Column.sameVariant c0.emptyLike c = true := by
    intro c hc
    rcases List.mem_cons.mp hc with h | h
    · rw [h]; exact sameVariant_emptyLike c0
    · exact sameVariant_trans _ c0 c (sameVariant_emptyLike c0) (hvar c h)
  cases c0 with
  | null l => exact concat_scalar_types_eq_append hvar0
  | emptyArray l => exact concat_scalar_types_eq_append hvar0
  | boolean bs => exact concat_scalar_types_eq_append hvar0
  | string offs data => exact concat_scalar_types_eq_append hvar0
  | array offs inner => exact concat_scalar_types_eq_append hvar0
  | number vs => simp [builderVariant] at hb
  | nullable i v => simp [builderVariant] at hb
  | tuple f l => simp [builderVariant] at hb

theorem cellsJoin_cons (c : Column) (cs : List Column) :
    cellsJoin (c :: cs) = c.cells ++ cellsJoin cs := by
  simp [cellsJoin]

theorem cellsJoin_append (as bs : List Column) :
    cellsJoin (as ++ bs) = cellsJoin as ++ cellsJoin bs := by
  simp [cellsJoin]

theorem cellsJoin_single (c : Column) : cellsJoin [c] = c.cells := by
  simp [cellsJoin]

theorem map_number_inj {a b : List Int}
    (h : a.map CellValue.number = b.map CellValue.number) : a = b := by
  refine List.map_injective_iff.mpr ?_ h
  intro x y hxy
  injection hxy

theorem nullable_parts_shapes {i0 : Column} {v0 : List Bool} {rest : List Column}
    {parts : List (Column × List Bool)}
    (hsh : ∀ c ∈ rest, Column.sameShape (.nullable i0 v0) c = true)
    (hplen : parts.length = rest.length)
    (hpt : ∀ q, q < rest.length →
      rest.getD q (.null 0) = Column.nullable (parts.getD q (.null 0, [])).1
        (parts.getD q (.null 0, [])).2) :
    ∀ x ∈ parts.map Prod.fst, Column.sameShape i0 x = true := by
  intro x hx
  obtain ⟨p, hp, hpx⟩ := List.mem_map.mp hx
  obtain ⟨q, hq, hpq⟩ := List.getElem_of_mem hp
  subst hpx
  have hq' : q < rest.length := by rw [← hplen]; exact hq
  have h3 : parts.getD q (.null 0, []) = p := by rw [getD_in_range hq]; exact hpq
  have hmem : rest.getD q (.null 0) ∈ rest := by
    rw [getD_in_range hq']
    exact List.getElem_mem hq'
  have h2 := hsh _ hmem
  rw [hpt q hq', h3] at h2
  simpa [Column.sameShape] using h2

theorem nullable_parts_wf {rest : List Column} {parts : List (Column × List Bool)}
    (hwf : ∀ c ∈ rest, c.wf = true)
    (hplen : parts.length = rest.length)
    (hpt : ∀ q, q < rest.length →
      rest.getD q (.null 0) = Column.nullable (parts.getD q (.null 0, [])).1
        (parts.getD q (.null 0, [])).2) :
    ∀ x ∈ parts.map Prod.fst, x.wf = true := by
  intro x hx
  obtain ⟨p, hp, hpx⟩ := List.mem_map.mp hx
  obtain ⟨q, hq, hpq⟩ := List.getElem_of_mem hp
  subst hpx
  have hq' : q < rest.length := by rw [← hplen]; exact hq
  have h3 : parts.getD q (.null 0, []) = p := by rw [getD_in_range hq]; exact hpq
  have hmem : rest.getD q (.null 0) ∈ rest := by
    rw [getD_in_range hq']
    exact List.getElem_mem hq'
  have h2 := hwf _ hmem
  rw [hpt q hq', h3] at h2
  simp [Column.wf] at h2
  exact h2.2

theorem fuse_head_builder {a : Column} (hb : builderVariant a = true)
    {bs cs : List Column}
    (hwf : ∀ c ∈ a :: (bs ++ cs), c.wf = true)
    (hsh : ∀ c ∈ bs ++ cs, Column.sameShape a c = true) :
    ∃ u w, Column.concatDispatch a bs = some u ∧
      Column.concatDispatch u cs = some w ∧
      Column.concatDispatch a (bs ++ cs) = some w := by
  have hshb : ∀ c ∈ bs, Column.sameShape a c = true :=
    fun c hc => hsh c (List.mem_append_left _ hc)
  have hshc : ∀ c ∈ cs, Column.sameShape a c = true :=
    fun c hc => hsh c (List.mem_append_right _ hc)
  obtain ⟨u, hu, hush, huemp, hulen, huwfc⟩ := concatDispatch_spec a bs hshb
  obtain ⟨huwf, hucells⟩ := huwfc (fun c hc => hwf c (by
    rcases List.mem_cons.mp hc with h | h
    · simp [h]
    · exact List.mem_cons_of_mem _ (List.mem_append_left _ h)))
  have he2 : Column.concatDispatch u cs
      = appendCells u.emptyLike (cellsJoin (u :: cs)) := by
    refine dispatch_builder_eval u ?_ cs (fun c hc =>
      sameVariant_trans u a c
        (Column.sameShape_sameVariant (Column.sameShape_symm _ _ hush))
        (Column.sameShape_sameVariant (hshc c hc)))
    rw [builderVariant_congr (Column.sameShape_sameVariant hush)]
    exact hb
  have he3 : Column.concatDispatch a (bs ++ cs)
      = appendCells a.emptyLike (cellsJoin (a :: (bs ++ cs))) :=
    dispatch_builder_eval a hb _
      (fun c hc => Column.sameShape_sameVariant (hsh c hc))
  have hkey : cellsJoin (u :: cs) = cellsJoin (a :: (bs ++ cs)):= by
    rw [cellsJoin_cons, hucells, cellsJoin_cons, cellsJoin_cons, cellsJoin_append,
      List.append_assoc]
  obtain ⟨w, hw, hwo⟩ := concatDispatch_spec a (bs ++ cs) hsh
  refine ⟨u, w, hu, ?_, hw⟩
  rw [he2, huemp, hkey, ← he3, hw]

theorem fuse_head_number {vs0 : List Int} {bs cs : List Column}
    (hwf : ∀ c ∈ (Column.number vs0) :: (bs ++ cs), c.wf = true)
    (hsh : ∀ c ∈ bs ++ cs, Column.sameShape (.number vs0) c = true) :
    ∃ u w, Column.concatDispatch (.number vs0) bs = some u ∧
      Column.concatDispatch u cs = some w ∧
      Column.concatDispatch (.number vs0) (bs ++ cs) = some w := by
  have hshb : ∀ c ∈ bs, Column.sameShape (.number vs0) c = true :=
    fun c hc => hsh c (List.mem_append_left _ hc)
  have hshc : ∀ c ∈ cs, Column.sameShape (.number vs0) c = true :=
    fun c hc => hsh c (List.mem_append_right _ hc)
  obtain ⟨u, hu, hush, huemp, hulen, huwfc⟩ :=
    concatDispatch_spec (.number vs0) bs hshb
  obtain ⟨huwf, hucells⟩ := huwfc (fun c hc => hwf c (by
    rcases List.mem_cons.mp hc with h | h
    · simp [h]
    · exact List.mem_cons_of_mem _ (List.mem_append_left _ h)))
  have hshcu : ∀ c ∈ cs, Column.sameShape u c = true := fun c hc =>
    Column.sameShape_trans _ _ _ (Column.sameShape_symm _ _ hush) (hshc c hc)
  obtain ⟨w1, hw1, hw1sh, hw1emp, hw1len, hw1wfc⟩ := concatDispatch_spec u cs hshcu
  obtain ⟨hw1wf, hw1cells⟩ := hw1wfc (fun c hc => by
    rcases List.mem_cons.mp hc with h | h
    · rw [h]; exact huwf
    · exact hwf c (List.mem_cons_of_mem _ (List.mem_append_right _ h)))
  obtain ⟨w2, hw2, hw2sh, hw2emp, hw2len, hw2wfc⟩ :=
    concatDispatch_spec (.number vs0) (bs ++ cs) hsh
  obtain ⟨hw2wf, hw2cells⟩ := hw2wfc hwf
  have hcells : w1.cells = w2.cells := by
    rw [hw1cells, hw2cells, cellsJoin_cons, hucells, cellsJoin_cons, cellsJoin_cons,
      cellsJoin_append, List.append_assoc]
  have h1 : Column.sameShape (.number vs0) w1 = true :=
    Column.sameShape_trans _ _ _ hush hw1sh
  obtain ⟨x1, hx1⟩ : ∃ x, w1 = Column.number x := by
    cases w1 <;> simp [Column.sameShape] at h1 <;> exact ⟨_, rfl⟩
  obtain ⟨x2, hx2⟩ : ∃ x, w2 = Column.number x := by
    cases w2 <;> simp [Column.sameShape] at hw2sh <;> exact ⟨_, rfl⟩
  have hxeq : x1 = x2 := by
    apply map_number_inj
    rw [← Column.cells_number, ← Column.cells_number, ← hx1, ← hx2]
    exact hcells
  have hweq : w1 = w2 := by rw [hx1, hx2, hxeq]
  exact ⟨u, w1, hu, hw1, by rw [hw2, hweq]⟩

theorem tuple_rest_full {fields0 : List Column} {l0 : Nat} {rest : List Column}
    (hsh : ∀ c ∈ rest, Column.sameShape (.tuple fields0 l0) c = true) :
    ∀ c ∈ rest, ∃ gs m, c = Column.tuple gs m ∧ 0 + fields0.length ≤ gs.length ∧
      ∀ p, p < fields0.length →
        Column.sameShape (fields0.getD p (.null 0)) (gs.getD (0 + p) (.null 0)) = true := by
  intro c hc
  have hs := hsh c hc
  cases c with
  | tuple gs m =>
      simp only [Column.sameShape] at hs
      have hlen := Column.sameShapeAll_length hs
      refine ⟨gs, m, rfl, by omega, ?_⟩
      intro p hp
      have hq : p < gs.length := by omega
      rw [Nat.zero_add, getD_in_range hp, getD_in_range hq]
      exact Column.sameShapeAll_getElem hs p hp hq
  | null l => simp [Column.sameShape] at hs
  | emptyArray l => simp [Column.sameShape] at hs
  | number v => simp [Column.sameShape] at hs
  | boolean v => simp [Column.sameShape] at hs
  | string o d => simp [Column.sameShape] at hs
  | array o i => simp [Column.sameShape] at hs
  | nullable i v => simp [Column.sameShape] at hs

theorem forall_mem_gathered {rest gathered : List Column} {p : Nat} {P : Column → Prop}
    (hglen : gathered.length = rest.length)
    (hgpt : ∀ q, q < rest.length → ∀ gs m, rest.getD q (.null 0) = Column.tuple gs m →
      gathered.getD q (.null 0) = gs.getD p (.null 0))
    (hP : ∀ c ∈ rest, ∃ gs m, c = Column.tuple gs m ∧ P (gs.getD p (.null 0))) :
    ∀ x ∈ gathered, P x := by
  intro x hx
  obtain ⟨q, hq, hxq⟩ := List.getElem_of_mem hx
  have hq' : q < rest.length := by rw [← hglen]; exact hq
  have hmem : rest.getD q (.null 0) ∈ rest := by
    rw [getD_in_range hq']; exact List.getElem_mem hq'
  obtain ⟨gs, m, hgm, hPg⟩ := hP _ hmem
  have hgx : gathered.getD q (.null 0) = gs.getD p (.null 0) := hgpt q hq' gs m hgm
  have hx2 : x = gs.getD p (.null 0) := by
    rw [← hxq, ← getD_in_range hq (Column.null 0), hgx]
  rw [hx2]
  exact hPg

theorem concatDispatch_fuse_head : ∀ (a : Column) (bs cs : List Column),
    (∀ c ∈ a :: (bs ++ cs), c.wf = true) →
    (∀ c ∈ bs ++ cs, Column.sameShape a c = true) →
    ∃ u w, Column.concatDispatch a bs = some u ∧
      Column.concatDispatch u cs = some w ∧
      Column.concatDispatch a (bs ++ cs) = some w := by
  refine sizeOfStrongInd (P := fun a => ∀ bs cs,
    (∀ c ∈ a :: (bs ++ cs), c.wf = true) →
    (∀ c ∈ bs ++ cs, Column.sameShape a c = true) →
    ∃ u w, Column.concatDispatch a bs = some u ∧
      Column.concatDispatch u cs = some w ∧
      Column.concatDispatch a (bs ++ cs) = some w) ?_
  intro a ih bs cs hwf hsh
  cases a with
  | null l => exact fuse_head_builder (a := .null l) rfl hwf hsh
  | emptyArray l => exact fuse_head_builder (a := .emptyArray l) rfl hwf hsh
  | boolean bits => exact fuse_head_builder (a := .boolean bits) rfl hwf hsh
  | string offs data => exact fuse_head_builder (a := .string offs data) rfl hwf hsh
  | array offs inner => exact fuse_head_builder (a := .array offs inner) rfl hwf hsh
  | number vs0 => exact fuse_head_number hwf hsh
  | nullable i0 v0 =>
      have hshb : ∀ c ∈ bs, Column.sameShape (.nullable i0 v0) c = true :=
        fun c hc => hsh c (List.mem_append_left _ hc)
      have hshc : ∀ c ∈ cs, Column.sameShape (.nullable i0 v0) c = true :=
        fun c hc => hsh c (List.mem_append_right _ hc)
      have hwfa := hwf _ (List.mem_cons_self _ _)
      simp only [Column.wf, Bool.and_eq_true, beq_iff_eq] at hwfa
      have hwfbs : ∀ c ∈ bs, c.wf = true :=
        fun c hc => hwf c (List.mem_cons_of_mem _ (List.mem_append_left _ hc))
      have hwfcs : ∀ c ∈ cs, c.wf = true :=
        fun c hc => hwf c (List.mem_cons_of_mem _ (List.mem_append_right _ hc))
      obtain ⟨pb, Ub, hpb, hUb, hdb, hpblen, hpbpt⟩ :=
        concatDispatch_nullable_validity hshb
      have hshbin := nullable_parts_shapes hshb hpblen hpbpt
      have hwfbin := nullable_parts_wf hwfbs hpblen hpbpt
      obtain ⟨U', hU', hU'sh, hU'emp, hU'len, hU'wfc⟩ :=
        concatDispatch_spec i0 (pb.map Prod.fst) hshbin
      have hUeq : U' = Ub := by
        have h2 := hUb
        rw [hU'] at h2
        exact Option.some.inj h2
      have hUbsh : Column.sameShape i0 Ub = true := hUeq ▸ hU'sh
      have hshcu : ∀ c ∈ cs,
          Column.sameShape (Column.nullable Ub ((v0 :: pb.map Prod.snd).flatten)) c
            = true := by
        intro c hc
        have h2 := hshc c hc
        cases c <;> simp [Column.sameShape] at h2 ⊢ <;>
          exact Column.sameShape_trans _ _ _ (Column.sameShape_symm _ _ hUbsh) h2
      obtain ⟨pc, W1, hpc, hW1, hdc, hpclen, hpcpt⟩ :=
        concatDispatch_nullable_validity hshcu
      obtain ⟨pa, W2, hpa, hW2, hda, hpalen, hpapt⟩ :=
        concatDispatch_nullable_validity hsh
      have hpaeq : pa = pb ++ pc := by
        have h2 := optionMap_append_some hpb hpc
        rw [hpa] at h2
        exact Option.some.inj h2
      have hshcin := nullable_parts_shapes hshc hpclen hpcpt
      have hwfcin := nullable_parts_wf hwfcs hpclen hpcpt
      have hwfin : ∀ c ∈ i0 :: (pb.map Prod.fst ++ pc.map Prod.fst), c.wf = true := by
        intro c hc
        rcases List.mem_cons.mp hc with h | h
        · rw [h]; exact hwfa.2
        · rcases List.mem_append.mp h with h2 | h2
          · exact hwfbin c h2
          · exact hwfcin c h2
      have hshin : ∀ c ∈ pb.map Prod.fst ++ pc.map Prod.fst,
          Column.sameShape i0 c = true := by
        intro c hc
        rcases List.mem_append.mp hc with h2 | h2
        · exact hshbin c h2
        · exact hshcin c h2
      obtain ⟨u', w', hu', hw', hall'⟩ :=
        ih i0 sizeOf_lt_nullable (pb.map Prod.fst) (pc.map Prod.fst) hwfin hshin
      have hu'e : u' = Ub := by
        have h2 := hUb
        rw [hu'] at h2
        exact Option.some.inj h2
      have hW1e : W1 = w' := by
        have h2 := hW1
        rw [hu'e] at hw'
        rw [hw'] at h2
        exact (Option.some.inj h2).symm
      have hW2e : W2 = w' := by
        have h2 := hW2
        rw [hpaeq, List.map_append] at h2
        rw [hall'] at h2
        exact (Option.some.inj h2).symm
      have hveq : (((v0 :: pb.map Prod.snd).flatten :: pc.map Prod.snd).flatten)
          = ((v0 :: pa.map Prod.snd).flatten) := by
        rw [hpaeq]
        simp [List.append_assoc]
      refine ⟨.nullable Ub ((v0 :: pb.map Prod.snd).flatten),
        .nullable w' ((v0 :: pa.map Prod.snd).flatten), hdb, ?_, ?_⟩
      · rw [hdc, hW1e, hveq]
      · rw [hda, hW2e]
  | tuple fields0 l0 =>
      have hshb : ∀ c ∈ bs, Column.sameShape (.tuple fields0 l0) c = true :=
        fun c hc => hsh c (List.mem_append_left _ hc)
      have hshc : ∀ c ∈ cs, Column.sameShape (.tuple fields0 l0) c = true :=
        fun c hc => hsh c (List.mem_append_right _ hc)
      have hwfa := hwf _ (List.mem_cons_self _ _)
      simp only [Column.wf] at hwfa
      have hwfbs : ∀ c ∈ bs, c.wf = true :=
        fun c hc => hwf c (List.mem_cons_of_mem _ (List.mem_append_left _ hc))
      have hwfcs : ∀ c ∈ cs, c.wf = true :=
        fun c hc => hwf c (List.mem_cons_of_mem _ (List.mem_append_right _ hc))
      have hdispAll : ∀ f ∈ fields0, ∀ rest2 : List Column,
          (∀ c ∈ rest2, Column.sameShape f c = true) →
          ∃ out, Column.concatDispatch f rest2 = some out ∧ ConcatOut f rest2 out :=
        fun f _ rest2 h => concatDispatch_spec f rest2 h
      obtain ⟨Fb, hFb, hFblen, hFbpt⟩ :=
        concatFields_spec fields0 0 bs hdispAll (tuple_rest_full hshb)
      obtain ⟨Fa, hFa, hFalen, hFapt⟩ :=
        concatFields_spec fields0 0 (bs ++ cs) hdispAll (tuple_rest_full hsh)
      have hrestc : ∀ c ∈ cs, ∃ gs m, c = Column.tuple gs m ∧
          0 + Fb.length ≤ gs.length ∧
          ∀ p, p < Fb.length →
            Column.sameShape (Fb.getD p (.null 0)) (gs.getD (0 + p) (.null 0))
              = true := by
        intro c hc
        obtain ⟨gs, m, hgm, hlen2, hpt2⟩ := tuple_rest_full hshc c hc
        refine ⟨gs, m, hgm, by omega, ?_⟩
        intro p hp
        have hp0 : p < fields0.length := by omega
        obtain ⟨gB, hgB, hdB, hoB, hglenB, hgptB⟩ := hFbpt p hp0
        exact Column.sameShape_trans _ _ _
          (Column.sameShape_symm _ _ hoB.1) (hpt2 p hp0)
      have hdispFb : ∀ f ∈ Fb, ∀ rest2 : List Column,
          (∀ c ∈ rest2, Column.sameShape f c = true) →
          ∃ out, Column.concatDispatch f rest2 = some out ∧ ConcatOut f rest2 out :=
        fun f _ rest2 h => concatDispatch_spec f rest2 h
      obtain ⟨Fc, hFc, hFclen, hFcpt⟩ := concatFields_spec Fb 0 cs hdispFb hrestc
      have hFcFa : Fc = Fa := by
        refine ext_getD (Column.null 0) (by omega) ?_
        intro p hp
        have hp0 : p < fields0.length := by omega
        obtain ⟨gB, hgB, hdB, hoB, hglenB, hgptB⟩ := hFbpt p hp0
        obtain ⟨gC, hgC, hdC, hoC, hglenC, hgptC⟩ := hFcpt p (by omega)
        obtain ⟨gA, hgA, hdA, hoA, hglenA, hgptA⟩ := hFapt p hp0
        have hgAeq : gA = gB ++ gC := by
          have h2 := optionMap_append_some hgB hgC
          rw [hgA] at h2
          exact Option.some.inj h2
        have hf0mem : fields0.getD p (.null 0) ∈ fields0 := by
          rw [getD_in_range hp0]
          exact List.getElem_mem hp0
        have hwff0 : (fields0.getD p (.null 0)).wf = true :=
          (Column.wfAll_mem hwfa _ hf0mem).1
        have hwfgB : ∀ x ∈ gB, x.wf = true := by
          refine forall_mem_gathered hglenB
            (fun q hq gs m h => by simpa using hgptB q hq gs m h) ?_
          intro c hc
          obtain ⟨gs, m, hgm, hlen2, _⟩ := tuple_rest_full hshb c hc
          refine ⟨gs, m, hgm, ?_⟩
          have hcwf := hwfbs c hc
          rw [hgm] at hcwf
          simp only [Column.wf] at hcwf
          have hplt : p < gs.length := by omega
          have hmem2 : gs.getD p (.null 0) ∈ gs := by
            rw [getD_in_range hplt]
            exact List.getElem_mem hplt
          exact (Column.wfAll_mem hcwf _ hmem2).1
        have hwfgC : ∀ x ∈ gC, x.wf = true := by
          refine forall_mem_gathered hglenC
            (fun q hq gs m h => by simpa using hgptC q hq gs m h) ?_
          intro c hc
          obtain ⟨gs, m, hgm, hlen2, _⟩ := tuple_rest_full hshc c hc
          refine ⟨gs, m, hgm, ?_⟩
          have hcwf := hwfcs c hc
          rw [hgm] at hcwf
          simp only [Column.wf] at hcwf
          have hplt : p < gs.length := by omega
          have hmem2 : gs.getD p (.null 0) ∈ gs := by
            rw [getD_in_range hplt]
            exact List.getElem_mem hplt
          exact (Column.wfAll_mem hcwf _ hmem2).1
        have hshgB : ∀ x ∈ gB, Column.sameShape (fields0.getD p (.null 0)) x = true := by
          refine forall_mem_gathered hglenB
            (fun q hq gs m h => by simpa using hgptB q hq gs m h) ?_
          intro c hc
          obtain ⟨gs, m, hgm, hlen2, hpt2⟩ := tuple_rest_full hshb c hc
          refine ⟨gs, m, hgm, ?_⟩
          have := hpt2 p hp0
          simpa using this
        have hshgC : ∀ x ∈ gC, Column.sameShape (fields0.getD p (.null 0)) x = true := by
          refine forall_mem_gathered hglenC
            (fun q hq gs m h => by simpa using hgptC q hq gs m h) ?_
          intro c hc
          obtain ⟨gs, m, hgm, hlen2, hpt2⟩ := tuple_rest_full hshc c hc
          refine ⟨gs, m, hgm, ?_⟩
          have := hpt2 p hp0
          simpa using this
        have hwfall2 : ∀ c ∈ (fields0.getD p (.null 0)) :: (gB ++ gC), c.wf = true := by
          intro c hc
          rcases List.mem_cons.mp hc with h | h
          · rw [h]; exact hwff0
          · rcases List.mem_append.mp h with h2 | h2
            · exact hwfgB c h2
            · exact hwfgC c h2
        have hshall2 : ∀ c ∈ gB ++ gC,
            Column.sameShape (fields0.getD p (.null 0)) c = true := by
          intro c hc
          rcases List.mem_append.mp hc with h2 | h2
          · exact hshgB c h2
          · exact hshgC c h2
        obtain ⟨u', w', hu', hw', hall'⟩ :=
          ih _ (sizeOf_lt_tuple hf0mem) gB gC hwfall2 hshall2
        have hu'e : u' = Fb.getD p (.null 0) := by
          have h2 := hdB
          rw [hu'] at h2
          exact Option.some.inj h2
        have hw'e : Fc.getD p (.null 0) = w' := by
          have h2 := hdC
          rw [hu'e] at hw'
          rw [hw'] at h2
          exact (Option.some.inj h2).symm
        have hw'a : Fa.getD p (.null 0) = w' := by
          have h2 := hdA
          rw [hgAeq] at h2
          rw [hall'] at h2
          exact (Option.some.inj h2).symm
        rw [hw'e, hw'a]
      have hlen3 : l0 + (bs.map Column.len).sum + (cs.map Column.len).sum
          = l0 + ((bs ++ cs).map Column.len).sum := by
        rw [List.map_append, List.sum_append, Nat.add_assoc]
      refine ⟨.tuple Fb (l0 + (bs.map Column.len).sum),
        .tuple Fa (l0 + ((bs ++ cs).map Column.len).sum), ?_, ?_, ?_⟩
      · simp only [Column.concatDispatch, hFb]
      · simp only [Column.concatDispatch, hFc, hFcFa, hlen3]
      · simp only [Column.concatDispatch, hFa]

theorem optionMap_cons {f : α → Option β} {a : α} {as : List α} {b : β} {bs : List β}
    (h1 : f a = some b) (h2 : optionMap f as = some bs) :
    optionMap f (a :: as) = some (b :: bs) := by
  simp [optionMap, h1, h2]

theorem optionMap_singleton {f : α → Option β} {a : α} {b : β} (h : f a = some b) :
    optionMap f [a] = some [b] := by
  simp [optionMap, h]

theorem fuse_tail_builder {a : Column} (hb : builderVariant a = true)
    {b : Column} {cs : List Column}
    (hwf : ∀ c ∈ a :: b :: cs, c.wf = true)
    (hsh : ∀ c ∈ b :: cs, Column.sameShape a c = true) :
    ∃ v w, Column.concatDispatch b cs = some v ∧
      Column.concatDispatch a [v] = some w ∧
      Column.concatDispatch a (b :: cs) = some w := by
  have hshb : Column.sameShape a b = true := hsh b (List.mem_cons_self _ _)
  have hshbc : ∀ c ∈ cs, Column.sameShape b c = true := fun c hc =>
    Column.sameShape_trans _ _ _ (Column.sameShape_symm _ _ hshb)
      (hsh c (List.mem_cons_of_mem _ hc))
  obtain ⟨v, hv, hvsh, hvemp, hvlen, hvwfc⟩ := concatDispatch_spec b cs hshbc
  obtain ⟨hvwf, hvcells⟩ := hvwfc (fun c hc => hwf c (List.mem_cons_of_mem _ hc))
  have hshav : Column.sameShape a v = true :=
    Column.sameShape_trans _ _ _ hshb hvsh
  have he2 : Column.concatDispatch a [v]
      = appendCells a.emptyLike (cellsJoin (a :: [v])) :=
    dispatch_builder_eval a hb [v] (fun c hc => by
      rw [List.mem_singleton.mp hc]
      exact Column.sameShape_sameVariant hshav)
  have he3 : Column.concatDispatch a (b :: cs)
      = appendCells a.emptyLike (cellsJoin (a :: b :: cs)) :=
    dispatch_builder_eval a hb _
      (fun c hc => Column.sameShape_sameVariant (hsh c hc))
  have hkey : cellsJoin (a :: [v]) = cellsJoin (a :: b :: cs) := by
    rw [cellsJoin_cons, cellsJoin_single, hvcells, ← cellsJoin_cons]
  obtain ⟨w, hw, hwo⟩ := concatDispatch_spec a (b :: cs) hsh
  refine ⟨v, w, hv, ?_, hw⟩
  rw [he2, hkey, ← he3, hw]

theorem fuse_tail_number {vs0 : List Int} {b : Column} {cs : List Column}
    (hwf : ∀ c ∈ (Column.number vs0) :: b :: cs, c.wf = true)
    (hsh : ∀ c ∈ b :: cs, Column.sameShape (.number vs0) c = true) :
    ∃ v w, Column.concatDispatch b cs = some v ∧
      Column.concatDispatch (.number vs0) [v] = some w ∧
      Column.concatDispatch (.number vs0) (b :: cs) = some w := by
  have hshb : Column.sameShape (.number vs0) b = true := hsh b (List.mem_cons_self _ _)
  have hshbc : ∀ c ∈ cs, Column.sameShape b c = true := fun c hc =>
    Column.sameShape_trans _ _ _ (Column.sameShape_symm _ _ hshb)
      (hsh c (List.mem_cons_of_mem _ hc))
  obtain ⟨v, hv, hvsh, hvemp, hvlen, hvwfc⟩ := concatDispatch_spec b cs hshbc
  obtain ⟨hvwf, hvcells⟩ := hvwfc (fun c hc => hwf c (List.mem_cons_of_mem _ hc))
  have hshav : Column.sameShape (.number vs0) v = true :=
    Column.sameShape_trans _ _ _ hshb hvsh
  obtain ⟨w1, hw1, hw1sh, hw1emp, hw1len, hw1wfc⟩ :=
    concatDispatch_spec (.number vs0) [v] (fun c hc => by
      rw [List.mem_singleton.mp hc]; exact hshav)
  obtain ⟨hw1wf, hw1cells⟩ := hw1wfc (fun c hc => by
    rcases List.mem_cons.mp hc with h | h
    · rw [h]; exact hwf _ (List.mem_cons_self _ _)
    · rw [List.mem_singleton.mp h]; exact hvwf)
  obtain ⟨w2, hw2, hw2sh, hw2emp, hw2len, hw2wfc⟩ :=
    concatDispatch_spec (.number vs0) (b :: cs) hsh
  obtain ⟨hw2wf, hw2cells⟩ := hw2wfc hwf
  have hcells : w1.cells = w2.cells := by
    rw [hw1cells, hw2cells, cellsJoin_cons, cellsJoin_single, hvcells,
      ← cellsJoin_cons]
  obtain ⟨x1, hx1⟩ : ∃ x, w1 = Column.number x := by
    have h1 : Column.sameShape (.number vs0) w1 = true := hw1sh
    cases w1 <;> simp [Column.sameShape] at h1 <;> exact ⟨_, rfl⟩
  obtain ⟨x2, hx2⟩ : ∃ x, w2 = Column.number x := by
    cases w2 <;> simp [Column.sameShape] at hw2sh <;> exact ⟨_, rfl⟩
  have hxeq : x1 = x2 := by
    apply map_number_inj
    rw [← Column.cells_number, ← Column.cells_number, ← hx1, ← hx2]
    exact hcells
  have hweq : w1 = w2 := by rw [hx1, hx2, hxeq]
  exact ⟨v, w1, hv, hw1, by rw [hw2, hweq]⟩

theorem concatDispatch_fuse_tail : ∀ (a b : Column) (cs : List Column),
    (∀ c ∈ a :: b :: cs, c.wf = true) →
    (∀ c ∈ b :: cs, Column.sameShape a c = true) →
    ∃ v w, Column.concatDispatch b cs = some v ∧
      Column.concatDispatch a [v] = some w ∧
      Column.concatDispatch a (b :: cs) = some w := by
  refine sizeOfStrongInd (P := fun a => ∀ b cs,
    (∀ c ∈ a :: b :: cs, c.wf = true) →
    (∀ c ∈ b :: cs, Column.sameShape a c = true) →
    ∃ v w, Column.concatDispatch b cs = some v ∧
      Column.concatDispatch a [v] = some w ∧
      Column.concatDispatch a (b :: cs) = some w) ?_
  intro a ih b cs hwf hsh
  cases a with
  | null l => exact fuse_tail_builder (a := .null l) rfl hwf hsh
  | emptyArray l => exact fuse_tail_builder (a := .emptyArray l) rfl hwf hsh
  | boolean bits => exact fuse_tail_builder (a := .boolean bits) rfl hwf hsh
  | string offs data => exact fuse_tail_builder (a := .string offs data) rfl hwf hsh
  | array offs inner => exact fuse_tail_builder (a := .array offs inner) rfl hwf hsh
  | number vs0 => exact fuse_tail_number hwf hsh
  | nullable ia va =>
      have hshb : Column.sameShape (.nullable ia va) b = true :=
        hsh b (List.mem_cons_self _ _)
      have hshc : ∀ c ∈ cs, Column.sameShape (.nullable ia va) c = true :=
        fun c hc => hsh c (List.mem_cons_of_mem _ hc)
      have hwfa := hwf _ (List.mem_cons_self _ _)
      simp only [Column.wf, Bool.and_eq_true, beq_iff_eq] at hwfa
      have hwfb := hwf b (List.mem_cons_of_mem _ (List.mem_cons_self _ _))
      have hwfcs : ∀ c ∈ cs, c.wf = true :=
        fun c hc => hwf c (List.mem_cons_of_mem _ (List.mem_cons_of_mem _ hc))
      cases b with
      | nullable ib vb =>
          have hshbi : Column.sameShape ia ib = true := by
            simpa [Column.sameShape] using hshb
          have hwfbi : vb.length = ib.len ∧ ib.wf = true := by
            simpa [Column.wf] using hwfb
          have hshbc : ∀ c ∈ cs, Column.sameShape (Column.nullable ib vb) c = true :=
            fun c hc => Column.sameShape_trans _ _ _
              (Column.sameShape_symm _ _ hshb) (hshc c hc)
          obtain ⟨pc, IV, hpc, hIV, hdbc, hpclen, hpcpt⟩ :=
            concatDispatch_nullable_validity hshbc
          have hshcin := nullable_parts_shapes hshc hpclen hpcpt
          have hshcinb : ∀ x ∈ pc.map Prod.fst, Column.sameShape ib x = true :=
            fun x hx => Column.sameShape_trans _ _ _
              (Column.sameShape_symm _ _ hshbi) (hshcin x hx)
          obtain ⟨IV2, hIV2, hIVsh, hIVemp, hIVlen, hIVwfc⟩ :=
            concatDispatch_spec ib (pc.map Prod.fst) hshcinb
          have hIVe : IV2 = IV := by
            have h2 := hIV
            rw [hIV2] at h2
            exact Option.some.inj h2
          have hshIV : Column.sameShape ia IV = true :=
            Column.sameShape_trans _ _ _ hshbi (hIVe ▸ hIVsh)
          have hshv : ∀ c ∈ [Column.nullable IV ((vb :: pc.map Prod.snd).flatten)],
              Column.sameShape (Column.nullable ia va) c = true := by
            intro c hc
            rw [List.mem_singleton.mp hc]
            simpa [Column.sameShape] using hshIV
          obtain ⟨p1, W1, hp1, hW1, hdav, hp1len, hp1pt⟩ :=
            concatDispatch_nullable_validity hshv
          have hp1e : p1 = [(IV, (vb :: pc.map Prod.snd).flatten)] := by
            have hq0 := hp1pt 0 (by simp)
            simp only [List.getD_cons_zero] at hq0
            obtain ⟨h1, h2⟩ := Column.nullable.inj hq0
            refine ext_getD (Column.null 0, ([] : List Bool)) (by simpa using hp1len) ?_
            intro n hn
            have hn0 : n = 0 := by
              have hx : p1.length = 1 := by simpa using hp1len
              omega
            subst hn0
            simp only [List.getD_cons_zero]
            exact Prod.ext h1.symm h2.symm
          obtain ⟨pa, W2, hpa, hW2, hda, hpalen, hpapt⟩ :=
            concatDispatch_nullable_validity hsh
          have hpae : pa = (ib, vb) :: pc := by
            refine ext_getD (Column.null 0, ([] : List Bool)) ?_ ?_
            · rw [hpalen, List.length_cons, List.length_cons, hpclen]
            · intro n hn
              cases n with
              | zero =>
                  have hq0 := hpapt 0 (by simp)
                  simp only [List.getD_cons_zero] at hq0 ⊢
                  obtain ⟨h1, h2⟩ := Column.nullable.inj hq0
                  exact Prod.ext h1.symm h2.symm
              | succ n =>
                  have hn2 : n < cs.length := by
                    have hx : pa.length = cs.length + 1 := by simpa using hpalen
                    omega
                  have hq1 := hpapt (n+1) (by simp only [List.length_cons]; omega)
                  have hq2 := hpcpt n hn2
                  simp only [List.getD_cons_succ] at hq1 ⊢
                  rw [hq2] at hq1
                  obtain ⟨h1, h2⟩ := Column.nullable.inj hq1
                  exact Prod.ext h1.symm h2.symm
          have hwfcin := nullable_parts_wf hwfcs hpclen hpcpt
          have hwf2 : ∀ c ∈ ia :: ib :: pc.map Prod.fst, c.wf = true := by
            intro c hc
            rcases List.mem_cons.mp hc with h | h
            · rw [h]; exact hwfa.2
            · rcases List.mem_cons.mp h with h2 | h2
              · rw [h2]; exact hwfbi.2
              · exact hwfcin c h2
          have hsh2 : ∀ c ∈ ib :: pc.map Prod.fst, Column.sameShape ia c = true := by
            intro c hc
            rcases List.mem_cons.mp hc with h | h
            · rw [h]; exact hshbi
            · exact hshcin c h
          obtain ⟨v', w', hv', hw', hall'⟩ :=
            ih ia sizeOf_lt_nullable ib (pc.map Prod.fst) hwf2 hsh2
          have hv'e : v' = IV := by
            have h2 := hIV
            rw [hv'] at h2
            exact Option.some.inj h2
          have hW1e : W1 = w' := by
            have h2 : Column.concatDispatch ia [IV] = some W1 := by
              have h3 := hW1
              rw [hp1e] at h3
              exact h3
            rw [hv'e] at hw'
            rw [hw'] at h2
            exact (Option.some.inj h2).symm
          have hW2e : W2 = w' := by
            have h2 : Column.concatDispatch ia (ib :: pc.map Prod.fst) = some W2 := by
              have h3 := hW2
              rw [hpae] at h3
              exact h3
            rw [hall'] at h2
            exact (Option.some.inj h2).symm
          have hveq : ((va :: p1.map Prod.snd).flatten)
              = ((va :: pa.map Prod.snd).flatten) := by
            rw [hp1e, hpae]
            simp [List.append_assoc]
          refine ⟨Column.nullable IV ((vb :: pc.map Prod.snd).flatten),
            Column.nullable w' ((va :: pa.map Prod.snd).flatten), hdbc, ?_, ?_⟩
          · rw [hdav, hW1e, hveq]
          · rw [hda, hW2e]
      | null l2 => simp [Column.sameShape] at hshb
      | emptyArray l2 => simp [Column.sameShape] at hshb
      | number v2 => simp [Column.sameShape] at hshb
      | boolean v2 => simp [Column.sameShape] at hshb
      | string o2 d2 => simp [Column.sameShape] at hshb
      | array o2 i2 => simp [Column.sameShape] at hshb
      | tuple f2 l2 => simp [Column.sameShape] at hshb
  | tuple fas la =>
      have hshb : Column.sameShape (.tuple fas la) b = true :=
        hsh b (List.mem_cons_self _ _)
      have hshc : ∀ c ∈ cs, Column.sameShape (.tuple fas la) c = true :=
        fun c hc => hsh c (List.mem_cons_of_mem _ hc)
      have hwfa := hwf _ (List.mem_cons_self _ _)
      simp only [Column.wf] at hwfa
      have hwfb := hwf b (List.mem_cons_of_mem _ (List.mem_cons_self _ _))
      have hwfcs : ∀ c ∈ cs, c.wf = true :=
        fun c hc => hwf c (List.mem_cons_of_mem _ (List.mem_cons_of_mem _ hc))
      cases b with
      | tuple fbs lb =>
          have hshAll : Column.sameShapeAll fas fbs = true := by
            simpa [Column.sameShape] using hshb
          have hlenbf : fas.length = fbs.length := Column.sameShapeAll_length hshAll
          have hwfbAll : Column.wfAll fbs lb = true := by
            simpa [Column.wf] using hwfb
          have hdispAll : ∀ f ∈ fas, ∀ rest2 : List Column,
              (∀ c ∈ rest2, Column.sameShape f c = true) →
              ∃ out, Column.concatDispatch f rest2 = some out ∧
                ConcatOut f rest2 out :=
            fun f _ rest2 h => concatDispatch_spec f rest2 h
          have hdispB : ∀ f ∈ fbs, ∀ rest2 : List Column,
              (∀ c ∈ rest2, Column.sameShape f c = true) →
              ∃ out, Column.concatDispatch f rest2 = some out ∧
                ConcatOut f rest2 out :=
            fun f _ rest2 h => concatDispatch_spec f rest2 h
          have hshbc : ∀ c ∈ cs, Column.sameShape (Column.tuple fbs lb) c = true :=
            fun c hc => Column.sameShape_trans _ _ _
              (Column.sameShape_symm _ _ hshb) (hshc c hc)
          obtain ⟨Fv, hFv, hFvlen, hFvpt⟩ :=
            concatFields_spec fbs 0 cs hdispB (tuple_rest_full hshbc)
          have hdbc : Column.concatDispatch (Column.tuple fbs lb) cs
              = some (.tuple Fv (lb + (cs.map Column.len).sum)) := by
            simp only [Column.concatDispatch, hFv]
          have hrestv : ∀ c ∈ [Column.tuple Fv (lb + (cs.map Column.len).sum)],
              ∃ gs m, c = Column.tuple gs m ∧ 0 + fas.length ≤ gs.length ∧
              ∀ p, p < fas.length →
                Column.sameShape (fas.getD p (.null 0)) (gs.getD (0 + p) (.null 0))
                  = true := by
            intro c hc
            rw [List.mem_singleton.mp hc]
            refine ⟨Fv, _, rfl, by omega, ?_⟩
            intro p hp
            have hpb : p < fbs.length := by omega
            obtain ⟨gC, hgC, hdC, hoC, hglenC, hgptC⟩ := hFvpt p hpb
            have h1 : Column.sameShape (fas.getD p (.null 0))
                (fbs.getD p (.null 0)) = true := by
              rw [getD_in_range hp, getD_in_range hpb]
              exact Column.sameShapeAll_getElem hshAll p hp hpb
            have h3 := Column.sameShape_trans _ _ _ h1 hoC.1
            simpa using h3
          obtain ⟨F1, hF1, hF1len, hF1pt⟩ :=
            concatFields_spec fas 0 [Column.tuple Fv (lb + (cs.map Column.len).sum)]
              hdispAll hrestv
          obtain ⟨F2, hF2, hF2len, hF2pt⟩ :=
            concatFields_spec fas 0 ((Column.tuple fbs lb) :: cs) hdispAll
              (tuple_rest_full hsh)
          have hF1F2 : F1 = F2 := by
            refine ext_getD (Column.null 0) (by omega) ?_
            intro p hp
            have hp0 : p < fas.length := by omega
            have hpb : p < fbs.length := by omega
            obtain ⟨gC, hgC, hdC, hoC, hglenC, hgptC⟩ := hFvpt p hpb
            obtain ⟨g1, hg1, hd1, ho1, hg1len, hg1pt⟩ := hF1pt p hp0
            obtain ⟨g2, hg2, hd2, ho2, hg2len, hg2pt⟩ := hF2pt p hp0
            have hpv : p < Fv.length := by omega
            have hg1e : g1 = [Fv.getD p (.null 0)] := by
              have hq0 := hg1pt 0 (by simp) Fv (lb + (cs.map Column.len).sum) rfl
              refine ext_getD (Column.null 0) (by simpa using hg1len) ?_
              intro n hn
              have hn0 : n = 0 := by
                have hx : g1.length = 1 := by simpa using hg1len
                omega
              subst hn0
              rw [hq0]
              simp
            have hg2e : g2 = fbs.getD p (.null 0) :: gC := by
              refine ext_getD (Column.null 0) ?_ ?_
              · rw [hg2len, List.length_cons, List.length_cons, hglenC]
              · intro n hn
                cases n with
                | zero =>
                    have hq0 := hg2pt 0 (by simp) fbs lb rfl
                    rw [hq0]
                    simp
                | succ n =>
                    have hn2 : n < cs.length := by
                      have hx : g2.length = cs.length + 1 := by simpa using hg2len
                      omega
                    have hmemn : cs.getD n (.null 0) ∈ cs := by
                      rw [getD_in_range hn2]; exact List.getElem_mem hn2
                    obtain ⟨gs, m, hgm, hlen2, _⟩ := tuple_rest_full hshc _ hmemn
                    have hq1 := hg2pt (n+1) (by simp only [List.length_cons]; omega)
                      gs m (by simpa using hgm)
                    have hq2 := hgptC n hn2 gs m hgm
                    rw [hq1]
                    simp only [List.getD_cons_succ]
                    rw [hq2]
            have hf0mem : fas.getD p (.null 0) ∈ fas := by
              rw [getD_in_range hp0]; exact List.getElem_mem hp0
            have hfbmem : fbs.getD p (.null 0) ∈ fbs := by
              rw [getD_in_range hpb]; exact List.getElem_mem hpb
            have hwff0 : (fas.getD p (.null 0)).wf = true :=
              (Column.wfAll_mem hwfa _ hf0mem).1
            have hwffb : (fbs.getD p (.null 0)).wf = true :=
              (Column.wfAll_mem hwfbAll _ hfbmem).1
            have hwfgC : ∀ x ∈ gC, x.wf = true := by
              refine forall_mem_gathered hglenC
                (fun q hq gs m h => by simpa using hgptC q hq gs m h) ?_
              intro c hc
              obtain ⟨gs, m, hgm, hlen2, _⟩ := tuple_rest_full hshbc c hc
              refine ⟨gs, m, hgm, ?_⟩
              have hcwf := hwfcs c hc
              rw [hgm] at hcwf
              simp only [Column.wf] at hcwf
              have hplt : p < gs.length := by omega
              have hmem2 : gs.getD p (.null 0) ∈ gs := by
                rw [getD_in_range hplt]; exact List.getElem_mem hplt
              exact (Column.wfAll_mem hcwf _ hmem2).1
            have hshgC : ∀ x ∈ gC,
                Column.sameShape (fas.getD p (.null 0)) x = true := by
              refine forall_mem_gathered hglenC
                (fun q hq gs m h => by simpa using hgptC q hq gs m h) ?_
              intro c hc
              obtain ⟨gs, m, hgm, hlen2, hpt2⟩ := tuple_rest_full hshc c hc
              refine ⟨gs, m, hgm, ?_⟩
              have h4 := hpt2 p hp0
              simpa using h4
            have hshfafb : Column.sameShape (fas.getD p (.null 0))
                (fbs.getD p (.null 0)) = true := by
              rw [getD_in_range hp0, getD_in_range hpb]
              exact Column.sameShapeAll_getElem hshAll p hp0 hpb
            have hwf2 : ∀ c ∈ (fas.getD p (.null 0)) :: (fbs.getD p (.null 0)) :: gC,
                c.wf = true := by
              intro c hc
              rcases List.mem_cons.mp hc with h | h
              · rw [h]; exact hwff0
              · rcases List.mem_cons.mp h with h2 | h2
                · rw [h2]; exact hwffb
                · exact hwfgC c h2
            have hsh2 : ∀ c ∈ (fbs.getD p (.null 0)) :: gC,
                Column.sameShape (fas.getD p (.null 0)) c = true := by
              intro c hc
              rcases List.mem_cons.mp hc with h | h
              · rw [h]; exact hshfafb
              · exact hshgC c h
            obtain ⟨v', w', hv', hw', hall'⟩ :=
              ih _ (sizeOf_lt_tuple hf0mem) (fbs.getD p (.null 0)) gC hwf2 hsh2
            have hv'e : v' = Fv.getD p (.null 0) := by
              have h2 := hdC
              rw [hv'] at h2
              exact Option.some.inj h2
            have hF1w : F1.getD p (.null 0) = w' := by
              have h2 := hd1
              rw [hg1e] at h2
              rw [hv'e] at hw'
              rw [hw'] at h2
              exact (Option.some.inj h2).symm
            have hF2w : F2.getD p (.null 0) = w' := by
              have h2 := hd2
              rw [hg2e] at h2
              rw [hall'] at h2
              exact (Option.some.inj h2).symm
            rw [hF1w, hF2w]
          refine ⟨Column.tuple Fv (lb + (cs.map Column.len).sum),
            Column.tuple F1 (la + (lb + (cs.map Column.len).sum)), hdbc, ?_, ?_⟩
          · simp only [Column.concatDispatch, hF1]
            simp [Column.len]
          · simp only [Column.concatDispatch, hF2, ← hF1F2]
            simp [Column.len]
      | null l2 => simp [Column.sameShape] at hshb
      | emptyArray l2 => simp [Column.sameShape] at hshb
      | number v2 => simp [Column.sameShape] at hshb
      | boolean v2 => simp [Column.sameShape] at hshb
      | string o2 d2 => simp [Column.sameShape] at hshb
      | array o2 i2 => simp [Column.sameShape] at hshb
      | nullable i2 v2 => simp [Column.sameShape] at hshb

/-! ### The chunk concat specification -/

theorem chunksCompat_facts {c0 : Chunk} {rest : List Chunk}
    (h : chunksCompat (c0 :: rest) = true) :
    c0.wfB = true ∧
    (∀ ck ∈ rest, ck.wfB = true ∧ ck.num_columns = c0.num_columns) ∧
    (∀ i, i < c0.num_columns → ∀ ck ∈ rest,
      Column.sameShape (c0.columns.getD i (.column (.null 0))).shapeCol
        (ck.columns.getD i (.column (.null 0))).shapeCol = true) := by
  simp only [chunksCompat, Bool.and_eq_true, List.all_eq_true] at h
  obtain ⟨⟨h0, h1⟩, h2⟩ := h
  refine ⟨h0, ?_, ?_⟩
  · intro ck hck
    have h3 := h1 ck hck
    simp only [Bool.and_eq_true, beq_iff_eq] at h3
    exact h3
  · intro i hi ck hck
    have h3 := h2 i (List.mem_range.mpr hi) ck hck
    have hi0 : i < c0.columns.length := hi
    have hick : i < ck.columns.length := by
      have h4 := h1 ck hck
      simp only [Bool.and_eq_true, beq_iff_eq] at h4
      have h5 : ck.num_columns = c0.num_columns := h4.2
      unfold Chunk.num_columns at h5
      omega
    have hg0 : c0.columns.get? i = some (c0.columns.getD i (.column (.null 0))) := by
      rw [List.get?_eq_getElem?, List.getElem?_eq_getElem hi0, getD_in_range hi0]
    have hgck : ck.columns.get? i = some (ck.columns.getD i (.column (.null 0))) := by
      rw [List.get?_eq_getElem?, List.getElem?_eq_getElem hick, getD_in_range hick]
    rw [hg0, hgck] at h3
    simpa using h3

theorem chunk_concat_spec (c0 c1 : Chunk) (rest : List Chunk)
    (hcompat : chunksCompat (c0 :: c1 :: rest) = true) :
    ∃ out, Chunk.concat (c0 :: c1 :: rest) = some (.ok out) ∧
      out.num_rows = ((c0 :: c1 :: rest).map Chunk.num_rows).sum ∧
      out.columns.length = c0.num_columns ∧
      ∀ j, j < c0.num_columns →
        ∃ mats w, optionMap (materializeAt j) (c0 :: c1 :: rest) = some mats ∧
          Column.concat mats = some w ∧
          out.columns.getD j (.column (.null 0)) = Value.column w ∧
          mats.length = (c0 :: c1 :: rest).length ∧
          (∀ q, q < (c0 :: c1 :: rest).length →
            materializeAt j ((c0 :: c1 :: rest).getD q ⟨[], 0⟩)
              = some (mats.getD q (.null 0))) ∧
          w.wf = true ∧ w.len = ((c0 :: c1 :: rest).map Chunk.num_rows).sum ∧
          w.cells = cellsJoin mats ∧
          Column.sameShape (c0.columns.getD j (.column (.null 0))).shapeCol w
            = true := by
  obtain ⟨hwfB0, hrest, hshape⟩ := chunksCompat_facts hcompat
  have hcol : ∀ j, j < c0.num_columns →
      ∃ mats w, optionMap (materializeAt j) (c0 :: c1 :: rest) = some mats ∧
        Column.concat mats = some w ∧
        mats.length = (c0 :: c1 :: rest).length ∧
        (∀ q, q < (c0 :: c1 :: rest).length →
          materializeAt j ((c0 :: c1 :: rest).getD q ⟨[], 0⟩)
            = some (mats.getD q (.null 0))) ∧
        w.wf = true ∧ w.len = ((c0 :: c1 :: rest).map Chunk.num_rows).sum ∧
        w.cells = cellsJoin mats ∧
        Column.sameShape (c0.columns.getD j (.column (.null 0))).shapeCol w
          = true := by
    intro j hj
    have hnc : ∀ ck ∈ c0 :: c1 :: rest, ck.num_columns = c0.num_columns := by
      intro ck hck
      rcases List.mem_cons.mp hck with h | h
      · rw [h]
      · exact (hrest _ h).2
    have hwfall : ∀ ck ∈ c0 :: c1 :: rest, ck.wfB = true := by
      intro ck hck
      rcases List.mem_cons.mp hck with h | h
      · rw [h]; exact hwfB0
      · exact (hrest _ h).1
    have hms : ∀ ck ∈ c0 :: c1 :: rest, (materializeAt j ck).isSome = true := by
      intro ck hck
      have hjlt : j < ck.columns.length := by
        have h5 := hnc ck hck
        unfold Chunk.num_columns at h5
        have hj2 : j < c0.columns.length := hj
        omega
      obtain ⟨col, hcol2, _, _, _⟩ := materializeAt_spec hjlt (hwfall ck hck)
      rw [hcol2]
      rfl
    obtain ⟨mats, hmats⟩ := optionMap_isSome' _ hms
    have hmlen : mats.length = (c0 :: c1 :: rest).length := optionMap_length hmats
    have hpt : ∀ q, q < (c0 :: c1 :: rest).length →
        materializeAt j ((c0 :: c1 :: rest).getD q ⟨[], 0⟩)
          = some (mats.getD q (.null 0)) := by
      intro q hq
      have hq2 : q < mats.length := by omega
      rw [getD_in_range hq, getD_in_range hq2]
      exact optionMap_getElem hmats q hq hq2
    have hprops : ∀ q, q < (c0 :: c1 :: rest).length →
        (mats.getD q (.null 0)).wf = true ∧
        (mats.getD q (.null 0)).len
          = ((c0 :: c1 :: rest).getD q ⟨[], 0⟩).num_rows ∧
        Column.sameShape ((((c0 :: c1 :: rest).getD q ⟨[], 0⟩).columns.getD j
          (.column (.null 0))).shapeCol) (mats.getD q (.null 0)) = true := by
      intro q hq
      have hckmem : (c0 :: c1 :: rest).getD q ⟨[], 0⟩ ∈ c0 :: c1 :: rest := by
        rw [getD_in_range hq]; exact List.getElem_mem hq
      have hjlt : j < ((c0 :: c1 :: rest).getD q ⟨[], 0⟩).columns.length := by
        have h5 := hnc _ hckmem
        unfold Chunk.num_columns at h5
        have hj2 : j < c0.columns.length := hj
        omega
      obtain ⟨col, hcol2, hwfc, hlenc, hshc⟩ :=
        materializeAt_spec hjlt (hwfall _ hckmem)
      have hce : col = mats.getD q (.null 0) := by
        have h2 := hpt q hq
        rw [hcol2] at h2
        exact Option.some.inj h2
      rw [← hce]
      exact ⟨hwfc, hlenc, hshc⟩
    obtain ⟨m0, mrest, hm0⟩ : ∃ m0 mrest, mats = m0 :: mrest := by
      cases mats with
      | nil => simp at hmlen
      | cons x xs => exact ⟨x, xs, rfl⟩
    have hmr : mrest.length = rest.length + 1 := by
      rw [hm0] at hmlen
      simpa using hmlen
    have hsh0 : Column.sameShape
        ((c0.columns.getD j (.column (.null 0))).shapeCol) m0 = true := by
      have h0 := (hprops 0 (by simp)).2.2
      rw [hm0] at h0
      simpa using h0
    have hshm : ∀ c ∈ mrest, Column.sameShape m0 c = true := by
      intro c hc
      obtain ⟨q, hq, hcq⟩ := List.getElem_of_mem hc
      have hq1 : q + 1 < (c0 :: c1 :: rest).length := by
        simp only [List.length_cons]
        omega
      have hql : q < (c1 :: rest).length := by
        simp only [List.length_cons]
        omega
      have h3 := (hprops (q+1) hq1).2.2
      rw [hm0] at h3
      simp only [List.getD_cons_succ] at h3
      have hcmem : (c1 :: rest).getD q ⟨[], 0⟩ ∈ c1 :: rest := by
        rw [getD_in_range hql]; exact List.getElem_mem hql
      have h2 := hshape j hj _ hcmem
      have hcq2 : mrest.getD q (.null 0) = c := by
        rw [getD_in_range hq]; exact hcq
      rw [hcq2] at h3
      exact Column.sameShape_trans _ _ _ (Column.sameShape_symm _ _ hsh0)
        (Column.sameShape_trans _ _ _ h2 h3)
    have hwfmats : ∀ c ∈ m0 :: mrest, c.wf = true := by
      intro c hc
      obtain ⟨q, hq, hcq⟩ := List.getElem_of_mem (hm0 ▸ hc)
      have hq2 : q < (c0 :: c1 :: rest).length := by omega
      have h3 := (hprops q hq2).1
      rw [getD_in_range hq] at h3
      rw [hcq] at h3
      exact h3
    obtain ⟨w, hwd, hwsh, hwemp, hwlen, hwwfc⟩ := concatDispatch_spec m0 mrest hshm
    obtain ⟨hwwf, hwcells⟩ := hwwfc hwfmats
    have hconc : Column.concat mats = some w := by
      rw [hm0, Column.concat, if_neg (by simp [hmr])]
      exact hwd
    have hsum : sumLens mats = ((c0 :: c1 :: rest).map Chunk.num_rows).sum := by
      rw [sumLens]
      congr 1
      refine ext_getD 0 (by simp [hmlen]) ?_
      intro q hq
      have hq2 : q < mats.length := by simpa using hq
      have hq3 : q < (c0 :: c1 :: rest).length := by omega
      rw [getD_map_in_range hq2 0, getD_map_in_range hq3 0]
      have h3 := (hprops q hq3).2.1
      rw [getD_in_range hq2, getD_in_range hq3] at h3
      exact h3
    refine ⟨mats, w, hmats, hconc, hmlen, hpt, hwwf, ?_, ?_, ?_⟩
    · rw [hwlen, ← hm0, hsum]
    · rw [hwcells, hm0]
    · exact Column.sameShape_trans _ _ _ hsh0 hwsh
  have hcc : ∀ i ∈ List.range c0.num_columns,
      (Chunk.concatColumnAt (c0 :: c1 :: rest) i).isSome = true := by
    intro i hi
    obtain ⟨mats, w, hmats, hw, _⟩ := hcol i (List.mem_range.mp hi)
    simp only [Chunk.concatColumnAt, hmats, hw]
    rfl
  obtain ⟨cols, hcols, hclen, hcpt⟩ :=
    Chunk.concatCols_spec (c0 :: c1 :: rest) (List.range c0.num_columns) hcc
  refine ⟨Chunk.mk cols (((c0 :: c1 :: rest).map Chunk.num_rows).sum), ?_, rfl,
    by simpa using hclen, ?_⟩
  · simp only [Chunk.concat, hcols]
  · intro j hj
    obtain ⟨mats, w, hmats, hw, hmlen, hpt, hwwf, hwlen, hwcells, hwsh⟩ := hcol j hj
    obtain ⟨c, hc, hce⟩ := hcpt j (by simpa using hj)
    have hrange : (List.range c0.num_columns).getD j 0 = j := by
      rw [getD_in_range (by simpa using hj)]
      simp
    rw [hrange] at hc
    have hcw : c = w := by
      have h2 := hc
      simp only [Chunk.concatColumnAt, hmats, hw] at h2
      exact (Option.some.inj h2).symm
    refine ⟨mats, w, hmats, hw, ?_, hmlen, hpt, hwwf, hwlen, hwcells, hwsh⟩
    rw [← hcw]
    exact hce

theorem chunksCompat_of (c0 : Chunk) (rest : List Chunk)
    (h0 : c0.wfB = true)
    (h1 : ∀ ck ∈ rest, ck.wfB = true ∧ ck.num_columns = c0.num_columns)
    (h2 : ∀ i, i < c0.num_columns → ∀ ck ∈ rest,
      Column.sameShape (c0.columns.getD i (.column (.null 0))).shapeCol
        (ck.columns.getD i (.column (.null 0))).shapeCol = true) :
    chunksCompat (c0 :: rest) = true := by
  simp only [chunksCompat, Bool.and_eq_true, List.all_eq_true]
  refine ⟨⟨h0, ?_⟩, ?_⟩
  · intro ck hck
    simp only [Bool.and_eq_true, beq_iff_eq]
    exact h1 ck hck
  · intro i hi ck hck
    have hi2 := List.mem_range.mp hi
    have hi0 : i < c0.columns.length := hi2
    have hick : i < ck.columns.length := by
      have h5 := (h1 ck hck).2
      unfold Chunk.num_columns at h5
      have h6 : i < c0.columns.length := hi2
      omega
    have hg0 : c0.columns.get? i = some (c0.columns.getD i (.column (.null 0))) := by
      rw [List.get?_eq_getElem?, List.getElem?_eq_getElem hi0, getD_in_range hi0]
    have hgck : ck.columns.get? i = some (ck.columns.getD i (.column (.null 0))) := by
      rw [List.get?_eq_getElem?, List.getElem?_eq_getElem hick, getD_in_range hick]
    rw [hg0, hgck]
    simpa using h2 i hi2 ck hck

theorem chunksCompat_sub3 {A B C : Chunk} (h : chunksCompat [A, B, C] = true) :
    chunksCompat [A, B] = true ∧ chunksCompat [B, C] = true := by
  obtain ⟨h0, h1, h2⟩ := chunksCompat_facts h
  constructor
  · refine chunksCompat_of A [B] h0 ?_ ?_
    · intro ck hck
      rw [List.mem_singleton.mp hck]
      exact h1 B (by simp)
    · intro i hi ck hck
      rw [List.mem_singleton.mp hck]
      exact h2 i hi B (by simp)
  · have hBfacts := h1 B (by simp)
    have hCfacts := h1 C (by simp)
    refine chunksCompat_of B [C] hBfacts.1 ?_ ?_
    · intro ck hck
      rw [List.mem_singleton.mp hck]
      exact ⟨hCfacts.1, by rw [hCfacts.2, hBfacts.2]⟩
    · intro i hi ck hck
      rw [List.mem_singleton.mp hck]
      have hiA : i < A.num_columns := hBfacts.2 ▸ hi
      exact Column.sameShape_trans _ _ _
        (Column.sameShape_symm _ _ (h2 i hiA B (by simp)))
        (h2 i hiA C (by simp))

theorem chunk_concat_out_wfB {c0 c1 : Chunk} {rest : List Chunk} {out : Chunk}
    (hcompat : chunksCompat (c0 :: c1 :: rest) = true)
    (hout : Chunk.concat (c0 :: c1 :: rest) = some (.ok out)) :
    out.wfB = true := by
  obtain ⟨out2, hout2, hnr, hnc, hpt⟩ := chunk_concat_spec c0 c1 rest hcompat
  have he : out2 = out := by
    rw [hout] at hout2
    exact (Except.ok.inj (Option.some.inj hout2)).symm
  subst he
  rw [Chunk.wfB, List.all_eq_true]
  intro v hv
  obtain ⟨j, hj, hvj⟩ := List.getElem_of_mem hv
  have hj2 : j < c0.num_columns := by omega
  obtain ⟨mats, w, hmats, hw, hent, hmlen, hptq, hwwf, hwlen, hwcells, hwsh⟩ :=
    hpt j hj2
  have hve : v = Value.column w := by
    rw [← hvj, ← getD_in_range hj (Value.column (Column.null 0)), hent]
  rw [hve]
  show (w.wf && (w.len == out2.num_rows)) = true
  simp only [Bool.and_eq_true, beq_iff_eq]
  exact ⟨hwwf, by rw [hwlen, hnr]⟩

theorem chunk_concat_fuse_head (A B C : Chunk)
    (hcompat : chunksCompat [A, B, C] = true) :
    ∃ AB ABC, Chunk.concat [A, B] = some (.ok AB) ∧
      Chunk.concat [AB, C] = some (.ok ABC) ∧
      Chunk.concat [A, B, C] = some (.ok ABC) := by
  obtain ⟨hA, h1, h2⟩ := chunksCompat_facts hcompat
  obtain ⟨hAB2, hBC2⟩ := chunksCompat_sub3 hcompat
  obtain ⟨AB, hAB, hABnr, hABnc, hABpt⟩ := chunk_concat_spec A B [] hAB2
  obtain ⟨ABC, hABC, hABCnr, hABCnc, hABCpt⟩ := chunk_concat_spec A B [C] hcompat
  have hABwfB : AB.wfB = true := chunk_concat_out_wfB hAB2 hAB
  have hBfacts := h1 B (by simp)
  have hCfacts := h1 C (by simp)
  have hcompat2 : chunksCompat [AB, C] = true := by
    refine chunksCompat_of AB [C] hABwfB ?_ ?_
    · intro ck hck
      rw [List.mem_singleton.mp hck]
      refine ⟨hCfacts.1, ?_⟩
      unfold Chunk.num_columns
      rw [hABnc]
      exact hCfacts.2
    · intro i hi ck hck
      rw [List.mem_singleton.mp hck]
      have hiA : i < A.num_columns := by
        have h5 : AB.num_columns = A.num_columns := hABnc
        omega
      obtain ⟨mats, w, hmats, hw, hent, hmlen, hptq, hwwf, hwlen, hwcells, hwsh⟩ :=
        hABpt i hiA
      rw [hent]
      exact Column.sameShape_trans _ _ _ (Column.sameShape_symm _ _ hwsh)
        (h2 i hiA C (by simp))
  obtain ⟨X, hX, hXnr, hXnc, hXpt⟩ := chunk_concat_spec AB C [] hcompat2
  have hnr : X.num_rows = ABC.num_rows := by
    rw [hXnr, hABCnr]
    simp only [List.map_cons, List.map_nil, List.sum_cons, List.sum_nil, hABnr]
    omega
  have hlen : X.columns.length = ABC.columns.length := by
    rw [hXnc, hABCnc]
    exact hABnc
  have hcols : X.columns = ABC.columns := by
    refine ext_getD (Value.column (.null 0)) hlen ?_
    intro j hj
    have hjA : j < A.num_columns := by
      have h6 : ABC.columns.length = A.num_columns := hABCnc
      omega
    have hjAB : j < AB.num_columns := by
      have h5 : AB.num_columns = A.num_columns := hABnc
      omega
    obtain ⟨matsP, wP, hmatsP, hwP, hentP, hmlenP, hptP, hwwfP, hwlenP, hwcP, hwshP⟩ :=
      hABpt j hjA
    obtain ⟨matsX, wX, hmatsX, hwX, hentX, hmlenX, hptX, hwwfX, hwlenX, hwcX, hwshX⟩ :=
      hXpt j hjAB
    obtain ⟨matsT, wT, hmatsT, hwT, hentT, hmlenT, hptT, hwwfT, hwlenT, hwcT, hwshT⟩ :=
      hABCpt j hjA
    have hjlA : j < A.columns.length := hjA
    have hjlB : j < B.columns.length := by
      have h5 := hBfacts.2
      unfold Chunk.num_columns at h5
      have h6 : j < A.columns.length := hjA
      omega
    have hjlC : j < C.columns.length := by
      have h5 := hCfacts.2
      unfold Chunk.num_columns at h5
      have h6 : j < A.columns.length := hjA
      omega
    obtain ⟨mA, hmA, hmAwf, hmAlen, hmAsh⟩ := materializeAt_spec hjlA hA
    obtain ⟨mB, hmB, hmBwf, hmBlen, hmBsh⟩ := materializeAt_spec hjlB hBfacts.1
    obtain ⟨mC, hmC, hmCwf, hmClen, hmCsh⟩ := materializeAt_spec hjlC hCfacts.1
    have hmatsP0 : matsP.getD 0 (.null 0) = mA := by
      have h3 := hptP 0 (by simp)
      simp only [List.getD_cons_zero] at h3
      rw [hmA] at h3
      exact (Option.some.inj h3).symm
    have hmatsP1 : matsP.getD 1 (.null 0) = mB := by
      have h3 := hptP 1 (by simp)
      simp only [List.getD_cons_succ, List.getD_cons_zero] at h3
      rw [hmB] at h3
      exact (Option.some.inj h3).symm
    have hmatsT0 : matsT.getD 0 (.null 0) = mA := by
      have h3 := hptT 0 (by simp)
      simp only [List.getD_cons_zero] at h3
      rw [hmA] at h3
      exact (Option.some.inj h3).symm
    have hmatsT1 : matsT.getD 1 (.null 0) = mB := by
      have h3 := hptT 1 (by simp)
      simp only [List.getD_cons_succ, List.getD_cons_zero] at h3
      rw [hmB] at h3
      exact (Option.some.inj h3).symm
    have hmatsT2 : matsT.getD 2 (.null 0) = mC := by
      have h3 := hptT 2 (by simp)
      simp only [List.getD_cons_succ, List.getD_cons_zero] at h3
      rw [hmC] at h3
      exact (Option.some.inj h3).symm
    have hABslot : AB.columns.get? j = some (Value.column wP) := by
      have hjl : j < AB.columns.length := hjAB
      rw [List.get?_eq_getElem?, List.getElem?_eq_getElem hjl,
        ← getD_in_range hjl (Value.column (Column.null 0)), hentP]
    have hmatsX0 : matsX.getD 0 (.null 0) = wP := by
      have h3 := hptX 0 (by simp)
      simp only [List.getD_cons_zero] at h3
      simp only [materializeAt, hABslot] at h3
      exact (Option.some.inj h3).symm
    have hmatsX1 : matsX.getD 1 (.null 0) = mC := by
      have h3 := hptX 1 (by simp)
      simp only [List.getD_cons_succ, List.getD_cons_zero] at h3
      rw [hmC] at h3
      exact (Option.some.inj h3).symm
    have hmatsPe : matsP = [mA, mB] := by
      have h5 : matsP.length = 2 := by simpa using hmlenP
      refine ext_getD (Column.null 0) (by simp [h5]) ?_
      intro n hn
      have hn2 : n < 2 := by omega
      cases n with
      | zero => simpa using hmatsP0
      | succ n =>
          cases n with
          | zero => simpa using hmatsP1
          | succ n => omega
    have hmatsXe : matsX = [wP, mC] := by
      have h5 : matsX.length = 2 := by simpa using hmlenX
      refine ext_getD (Column.null 0) (by simp [h5]) ?_
      intro n hn
      have hn2 : n < 2 := by omega
      cases n with
      | zero => simpa using hmatsX0
      | succ n =>
          cases n with
          | zero => simpa using hmatsX1
          | succ n => omega
    have hmatsTe : matsT = [mA, mB, mC] := by
      have h5 : matsT.length = 3 := by simpa using hmlenT
      refine ext_getD (Column.null 0) (by simp [h5]) ?_
      intro n hn
      have hn2 : n < 3 := by omega
      cases n with
      | zero => simpa using hmatsT0
      | succ n =>
          cases n with
          | zero => simpa using hmatsT1
          | succ n =>
              cases n with
              | zero => simpa using hmatsT2
              | succ n => omega
    have hwfF : ∀ x ∈ mA :: ([mB] ++ [mC]), x.wf = true := by
      intro x hx
      rcases List.mem_cons.mp hx with h | hx2
      · rw [h]; exact hmAwf
      rcases List.mem_append.mp hx2 with h3 | h3
      · rw [List.mem_singleton.mp h3]; exact hmBwf
      · rw [List.mem_singleton.mp h3]; exact hmCwf
    have hshF : ∀ x ∈ [mB] ++ [mC], Column.sameShape mA x = true := by
      intro x hx
      rcases List.mem_append.mp hx with h3 | h3
      · rw [List.mem_singleton.mp h3]
        exact Column.sameShape_trans _ _ _ (Column.sameShape_symm _ _ hmAsh)
          (Column.sameShape_trans _ _ _ (h2 j hjA B (by simp)) hmBsh)
      · rw [List.mem_singleton.mp h3]
        exact Column.sameShape_trans _ _ _ (Column.sameShape_symm _ _ hmAsh)
          (Column.sameShape_trans _ _ _ (h2 j hjA C (by simp)) hmCsh)
    obtain ⟨u, w', hu, huw, hall⟩ := concatDispatch_fuse_head mA [mB] [mC] hwfF hshF
    have hwPd : Column.concat matsP = Column.concatDispatch mA [mB] := by
      rw [hmatsPe, Column.concat, if_neg (by simp)]
    have hue : u = wP := by
      have h3 := hwP
      rw [hwPd, hu] at h3
      exact Option.some.inj h3
    have hwXd : Column.concat matsX = Column.concatDispatch wP [mC] := by
      rw [hmatsXe, Column.concat, if_neg (by simp)]
    have hXe : wX = w' := by
      have h3 := hwX
      rw [hwXd, ← hue, huw] at h3
      exact (Option.some.inj h3).symm
    have hwTd : Column.concat matsT = Column.concatDispatch mA [mB, mC] := by
      rw [hmatsTe, Column.concat, if_neg (by simp)]
    have hTe : wT = w' := by
      have h3 := hwT
      rw [hwTd] at h3
      have h4 : Column.concatDispatch mA [mB, mC] = some w' := hall
      rw [h4] at h3
      exact (Option.some.inj h3).symm
    rw [hentX, hentT, hXe, hTe]
  have hXeq : X = ABC := by
    calc X = ⟨X.columns, X.num_rows⟩ := rfl
      _ = ⟨ABC.columns, ABC.num_rows⟩ := by rw [hcols, hnr]
      _ = ABC := rfl
  exact ⟨AB, ABC, hAB, hXeq ▸ hX, hABC⟩

theorem chunk_concat_fuse_tail (A B C : Chunk)
    (hcompat : chunksCompat [A, B, C] = true) :
    ∃ BC ABC, Chunk.concat [B, C] = some (.ok BC) ∧
      Chunk.concat [A, BC] = some (.ok ABC) ∧
      Chunk.concat [A, B, C] = some (.ok ABC) := by
  obtain ⟨hA, h1, h2⟩ := chunksCompat_facts hcompat
  obtain ⟨hAB2, hBC2⟩ := chunksCompat_sub3 hcompat
  obtain ⟨BC, hBC, hBCnr, hBCnc, hBCpt⟩ := chunk_concat_spec B C [] hBC2
  obtain ⟨ABC, hABC, hABCnr, hABCnc, hABCpt⟩ := chunk_concat_spec A B [C] hcompat
  have hBCwfB : BC.wfB = true := chunk_concat_out_wfB hBC2 hBC
  have hBfacts := h1 B (by simp)
  have hCfacts := h1 C (by simp)
  have hcompat2 : chunksCompat [A, BC] = true := by
    refine chunksCompat_of A [BC] hA ?_ ?_
    · intro ck hck
      rw [List.mem_singleton.mp hck]
      refine ⟨hBCwfB, ?_⟩
      unfold Chunk.num_columns
      rw [hBCnc]
      exact hBfacts.2
    · intro i hi ck hck
      rw [List.mem_singleton.mp hck]
      have hiB : i < B.num_columns := by
        have h5 : B.num_columns = A.num_columns := hBfacts.2
        omega
      obtain ⟨mats, w, hmats, hw, hent, hmlen, hptq, hwwf, hwlen, hwcells, hwsh⟩ :=
        hBCpt i hiB
      rw [hent]
      exact Column.sameShape_trans _ _ _ (h2 i hi B (by simp)) hwsh
  obtain ⟨Y, hY, hYnr, hYnc, hYpt⟩ := chunk_concat_spec A BC [] hcompat2
  have hnr : Y.num_rows = ABC.num_rows := by
    rw [hYnr, hABCnr]
    simp only [List.map_cons, List.map_nil, List.sum_cons, List.sum_nil, hBCnr]
    omega
  have hlen : Y.columns.length = ABC.columns.length := by
    rw [hYnc, hABCnc]
  have hcols : Y.columns = ABC.columns := by
    refine ext_getD (Value.column (.null 0)) hlen ?_
    intro j hj
    have hjA : j < A.num_columns := by
      have h6 : ABC.columns.length = A.num_columns := hABCnc
      omega
    have hjB : j < B.num_columns := by
      have h5 : B.num_columns = A.num_columns := hBfacts.2
      omega
    obtain ⟨matsP, wP, hmatsP, hwP, hentP, hmlenP, hptP, hwwfP, hwlenP, hwcP, hwshP⟩ :=
      hBCpt j hjB
    obtain ⟨matsY, wY, hmatsY, hwY, hentY, hmlenY, hptY, hwwfY, hwlenY, hwcY, hwshY⟩ :=
      hYpt j hjA
    obtain ⟨matsT, wT, hmatsT, hwT, hentT, hmlenT, hptT, hwwfT, hwlenT, hwcT, hwshT⟩ :=
      hABCpt j hjA
    have hjlA : j < A.columns.length := hjA
    have hjlB : j < B.columns.length := hjB
    have hjlC : j < C.columns.length := by
      have h5 := hCfacts.2
      unfold Chunk.num_columns at h5
      have h6 : j < A.columns.length := hjA
      omega
    obtain ⟨mA, hmA, hmAwf, hmAlen, hmAsh⟩ := materializeAt_spec hjlA hA
    obtain ⟨mB, hmB, hmBwf, hmBlen, hmBsh⟩ := materializeAt_spec hjlB hBfacts.1
    obtain ⟨mC, hmC, hmCwf, hmClen, hmCsh⟩ := materializeAt_spec hjlC hCfacts.1
    have hmatsP0 : matsP.getD 0 (.null 0) = mB := by
      have h3 := hptP 0 (by simp)
      simp only [List.getD_cons_zero] at h3
      rw [hmB] at h3
      exact (Option.some.inj h3).symm
    have hmatsP1 : matsP.getD 1 (.null 0) = mC := by
      have h3 := hptP 1 (by simp)
      simp only [List.getD_cons_succ, List.getD_cons_zero] at h3
      rw [hmC] at h3
      exact (Option.some.inj h3).symm
    have hmatsT0 : matsT.getD 0 (.null 0) = mA := by
      have h3 := hptT 0 (by simp)
      simp only [List.getD_cons_zero] at h3
      rw [hmA] at h3
      exact (Option.some.inj h3).symm
    have hmatsT1 : matsT.getD 1 (.null 0) = mB := by
      have h3 := hptT 1 (by simp)
      simp only [List.getD_cons_succ, List.getD_cons_zero] at h3
      rw [hmB] at h3
      exact (Option.some.inj h3).symm
    have hmatsT2 : matsT.getD 2 (.null 0) = mC := by
      have h3 := hptT 2 (by simp)
      simp only [List.getD_cons_succ, List.getD_cons_zero] at h3
      rw [hmC] at h3
      exact (Option.some.inj h3).symm
    have hBCslot : BC.columns.get? j = some (Value.column wP) := by
      have hjl : j < BC.columns.length := by
        have h5 : BC.columns.length = B.num_columns := hBCnc
        omega
      rw [List.get?_eq_getElem?, List.getElem?_eq_getElem hjl,
        ← getD_in_range hjl (Value.column (Column.null 0)), hentP]
    have hmatsY0 : matsY.getD 0 (.null 0) = mA := by
      have h3 := hptY 0 (by simp)
      simp only [List.getD_cons_zero] at h3
      rw [hmA] at h3
      exact (Option.some.inj h3).symm
    have hmatsY1 : matsY.getD 1 (.null 0) = wP := by
      have h3 := hptY 1 (by simp)
      simp only [List.getD_cons_succ, List.getD_cons_zero] at h3
      simp only [materializeAt, hBCslot] at h3
      exact (Option.some.inj h3).symm
    have hmatsPe : matsP = [mB, mC] := by
      have h5 : matsP.length = 2 := by simpa using hmlenP
      refine ext_getD (Column.null 0) (by simp [h5]) ?_
      intro n hn
      have hn2 : n < 2 := by omega
      cases n with
      | zero => simpa using hmatsP0
      | succ n =>
          cases n with
          | zero => simpa using hmatsP1
          | succ n => omega
    have hmatsYe : matsY = [mA, wP] := by
      have h5 : matsY.length = 2 := by simpa using hmlenY
      refine ext_getD (Column.null 0) (by simp [h5]) ?_
      intro n hn
      have hn2 : n < 2 := by omega
      cases n with
      | zero => simpa using hmatsY0
      | succ n =>
          cases n with
          | zero => simpa using hmatsY1
          | succ n => omega
    have hmatsTe : matsT = [mA, mB, mC] := by
      have h5 : matsT.length = 3 := by simpa using hmlenT
      refine ext_getD (Column.null 0) (by simp [h5]) ?_
      intro n hn
      have hn2 : n < 3 := by omega
      cases n with
      | zero => simpa using hmatsT0
      | succ n =>
          cases n with
          | zero => simpa using hmatsT1
          | succ n =>
              cases n with
              | zero => simpa using hmatsT2
              | succ n => omega
    have hwfF : ∀ x ∈ mA :: mB :: [mC], x.wf = true := by
      intro x hx
      rcases List.mem_cons.mp hx with h | hx2
      · rw [h]; exact hmAwf
      rcases List.mem_cons.mp hx2 with h | hx3
      · rw [h]; exact hmBwf
      · rw [List.mem_singleton.mp hx3]; exact hmCwf
    have hshF : ∀ x ∈ mB :: [mC], Column.sameShape mA x = true := by
      intro x hx
      rcases List.mem_cons.mp hx with h | hx2
      · rw [h]
        exact Column.sameShape_trans _ _ _ (Column.sameShape_symm _ _ hmAsh)
          (Column.sameShape_trans _ _ _ (h2 j hjA B (by simp)) hmBsh)
      · rw [List.mem_singleton.mp hx2]
        exact Column.sameShape_trans _ _ _ (Column.sameShape_symm _ _ hmAsh)
          (Column.sameShape_trans _ _ _ (h2 j hjA C (by simp)) hmCsh)
    obtain ⟨v, w', hv, hvw, hall⟩ := concatDispatch_fuse_tail mA mB [mC] hwfF hshF
    have hwPd : Column.concat matsP = Column.concatDispatch mB [mC] := by
      rw [hmatsPe, Column.concat, if_neg (by simp)]
    have hve : v = wP := by
      have h3 := hwP
      rw [hwPd, hv] at h3
      exact Option.some.inj h3
    have hwYd : Column.concat matsY = Column.concatDispatch mA [wP] := by
      rw [hmatsYe, Column.concat, if_neg (by simp)]
    have hYe : wY = w' := by
      have h3 := hwY
      rw [hwYd, ← hve, hvw] at h3
      exact (Option.some.inj h3).symm
    have hwTd : Column.concat matsT = Column.concatDispatch mA [mB, mC] := by
      rw [hmatsTe, Column.concat, if_neg (by simp)]
    have hTe : wT = w' := by
      have h3 := hwT
      rw [hwTd] at h3
      have h4 : Column.concatDispatch mA [mB, mC] = some w' := hall
      rw [h4] at h3
      exact (Option.some.inj h3).symm
    rw [hentY, hentT, hYe, hTe]
  have hYeq : Y = ABC := by
    calc Y = ⟨Y.columns, Y.num_rows⟩ := rfl
      _ = ⟨ABC.columns, ABC.num_rows⟩ := by rw [hcols, hnr]
      _ = ABC := rfl
  exact ⟨BC, ABC, hBC, hYeq ▸ hY, hABC⟩

/-! ### The claims -/

theorem prefLen_succ (L : List Column) (m : Nat) (hm : m < L.length) :
    prefLen L (m+1) = prefLen L m + (L.getD m (.null 0)).len := by
  unfold prefLen sumLens
  rw [List.take_succ, List.map_append, List.sum_append]
  congr 1
  rw [List.getElem?_eq_getElem hm, getD_in_range hm]
  simp

theorem prefLen_le_sumLens (L : List Column) (m : Nat) : prefLen L m ≤ sumLens L := by
  unfold prefLen sumLens
  rw [List.map_take]
  exact sum_take_le _ _

theorem concat_row_mapping (c0 : Column) (rest : List Column)
    (hwf : ∀ c ∈ c0 :: rest, c.wf = true)
    (hsh : ∀ c ∈ rest, Column.sameShape c0 c = true) :
    ∃ out, Column.concat (c0 :: rest) = some out ∧
      Column.sameShape c0 out = true ∧ out.wf = true ∧
      out.len = sumLens (c0 :: rest) ∧ out.cells = cellsJoin (c0 :: rest) ∧
      ∀ m, m < (c0 :: rest).length → ∀ r, r < ((c0 :: rest).getD m (.null 0)).len →
        out.cellAt (prefLen (c0 :: rest) m + r)
          = ((c0 :: rest).getD m (.null 0)).cellAt r := by
  obtain ⟨out, hout, hsh2, hemp, hlen, hwfc⟩ := concat_spec c0 rest hsh
  obtain ⟨hwfo, hcells⟩ := hwfc hwf
  refine ⟨out, hout, hsh2, hwfo, hlen, hcells, ?_⟩
  intro m hm r hr
  have hstep := prefLen_succ (c0 :: rest) m hm
  have hple := prefLen_le_sumLens (c0 :: rest) (m+1)
  have hxlt : prefLen (c0 :: rest) m + r < out.len := by
    rw [hlen]
    omega
  rw [← Column.cells_getD out (prefLen (c0 :: rest) m + r) hxlt CellValue.null, hcells]
  exact cellsJoin_getD (c0 :: rest) m r hm hr CellValue.null

/-- C1: row preservation.  For same-shaped well-formed columns, the rows of
Column::concat are the rows of the inputs in order: logical row r of the
output equals row r − Σ of the lengths before input m of input m, for the
unique m whose segment contains r; equivalently the output rows are the
in-order concatenation of the input rows. -/
theorem spec_C1 (c0 : Column) (rest : List Column) (r m : Nat)
    (hwf : ∀ c ∈ c0 :: rest, c.wf = true)
    (hsh : ∀ c ∈ rest, Column.sameShape c0 c = true)
    (hm : m < (c0 :: rest).length)
    (hlo : prefLen (c0 :: rest) m ≤ r)
    (hhi : r < prefLen (c0 :: rest) (m+1)) :
    ∃ out, Column.concat (c0 :: rest) = some out ∧
      out.cells = cellsJoin (c0 :: rest) ∧
      out.cellAt r = ((c0 :: rest).getD m (.null 0)).cellAt
        (r - prefLen (c0 :: rest) m) := by
  obtain ⟨out, hout, _, _, hlen, hcells, hmap⟩ := concat_row_mapping c0 rest hwf hsh
  refine ⟨out, hout, hcells, ?_⟩
  have hstep := prefLen_succ (c0 :: rest) m hm
  have hrlt : r - prefLen (c0 :: rest) m < ((c0 :: rest).getD m (.null 0)).len := by
    omega
  have h2 := hmap m hm (r - prefLen (c0 :: rest) m) hrlt
  have hAdd : prefLen (c0 :: rest) m + (r - prefLen (c0 :: rest) m) = r := by omega
  rw [hAdd] at h2
  exact h2

theorem spec_C1_witness :
    ∃ out, Column.concat [Column.number [1, 2], Column.number [3]] = some out ∧
      out.cells = cellsJoin [Column.number [1, 2], Column.number [3]] ∧
      out.cellAt 2 = ([Column.number [1, 2], Column.number [3]].getD 1 (.null 0)).cellAt
        (2 - prefLen [Column.number [1, 2], Column.number [3]] 1) :=
  spec_C1 (Column.number [1, 2]) [Column.number [3]] 2 1 (by decide) (by decide)
    (by decide) (by decide) (by decide)

/-- C2: length and arity.  Chunk::concat of compatible chunks returns a chunk
whose row count is the sum of the input row counts and whose column list has
the arity of the first chunk; Column::concat of same-shaped columns has the
summed length. -/
theorem spec_C2 (c0 : Chunk) (rest : List Chunk) (x0 : Column) (xs : List Column)
    (hcompat : chunksCompat (c0 :: rest) = true)
    (hsh : ∀ c ∈ xs, Column.sameShape x0 c = true) :
    (∃ out, Chunk.concat (c0 :: rest) = some (.ok out) ∧
      out.num_rows = ((c0 :: rest).map Chunk.num_rows).sum ∧
      out.num_columns = c0.num_columns) ∧
    (∃ outc, Column.concat (x0 :: xs) = some outc ∧
      outc.len = sumLens (x0 :: xs)) := by
  constructor
  · cases rest with
    | nil => exact ⟨c0, rfl, by simp, rfl⟩
    | cons c1 rest2 =>
        obtain ⟨out, hout, hnr, hnc, _⟩ := chunk_concat_spec c0 c1 rest2 hcompat
        exact ⟨out, hout, hnr, hnc⟩
  · obtain ⟨outc, houtc, _, _, hlen, _⟩ := concat_spec x0 xs hsh
    exact ⟨outc, houtc, hlen⟩

theorem spec_C2_witness :
    (∃ out, Chunk.concat [Chunk.mk [Value.column (.number [1])] 1,
        Chunk.mk [Value.column (.number [2, 3])] 2] = some (.ok out) ∧
      out.num_rows = ([Chunk.mk [Value.column (.number [1])] 1,
        Chunk.mk [Value.column (.number [2, 3])] 2].map Chunk.num_rows).sum ∧
      out.num_columns = (Chunk.mk [Value.column (.number [1])] 1).num_columns) ∧
    (∃ outc, Column.concat [Column.boolean [true], Column.boolean []] = some outc ∧
      outc.len = sumLens [Column.boolean [true], Column.boolean []]) :=
  spec_C2 (Chunk.mk [Value.column (.number [1])] 1)
    [Chunk.mk [Value.column (.number [2, 3])] 2]
    (Column.boolean [true]) [Column.boolean []] (by decide) (by decide)

/-- C3: empty-input error.  Chunk::concat returns the EmptyData error exactly
on the empty slice; on any non-empty compatible input it succeeds with a full
result. -/
theorem spec_C3 (chunks : List Chunk) (hcompat : chunksCompat chunks = true) :
    (chunks = [] →
      Chunk.concat chunks = some (.error (.EmptyData "cannot concat empty chunks"))) ∧
    (chunks ≠ [] → ∃ out, Chunk.concat chunks = some (.ok out)) := by
  constructor
  · intro h
    subst h
    rfl
  · intro h
    cases chunks with
    | nil => exact absurd rfl h
    | cons c0 rest =>
        cases rest with
        | nil => exact ⟨c0, rfl⟩
        | cons c1 rest2 =>
            obtain ⟨out, hout, _⟩ := chunk_concat_spec c0 c1 rest2 hcompat
            exact ⟨out, hout⟩

theorem spec_C3_witness :
    ([Chunk.mk [] 0] = ([] : List Chunk) →
      Chunk.concat [Chunk.mk [] 0]
        = some (.error (.EmptyData "cannot concat empty chunks"))) ∧
    ([Chunk.mk [] 0] ≠ ([] : List Chunk) →
      ∃ out, Chunk.concat [Chunk.mk [] 0] = some (.ok out)) :=
  spec_C3 [Chunk.mk [] 0] (by decide)

/-- C4 counterexample: on a single chunk, Chunk::concat returns a shallow
clone, so a scalar entry stays a scalar in the result, contradicting "the
corresponding entry of the result chunk is always a dense column". -/
theorem spec_C4_cex :
    ∃ out, Chunk.concat [Chunk.mk [Value.scalar (.boolean true)] 3]
      = some (.ok out) ∧
      out.columns.getD 0 (.column (.null 0)) = Value.scalar (.boolean true) ∧
      ∀ c : Column, out.columns.getD 0 (.column (.null 0)) ≠ Value.column c := by
  refine ⟨Chunk.mk [Value.scalar (.boolean true)] 3, rfl, rfl, ?_⟩
  intro c h
  exact Value.noConfusion h

/-- C4 (amended): with at least two compatible chunks, a scalar in slot (i, j)
is materialized into a dense column of the chunk's row count whose every row
is that scalar, scalars of different chunks being materialized independently,
and every entry of the result chunk is a dense column. -/
theorem spec_C4 (c0 c1 : Chunk) (rest : List Chunk) (i j : Nat) (s : Scalar)
    (hcompat : chunksCompat (c0 :: c1 :: rest) = true)
    (hj : j < c0.num_columns)
    (hi : i < (c0 :: c1 :: rest).length)
    (hs : ((c0 :: c1 :: rest).getD i ⟨[], 0⟩).columns.getD j (.column (.null 0))
      = Value.scalar s) :
    ∃ out mats w,
      Chunk.concat (c0 :: c1 :: rest) = some (.ok out) ∧
      optionMap (materializeAt j) (c0 :: c1 :: rest) = some mats ∧
      (mats.getD i (.null 0)).len = ((c0 :: c1 :: rest).getD i ⟨[], 0⟩).num_rows ∧
      (∀ r, r < (mats.getD i (.null 0)).len →
        (mats.getD i (.null 0)).cellAt r = s.toCell) ∧
      Column.concat mats = some w ∧
      out.columns.getD j (.column (.null 0)) = Value.column w := by
  obtain ⟨out, hout, hnr, hnc, hpt⟩ := chunk_concat_spec c0 c1 rest hcompat
  obtain ⟨mats, w, hmats, hw, hent, hmlen, hptq, _, _, _, _⟩ := hpt j hj
  have h1 := hptq i hi
  have hjlt : j < ((c0 :: c1 :: rest).getD i ⟨[], 0⟩).columns.length := by
    obtain ⟨hA, hrestf, _⟩ := chunksCompat_facts hcompat
    have hmem : (c0 :: c1 :: rest).getD i ⟨[], 0⟩ ∈ c0 :: c1 :: rest := by
      rw [getD_in_range hi]
      exact List.getElem_mem hi
    rcases List.mem_cons.mp hmem with h | h
    · rw [h]; exact hj
    · have h5 := (hrestf _ h).2
      unfold Chunk.num_columns at h5
      have h6 : j < c0.columns.length := hj
      omega
  have hget : ((c0 :: c1 :: rest).getD i ⟨[], 0⟩).columns.get? j
      = some (Value.scalar s) := by
    rw [List.get?_eq_getElem?, List.getElem?_eq_getElem hjlt,
      ← getD_in_range hjlt (Value.column (Column.null 0)), hs]
  have hmati : materializeAt j ((c0 :: c1 :: rest).getD i ⟨[], 0⟩)
      = s.repeatN ((c0 :: c1 :: rest).getD i ⟨[], 0⟩).num_rows := by
    simp only [materializeAt, hget]
  obtain ⟨col, hcol, hwfc, hlenc, hshc, hcellsc⟩ :=
    repeatN_spec s ((c0 :: c1 :: rest).getD i ⟨[], 0⟩).num_rows
  have hcole : col = mats.getD i (.null 0) := by
    have h2 := h1
    rw [hmati, hcol] at h2
    exact Option.some.inj h2
  refine ⟨out, mats, w, hout, hmats, ?_, ?_, hw, hent⟩
  · rw [← hcole]
    exact hlenc
  · intro r hr
    rw [← hcole] at hr ⊢
    have hrn : r < (List.replicate
        ((c0 :: c1 :: rest).getD i ⟨[], 0⟩).num_rows s.toCell).length := by
      have h3 : r < ((c0 :: c1 :: rest).getD i ⟨[], 0⟩).num_rows := hlenc ▸ hr
      simpa using h3
    rw [← Column.cells_getD col r (by rw [hlenc]; exact hlenc ▸ hr) CellValue.null,
      hcellsc, getD_in_range hrn]
    simp

theorem spec_C4_witness :
    ∃ out mats w,
      Chunk.concat [Chunk.mk [Value.scalar (.number 7)] 2,
        Chunk.mk [Value.column (.number [1])] 1] = some (.ok out) ∧
      optionMap (materializeAt 0) [Chunk.mk [Value.scalar (.number 7)] 2,
        Chunk.mk [Value.column (.number [1])] 1] = some mats ∧
      (mats.getD 0 (.null 0)).len = ([Chunk.mk [Value.scalar (.number 7)] 2,
        Chunk.mk [Value.column (.number [1])] 1].getD 0 ⟨[], 0⟩).num_rows ∧
      (∀ r, r < (mats.getD 0 (.null 0)).len →
        (mats.getD 0 (.null 0)).cellAt r = (Scalar.number 7).toCell) ∧
      Column.concat mats = some w ∧
      out.columns.getD 0 (.column (.null 0)) = Value.column w :=
  spec_C4 (Chunk.mk [Value.scalar (.number 7)] 2)
    (Chunk.mk [Value.column (.number [1])] 1) [] 0 0 (.number 7)
    (by decide) (by decide) (by decide) rfl

/-- C5: singleton identity.  Chunk::concat of one chunk returns that chunk
(scalar entries included) and Column::concat of one column returns it
unchanged. -/
theorem spec_C5 : (∀ a : Chunk, Chunk.concat [a] = some (.ok a)) ∧
    (∀ x : Column, Column.concat [x] = some x) :=
  ⟨fun a => rfl, fun x => rfl⟩

/-- C6: associativity.  For well-formed same-shaped columns,
concat [a, b, c] equals concat [concat [a, b], c] and concat [a, concat [b, c]];
the same fusion holds for Chunk::concat of schema-compatible chunks. -/
theorem spec_C6 (a b c : Column) (A B C : Chunk)
    (hwfa : a.wf = true) (hwfb : b.wf = true) (hwfc : c.wf = true)
    (hab : Column.sameShape a b = true) (hac : Column.sameShape a c = true)
    (hchunks : chunksCompat [A, B, C] = true) :
    (∃ ab abc, Column.concat [a, b] = some ab ∧
      Column.concat [ab, c] = some abc ∧ Column.concat [a, b, c] = some abc) ∧
    (∃ bc abc2, Column.concat [b, c] = some bc ∧
      Column.concat [a, bc] = some abc2 ∧ Column.concat [a, b, c] = some abc2) ∧
    (∃ AB ABC, Chunk.concat [A, B] = some (.ok AB) ∧
      Chunk.concat [AB, C] = some (.ok ABC) ∧
      Chunk.concat [A, B, C] = some (.ok ABC)) ∧
    (∃ BC ABC2, Chunk.concat [B, C] = some (.ok BC) ∧
      Chunk.concat [A, BC] = some (.ok ABC2) ∧
      Chunk.concat [A, B, C] = some (.ok ABC2)) := by
  have hwfl : ∀ x ∈ a :: ([b] ++ [c]), x.wf = true := by
    intro x hx
    rcases List.mem_cons.mp hx with h | hx2
    · rw [h]; exact hwfa
    rcases List.mem_append.mp hx2 with h | h
    · rw [List.mem_singleton.mp h]; exact hwfb
    · rw [List.mem_singleton.mp h]; exact hwfc
  have hshl : ∀ x ∈ [b] ++ [c], Column.sameShape a x = true := by
    intro x hx
    rcases List.mem_append.mp hx with h | h
    · rw [List.mem_singleton.mp h]; exact hab
    · rw [List.mem_singleton.mp h]; exact hac
  refine ⟨?_, ?_, ?_, ?_⟩
  · obtain ⟨u, w, hu, huw, hall⟩ := concatDispatch_fuse_head a [b] [c] hwfl hshl
    refine ⟨u, w, ?_, ?_, ?_⟩
    · rw [Column.concat, if_neg (by simp)]
      exact hu
    · rw [Column.concat, if_neg (by simp)]
      exact huw
    · rw [Column.concat, if_neg (by simp)]
      exact hall
  · obtain ⟨v, w, hv, hvw, hall⟩ := concatDispatch_fuse_tail a b [c] hwfl hshl
    refine ⟨v, w, ?_, ?_, ?_⟩
    · rw [Column.concat, if_neg (by simp)]
      exact hv
    · rw [Column.concat, if_neg (by simp)]
      exact hvw
    · rw [Column.concat, if_neg (by simp)]
      exact hall
  · exact chunk_concat_fuse_head A B C hchunks
  · exact chunk_concat_fuse_tail A B C hchunks

theorem spec_C6_witness :
    (∃ ab abc, Column.concat [Column.number [1], Column.number [2]] = some ab ∧
      Column.concat [ab, Column.number []] = some abc ∧
      Column.concat [Column.number [1], Column.number [2], Column.number []]
        = some abc) ∧
    (∃ bc abc2, Column.concat [Column.number [2], Column.number []] = some bc ∧
      Column.concat [Column.number [1], bc] = some abc2 ∧
      Column.concat [Column.number [1], Column.number [2], Column.number []]
        = some abc2) ∧
    (∃ AB ABC, Chunk.concat [Chunk.mk [Value.column (.number [1])] 1,
        Chunk.mk [Value.scalar (.number 5)] 2] = some (.ok AB) ∧
      Chunk.concat [AB, Chunk.mk [Value.column (.number [3])] 1]
        = some (.ok ABC) ∧
      Chunk.concat [Chunk.mk [Value.column (.number [1])] 1,
        Chunk.mk [Value.scalar (.number 5)] 2,
        Chunk.mk [Value.column (.number [3])] 1] = some (.ok ABC)) ∧
    (∃ BC ABC2, Chunk.concat [Chunk.mk [Value.scalar (.number 5)] 2,
        Chunk.mk [Value.column (.number [3])] 1] = some (.ok BC) ∧
      Chunk.concat [Chunk.mk [Value.column (.number [1])] 1, BC]
        = some (.ok ABC2) ∧
      Chunk.concat [Chunk.mk [Value.column (.number [1])] 1,
        Chunk.mk [Value.scalar (.number 5)] 2,
        Chunk.mk [Value.column (.number [3])] 1] = some (.ok ABC2)) :=
  spec_C6 (Column.number [1]) (Column.number [2]) (Column.number [])
    (Chunk.mk [Value.column (.number [1])] 1)
    (Chunk.mk [Value.scalar (.number 5)] 2)
    (Chunk.mk [Value.column (.number [3])] 1)
    (by decide) (by decide) (by decide) (by decide) (by decide) (by decide)

/-- C9: tuple field-wise concatenation.  Concatenating tuple columns yields a
tuple of the summed length whose field count and order match the first input,
and whose field p is the concatenation of the field-p projections of the
inputs: projection commutes with concat. -/
theorem spec_C9 (fields0 : List Column) (l0 : Nat) (rest : List Column)
    (hsh : ∀ c ∈ rest, Column.sameShape (.tuple fields0 l0) c = true) :
    ∃ fieldsOut lenOut,
      Column.concat ((Column.tuple fields0 l0) :: rest)
        = some (.tuple fieldsOut lenOut) ∧
      lenOut = sumLens ((Column.tuple fields0 l0) :: rest) ∧
      fieldsOut.length = fields0.length ∧
      ∀ p, p < fields0.length →
        ∃ projs, optionMap (fun c => match c with
            | Column.tuple gs _ => gs.get? (0 + p) | _ => none) rest = some projs ∧
          Column.concat ((fields0.getD p (.null 0)) :: projs)
            = some (fieldsOut.getD p (.null 0)) := by
  cases rest with
  | nil =>
      refine ⟨fields0, l0, rfl, by simp [sumLens, Column.len], rfl, ?_⟩
      intro p hp
      exact ⟨[], rfl, rfl⟩
  | cons c1 crest =>
      have hdispAll : ∀ f ∈ fields0, ∀ rest2 : List Column,
          (∀ x ∈ rest2, Column.sameShape f x = true) →
          ∃ out, Column.concatDispatch f rest2 = some out ∧
            ConcatOut f rest2 out :=
        fun f _ rest2 h => concatDispatch_spec f rest2 h
      obtain ⟨outs, houts, houtslen, houtspt⟩ :=
        concatFields_spec fields0 0 (c1 :: crest) hdispAll (tuple_rest_full hsh)
      refine ⟨outs, l0 + ((c1 :: crest).map Column.len).sum, ?_, ?_, houtslen, ?_⟩
      · rw [Column.concat, if_neg (by simp)]
        simp only [Column.concatDispatch, houts]
      · simp [sumLens, Column.len]
      · intro p hp
        obtain ⟨projs, hprojs, hdisp, _, hprojlen, _⟩ := houtspt p hp
        refine ⟨projs, hprojs, ?_⟩
        rw [Column.concat, if_neg (by simp [hprojlen])]
        exact hdisp

theorem spec_C9_witness :
    ∃ fieldsOut lenOut,
      Column.concat [Column.tuple [Column.number [1], Column.boolean [true]] 1,
        Column.tuple [Column.number [2, 3], Column.boolean [false, true]] 2]
        = some (.tuple fieldsOut lenOut) ∧
      lenOut = sumLens [Column.tuple [Column.number [1], Column.boolean [true]] 1,
        Column.tuple [Column.number [2, 3], Column.boolean [false, true]] 2] ∧
      fieldsOut.length = [Column.number [1], Column.boolean [true]].length ∧
      ∀ p, p < [Column.number [1], Column.boolean [true]].length →
        ∃ projs, optionMap (fun c => match c with
            | Column.tuple gs _ => gs.get? (0 + p) | _ => none)
            [Column.tuple [Column.number [2, 3], Column.boolean [false, true]] 2]
            = some projs ∧
          Column.concat (([Column.number [1], Column.boolean [true]].getD p
            (.null 0)) :: projs) = some (fieldsOut.getD p (.null 0)) :=
  spec_C9 [Column.number [1], Column.boolean [true]] 1
    [Column.tuple [Column.number [2, 3], Column.boolean [false, true]] 2]
    (by decide)

/-- C10 counterexample: Column::concat of the empty slice indexes columns[0]
and panics, so the operation is not total on the empty input. -/
theorem spec_C10_cex : Column.concat [] = none := rfl

/-- C10 (amended): on any non-empty slice of columns of one shape,
Column::concat never panics. -/
theorem spec_C10 (c0 : Column) (rest : List Column)
    (hsh : ∀ c ∈ rest, Column.sameShape c0 c = true) :
    ∃ out, Column.concat (c0 :: rest) = some out := by
  obtain ⟨out, hout, _⟩ := concat_spec c0 rest hsh
  exact ⟨out, hout⟩

theorem spec_C10_witness :
    ∃ out, Column.concat [Column.string [0, 1] [65], Column.string [0] []]
      = some out :=
  spec_C10 (Column.string [0, 1] [65]) [Column.string [0] []] (by decide)

/-- C7: nullable composer.  Concatenating nullable columns concatenates the
inner columns and validity bitmaps separately and recombines them: the output
is a nullable column whose validity length and inner length both equal the
total row count, and whose validity bit at each output row equals the bit at
the corresponding source row. -/
theorem spec_C7 (inner0 : Column) (v0 : List Bool) (rest : List Column)
    (hwf : ∀ c ∈ (Column.nullable inner0 v0) :: rest, c.wf = true)
    (hsh : ∀ c ∈ rest, Column.sameShape (.nullable inner0 v0) c = true) :
    ∃ innerOut validity,
      Column.concat ((Column.nullable inner0 v0) :: rest)
        = some (.nullable innerOut validity) ∧
      validity.length = sumLens ((Column.nullable inner0 v0) :: rest) ∧
      innerOut.len = sumLens ((Column.nullable inner0 v0) :: rest) ∧
      ∀ m, m < ((Column.nullable inner0 v0) :: rest).length → ∀ iC vC,
        ((Column.nullable inner0 v0) :: rest).getD m (.null 0)
          = Column.nullable iC vC →
        ∀ k, k < vC.length →
          validity.getD (prefLen ((Column.nullable inner0 v0) :: rest) m + k) false
            = vC.getD k false := by
  cases rest with
  | nil =>
      have hwf0 := hwf _ (List.mem_cons_self _ _)
      simp only [Column.wf, Bool.and_eq_true, beq_iff_eq] at hwf0
      refine ⟨inner0, v0, rfl, ?_, ?_, ?_⟩
      · simp [sumLens, Column.len]
      · rw [← hwf0.1]
        simp [sumLens, Column.len]
      · intro m hm iC vC hmv k hk
        have hm0 : m = 0 := by
          simp only [List.length_cons, List.length_nil] at hm
          omega
        subst hm0
        simp only [List.getD_cons_zero] at hmv
        obtain ⟨hi, hv⟩ := Column.nullable.inj hmv
        subst hv
        simp [prefLen, sumLens]
  | cons c1 crest =>
      obtain ⟨parts, innerOut, hparts, hinner, hdisp, hplen, hppt⟩ :=
        concatDispatch_nullable_validity hsh
      have hplen2 : parts.length = crest.length + 1 := by simpa using hplen
      have hconc : Column.concat ((Column.nullable inner0 v0) :: c1 :: crest)
          = some (.nullable innerOut ((v0 :: parts.map Prod.snd).flatten)) := by
        rw [Column.concat, if_neg (by simp)]
        exact hdisp
      have hVL : (v0 :: parts.map Prod.snd).map List.length
          = (((Column.nullable inner0 v0) :: c1 :: crest)).map Column.len := by
        refine ext_getD 0 (by simp [hplen2]) ?_
        intro q hq
        cases q with
        | zero => simp [Column.len]
        | succ q =>
            have hql : q < parts.length := by
              simp only [List.length_map, List.length_cons] at hq
              omega
            have hq2 : q < (c1 :: crest).length := by
              rw [← hplen]
              exact hql
            have hVL1 : q + 1 < (v0 :: parts.map Prod.snd).length := by
              simp only [List.length_cons, List.length_map]
              omega
            have hL1 : q + 1
                < ((Column.nullable inner0 v0) :: c1 :: crest).length := by
              simp only [List.length_cons] at hq2 ⊢
              omega
            rw [getD_map_in_range hVL1 0, getD_map_in_range hL1 0]
            simp only [List.getElem_cons_succ]
            rw [List.getElem_map]
            have h6 := hppt q hq2
            rw [getD_in_range hq2] at h6
            have h7 : parts.getD q (Column.null 0, ([] : List Bool)) = parts[q] :=
              getD_in_range hql _
            rw [h6, h7]
            simp [Column.len]
      obtain ⟨out2, hout2, hsh3, hemp3, hlen3, hwfc3⟩ :=
        concat_spec (Column.nullable inner0 v0) (c1 :: crest) hsh
      obtain ⟨hwfo3, _⟩ := hwfc3 hwf
      have hoe : out2
          = Column.nullable innerOut ((v0 :: parts.map Prod.snd).flatten) := by
        have h2 := hout2
        rw [hconc] at h2
        exact (Option.some.inj h2).symm
      subst hoe
      have hvallen : ((v0 :: parts.map Prod.snd).flatten).length
          = sumLens ((Column.nullable inner0 v0) :: c1 :: crest) := hlen3
      have hwfo4 := hwfo3
      simp only [Column.wf, Bool.and_eq_true, beq_iff_eq] at hwfo4
      refine ⟨innerOut, (v0 :: parts.map Prod.snd).flatten, hconc, hvallen, ?_, ?_⟩
      · rw [← hwfo4.1]
        exact hvallen
      · intro m hm iC vC hmv k hk
        have hVLm : (v0 :: parts.map Prod.snd).getD m [] = vC := by
          cases m with
          | zero =>
              simp only [List.getD_cons_zero] at hmv ⊢
              exact (Column.nullable.inj hmv).2
          | succ q =>
              have hq2 : q < (c1 :: crest).length := by
                simp only [List.length_cons] at hm
                omega
              have hql : q < parts.length := by rw [hplen]; exact hq2
              simp only [List.getD_cons_succ] at hmv ⊢
              have h6 := hppt q hq2
              rw [hmv] at h6
              obtain ⟨h7, h8⟩ := Column.nullable.inj h6
              rw [getD_map_in_range hql ([] : List Bool)]
              rw [getD_in_range hql] at h8
              exact h8.symm
        have hmVL : m < (v0 :: parts.map Prod.snd).length := by
          simp only [List.length_cons, List.length_map]
          simp only [List.length_cons] at hm
          omega
        have hkVL : k < ((v0 :: parts.map Prod.snd).getD m []).length := by
          rw [hVLm]
          exact hk
        have hseg := flatten_getD_segment' (v0 :: parts.map Prod.snd) m k hmVL hkVL false
        have hpref : (((v0 :: parts.map Prod.snd).take m).map List.length).sum
            = prefLen ((Column.nullable inner0 v0) :: c1 :: crest) m := by
          unfold prefLen sumLens
          rw [List.map_take, List.map_take, hVL]
        rw [hpref] at hseg
        rw [hseg, hVLm]

theorem spec_C7_witness :
    ∃ innerOut validity,
      Column.concat [Column.nullable (.number [1, 2]) [true, false],
        Column.nullable (.number [5]) [false]]
        = some (.nullable innerOut validity) ∧
      validity.length = sumLens [Column.nullable (.number [1, 2]) [true, false],
        Column.nullable (.number [5]) [false]] ∧
      innerOut.len = sumLens [Column.nullable (.number [1, 2]) [true, false],
        Column.nullable (.number [5]) [false]] ∧
      ∀ m, m < ([Column.nullable (.number [1, 2]) [true, false],
          Column.nullable (.number [5]) [false]]).length → ∀ iC vC,
        [Column.nullable (.number [1, 2]) [true, false],
          Column.nullable (.number [5]) [false]].getD m (.null 0)
          = Column.nullable iC vC →
        ∀ k, k < vC.length →
          validity.getD (prefLen [Column.nullable (.number [1, 2]) [true, false],
            Column.nullable (.number [5]) [false]] m + k) false
            = vC.getD k false :=
  spec_C7 (.number [1, 2]) [true, false] [Column.nullable (.number [5]) [false]]
    (by decide) (by decide)

/-- C8: string concat.  Concatenating string columns keeps every byte slice:
input row r of input m appears unchanged at output row r plus the rows before
input m, and the output offsets start at 0, are monotone, and end at the data
length. -/
theorem spec_C8 (offs0 data0 : List Nat) (rest : List Column)
    (hwf : ∀ c ∈ (Column.string offs0 data0) :: rest, c.wf = true)
    (hsh : ∀ c ∈ rest, Column.sameShape (.string offs0 data0) c = true) :
    ∃ offsOut dataOut,
      Column.concat ((Column.string offs0 data0) :: rest)
        = some (.string offsOut dataOut) ∧
      offsOut.head? = some 0 ∧ offsetsMono offsOut = true ∧
      offsOut.getLast? = some dataOut.length ∧
      (Column.string offsOut dataOut).len
        = sumLens ((Column.string offs0 data0) :: rest) ∧
      ∀ m, m < ((Column.string offs0 data0) :: rest).length →
        ∀ r, r < (((Column.string offs0 data0) :: rest).getD m (.null 0)).len →
          (Column.string offsOut dataOut).cellAt
            (r + prefLen ((Column.string offs0 data0) :: rest) m)
            = (((Column.string offs0 data0) :: rest).getD m (.null 0)).cellAt r := by
  obtain ⟨out, hout, hsh2, hwfo, hlen, hcells, hmap⟩ :=
    concat_row_mapping (.string offs0 data0) rest hwf hsh
  obtain ⟨offsOut, dataOut, hoe⟩ : ∃ o d, out = Column.string o d := by
    cases out <;> simp [Column.sameShape] at hsh2 <;> exact ⟨_, _, rfl⟩
  subst hoe
  have hwfo2 := hwfo
  simp only [Column.wf, Bool.and_eq_true, beq_iff_eq] at hwfo2
  obtain ⟨⟨h1, h2⟩, h3⟩ := hwfo2
  refine ⟨offsOut, dataOut, hout, h1, h2, h3, hlen, ?_⟩
  intro m hm r hr
  have h4 := hmap m hm r hr
  rw [Nat.add_comm r (prefLen ((Column.string offs0 data0) :: rest) m)]
  exact h4

theorem spec_C8_witness :
    ∃ offsOut dataOut,
      Column.concat [Column.string [0, 2] [65, 66], Column.string [0, 0, 1] [67]]
        = some (.string offsOut dataOut) ∧
      offsOut.head? = some 0 ∧ offsetsMono offsOut = true ∧
      offsOut.getLast? = some dataOut.length ∧
      (Column.string offsOut dataOut).len
        = sumLens [Column.string [0, 2] [65, 66], Column.string [0, 0, 1] [67]] ∧
      ∀ m, m < ([Column.string [0, 2] [65, 66],
          Column.string [0, 0, 1] [67]]).length →
        ∀ r, r < ([Column.string [0, 2] [65, 66],
            Column.string [0, 0, 1] [67]].getD m (.null 0)).len →
          (Column.string offsOut dataOut).cellAt
            (r + prefLen [Column.string [0, 2] [65, 66],
              Column.string [0, 0, 1] [67]] m)
            = ([Column.string [0, 2] [65, 66],
              Column.string [0, 0, 1] [67]].getD m (.null 0)).cellAt r :=
  spec_C8 [0, 2] [65, 66] [Column.string [0, 0, 1] [67]] (by decide) (by decide)
